import Mathlib

/-!
# Verification development for `sim.go` (tddg/redbench)

A shallow embedding of the trace simulator: the data model (`Object`, `Lambda`,
`Proxy`, `Record`, `Options`), the shard placer `random`, the access routine
`perform`, the initialisers `initProxies` / `initTimeline` and the record loop of
`main`.

Modelling conventions.
* Go maps `map[string]T` are association lists with at most one binding per key
  (`mapLookup`, `mapInsert`); `*Object` values are stored by value, which is exact
  because every `&Object` is freshly allocated and stored under one key of one map.
* Go `uint64` values are naturals, Go `int` values are integers; every arithmetic
  operation that can leave the 64-bit range is followed by `u64` / `wrapInt`.
* A run-time panic (index out of range, nil dereference, division by zero, slice
  bounds) ends the program: `Outcome.crash` carries the state at that point.
* The package-level generator of `math/rand` and the clock are external: the
  generator is a `RandSource`, its current state is threaded explicitly, and the
  clock reading of each call is an input.
-/

set_option linter.unusedVariables false

namespace Redbench

/-! ## Machine integers -/

/-- Wrap-around of a `uint64` result. -/
def u64 (n : Nat) : Nat := n % 18446744073709551616

/-- Conversion `uint64(i)` of a Go `int`. -/
def toUint64 (i : Int) : Nat := (i % 18446744073709551616).toNat

/-- Wrap-around of a Go `int` (64-bit two's complement) result; also the
conversion `int(u)` of a `uint64`. -/
def wrapInt (i : Int) : Int :=
  (i + 9223372036854775808) % 18446744073709551616 - 9223372036854775808

/-! ## Go maps with string keys -/

/-- Map read `m[k]` with the comma-ok form: `none` when the key is absent. -/
def mapLookup {α : Type} (k : String) : List (String × α) → Option α
  | [] => none
  | (k1, v) :: m => if k1 = k then some v else mapLookup k m

/-- Map write `m[k] = v`: replaces the binding of `k` or adds one. -/
def mapInsert {α : Type} (k : String) (v : α) : List (String × α) → List (String × α)
  | [] => [(k, v)]
  | (k1, v1) :: m => if k1 = k then (k, v) :: m else (k1, v1) :: mapInsert k v m

/-- Slice or array read with a Go `int` index: `none` stands for the
index-out-of-range panic. -/
def indexInt {α : Type} (l : List α) (i : Int) : Option α :=
  if 0 ≤ i then l[i.toNat]? else none

/-! ## Data model (lines 18-41, 182-202) -/

structure Object where
  Key : String
  Sz : Nat
  Freq : Nat
deriving DecidableEq, Repr

structure Lambda where
  Kvs : List (String × Object)
  MemUsed : Nat
deriving DecidableEq, Repr

structure Proxy where
  Id : String
  LambdaPool : List Lambda
  Map : List (String × List Nat)
deriving DecidableEq, Repr

structure Record where
  Key : String
  Sz : Nat
  Timestamp : String
  TimestampHr : Nat
  Timestamp15min : Nat
deriving DecidableEq, Repr

structure Options where
  InputCsv : String
  ReuseOutputCsv : String
  MemOutputCsv : String
  NumProxies : Int
  NumLambdasPerProxy : Int
  NumHours : Int
  NumDataShards : Int
  NumParityShards : Int
deriving DecidableEq, Repr

def DefaultOptions : Options :=
  { InputCsv := "input.csv"
    ReuseOutputCsv := "output.csv"
    MemOutputCsv := "output2.csv"
    NumProxies := 2
    NumLambdasPerProxy := 32
    NumHours := 1800
    NumDataShards := 10
    NumParityShards := 2 }

/-! ## `strconv.Itoa` and `strconv.Atoi` -/

/-- The decimal digit character of `d < 10`. -/
def digitChar (d : Nat) : Char :=
  match d with
  | 0 => '0' | 1 => '1' | 2 => '2' | 3 => '3' | 4 => '4'
  | 5 => '5' | 6 => '6' | 7 => '7' | 8 => '8' | _ => '9'

/-- The value of a decimal digit character. -/
def charDigit (c : Char) : Option Nat :=
  if c = '0' then some 0 else if c = '1' then some 1 else if c = '2' then some 2
  else if c = '3' then some 3 else if c = '4' then some 4 else if c = '5' then some 5
  else if c = '6' then some 6 else if c = '7' then some 7 else if c = '8' then some 8
  else if c = '9' then some 9 else none

/-- Decimal digits of `n`, least significant first; `fuel` bounds the number of
digits and `n + 1` is always enough. -/
def digitsLE : Nat → Nat → List Char
  | 0, _ => []
  | fuel + 1, n =>
    if n < 10 then [digitChar n] else digitChar (n % 10) :: digitsLE fuel (n / 10)

/-- Value of a digit string given least significant digit first. -/
def valLE : List Char → Option Nat
  | [] => some 0
  | c :: cs =>
    match charDigit c, valLE cs with
    | some d, some v => some (d + 10 * v)
    | _, _ => none

/-- Value of a non-empty string of decimal digits. -/
def parseNat (cs : List Char) : Option Nat :=
  if cs = [] then none else valLE cs.reverse

/-- Model of `strconv.Itoa`: the decimal representation of a Go `int`. -/
def Itoa (i : Int) : String :=
  if i < 0 then String.mk ('-' :: (digitsLE (i.natAbs + 1) i.natAbs).reverse)
  else String.mk (digitsLE (i.toNat + 1) i.toNat).reverse

/-- Model of `strconv.Atoi` with the error result dropped, as every caller in
`sim.go` does: a syntax error gives 0 and a value out of range gives the nearest
representable `int`. -/
def Atoi (s : String) : Int :=
  match s.data with
  | [] => 0
  | c :: cs =>
    if c = '-' then
      match parseNat cs with
      | some v => max (-(v : Int)) (-9223372036854775808)
      | none => 0
    else if c = '+' then
      match parseNat cs with
      | some v => min (v : Int) 9223372036854775807
      | none => 0
    else
      match parseNat (c :: cs) with
      | some v => min (v : Int) 9223372036854775807
      | none => 0

/-! ## Outcomes -/

/-- Result of running a piece of code: it ran to completion in state `s`, or it
panicked and `s` is the state at the point of the panic. -/
inductive Outcome (σ : Type) where
  | done (s : σ)
  | crash (s : σ)
deriving DecidableEq, Repr

/-- The state an outcome ends in. -/
def Outcome.state {σ : Type} : Outcome σ → σ
  | .done s => s
  | .crash s => s

/-- Whether the code ran to completion. -/
def Outcome.isDone {σ : Type} : Outcome σ → Bool
  | .done _ => true
  | .crash _ => false

/-- Transport of the final state. -/
def Outcome.map {σ τ : Type} (f : σ → τ) : Outcome σ → Outcome τ
  | .done s => .done (f s)
  | .crash s => .crash (f s)

/-! ## The shard placer (lines 56-61) -/

/-- The package-level generator of `math/rand`: `seed s` is the generator state
after `rand.Seed(s)`; `perm g n` is the slice returned by `rand.Perm(n)` from
state `g` together with the state left behind. -/
structure RandSource where
  seed : Int → Nat
  perm : Nat → Nat → List Nat × Nat

/-- The contract of `rand.Perm`: the result is a permutation of `[0, n)`. -/
def RandSource.Valid (R : RandSource) : Prop :=
  ∀ g n, List.Perm (R.perm g n).1 (List.range n)

/-- `random(numLambdas, numChunks)`, called at clock reading `now` with the
generator in state `gen`. The first component is the returned slice (`none` for a
panic: negative length in `rand.Perm`, or slice bounds out of range), the second
the generator state left behind. -/
def random (R : RandSource) (now : Int) (gen : Nat) (numLambdas numChunks : Int) :
    Option (List Nat) × Nat :=
  let g1 := R.seed now
  if numLambdas < 0 then (none, g1)
  else
    let r := R.perm g1 numLambdas.toNat
    if 0 ≤ numChunks ∧ numChunks ≤ (r.1.length : Int) then
      (some (r.1.take numChunks.toNat), r.2)
    else (none, r.2)

/-! ## `perform` (lines 63-108) -/

/-- What `perform` can reach through its arguments: the proxy (its `LambdaPool`
and `Map` are reference types, so updates are seen by the caller) and the two
global accumulators. -/
structure Store where
  p : Proxy
  reuseTimeline : List (List Int)
  memArr : List Int
deriving DecidableEq, Repr

/-- The statement `tl[i][j]++`. -/
def incrCell (tl : List (List Int)) (i : Int) (j : Nat) : Option (List (List Int)) :=
  match indexInt tl i with
  | none => none
  | some row =>
    match row[j]? with
    | none => none
    | some c => some (tl.set i.toNat (row.set j (wrapInt (c + 1))))

/-- The statement `arr[i] += v`. -/
def addAt (arr : List Int) (i : Int) (v : Int) : Option (List Int) :=
  match indexInt arr i with
  | none => none
  | some c => some (arr.set i.toNat (wrapInt (c + v)))

/-- The index `proxyIdx*opts.NumLambdasPerProxy + idx` of lines 73-75 and 95-97. -/
def lambdaIdx (p : Proxy) (opts : Options) (idx : Nat) : Int :=
  wrapInt (wrapInt (Atoi p.Id * opts.NumLambdasPerProxy) + (idx : Int))

/-- Body of the hit loop (lines 68-78) for one stored index. -/
def hitStep (rec : Record) (opts : Options) (st : Store) (idx : Nat) : Outcome Store :=
  match st.p.LambdaPool[idx]? with
  | none => .crash st
  | some lam =>
    match mapLookup rec.Key lam.Kvs with
    | none => .crash st
    | some obj =>
      if toUint64 opts.NumDataShards = 0 then .crash st
      else
        let obj1 : Object :=
          { Key := obj.Key
            Sz := rec.Sz / toUint64 opts.NumDataShards
            Freq := u64 (obj.Freq + 1) }
        let lam1 : Lambda := { Kvs := mapInsert rec.Key obj1 lam.Kvs, MemUsed := lam.MemUsed }
        let p1 : Proxy :=
          { Id := st.p.Id, LambdaPool := st.p.LambdaPool.set idx lam1, Map := st.p.Map }
        let st1 : Store := { p := p1, reuseTimeline := st.reuseTimeline, memArr := st.memArr }
        match incrCell st.reuseTimeline (lambdaIdx st.p opts idx) rec.TimestampHr with
        | none => .crash st1
        | some tl => .done { p := p1, reuseTimeline := tl, memArr := st.memArr }

/-- Body of the miss loop (lines 87-104) for one selected index. -/
def missStep (rec : Record) (opts : Options) (st : Store) (idx : Nat) : Outcome Store :=
  match st.p.LambdaPool[idx]? with
  | none => .crash st
  | some lam =>
    if toUint64 opts.NumDataShards = 0 then .crash st
    else
      let obj : Object :=
        { Key := rec.Key, Sz := rec.Sz / toUint64 opts.NumDataShards, Freq := 0 }
      let lam1 : Lambda :=
        { Kvs := mapInsert rec.Key obj lam.Kvs
          MemUsed := u64 (lam.MemUsed + rec.Sz / toUint64 opts.NumDataShards) }
      let p1 : Proxy :=
        { Id := st.p.Id, LambdaPool := st.p.LambdaPool.set idx lam1, Map := st.p.Map }
      let st1 : Store := { p := p1, reuseTimeline := st.reuseTimeline, memArr := st.memArr }
      let mem1 : Option (List Int) :=
        if rec.TimestampHr ≤ 99 then
          addAt st.memArr (lambdaIdx st.p opts idx) (Int.tdiv (wrapInt (rec.Sz : Int)) 1048576)
        else some st.memArr
      match mem1 with
      | none => .crash st1
      | some mem =>
        match incrCell st.reuseTimeline (lambdaIdx st.p opts idx) rec.TimestampHr with
        | none => .crash { p := p1, reuseTimeline := st.reuseTimeline, memArr := mem }
        | some tl => .done { p := p1, reuseTimeline := tl, memArr := mem }

/-- A `for _, idx := range val` loop whose body may panic. -/
def forEach (f : Store → Nat → Outcome Store) : List Nat → Store → Outcome Store
  | [], st => .done st
  | idx :: rest, st =>
    match f st idx with
    | .done st1 => forEach f rest st1
    | .crash st1 => .crash st1

/-- `perform(p, rec, reuseTimeline, memArr, opts)` called at clock reading `now`
with the generator in state `gen`: the outcome and the generator state left
behind. -/
def perform (R : RandSource) (now : Int) (gen : Nat) (p : Proxy) (rec : Record)
    (reuseTimeline : List (List Int)) (memArr : List Int) (opts : Options) :
    Outcome Store × Nat :=
  match mapLookup rec.Key p.Map with
  | some val =>
    (forEach (hitStep rec opts) val { p := p, reuseTimeline := reuseTimeline, memArr := memArr },
      gen)
  | none =>
    match random R now gen opts.NumLambdasPerProxy
        (wrapInt (opts.NumDataShards + opts.NumParityShards)) with
    | (none, g) => (.crash { p := p, reuseTimeline := reuseTimeline, memArr := memArr }, g)
    | (some index, g) =>
      (forEach (missStep rec opts) index
        { p := { Id := p.Id, LambdaPool := p.LambdaPool, Map := mapInsert rec.Key index p.Map }
          reuseTimeline := reuseTimeline
          memArr := memArr }, g)

/-! ## Initialisation (lines 145-180, 246-249) and the record loop (lines 252-278) -/

/-- `initProxies(nProxies, nLambdasPerProxy)`. The ring it builds belongs to an
external library and is represented by the function `locate` of `mainLoop`; `none`
is a panic: `make` on a negative length, or `consistent.New` on an empty member
list (zero proxies). -/
def initProxies (nProxies nLambdasPerProxy : Int) : Option (List Proxy) :=
  if nProxies < 0 then none
  else if 0 < nProxies ∧ nLambdasPerProxy < 0 then none
  else if nProxies = 0 then none
  else
    some ((List.range nProxies.toNat).map fun (i : Nat) =>
      { Id := Itoa (i : Int)
        LambdaPool := List.replicate nLambdasPerProxy.toNat { Kvs := [], MemUsed := 0 }
        Map := [] })

/-- `initTimeline(numLambdas, numHours)`. -/
def initTimeline (numLambdas numHours : Int) : Option (List (List Int)) :=
  if numLambdas < 0 then none
  else if 0 < numLambdas ∧ numHours < 0 then none
  else some (List.replicate numLambdas.toNat (List.replicate numHours.toNat 0))

/-- The whole mutable state of a run. -/
structure World where
  proxies : List Proxy
  reuseTimeline : List (List Int)
  memArr : List Int
  gen : Nat
deriving DecidableEq, Repr

/-- Lines 246-249 of `main`: the state before the first record is read, with the
generator in state `gen`. -/
def initWorld (opts : Options) (gen : Nat) : Option World :=
  match initProxies opts.NumProxies opts.NumLambdasPerProxy with
  | none => none
  | some proxies =>
    match initTimeline (wrapInt (opts.NumProxies * opts.NumLambdasPerProxy)) opts.NumHours with
    | none => none
    | some tl =>
      some { proxies := proxies
             reuseTimeline := tl
             memArr := List.replicate (wrapInt (opts.NumProxies * opts.NumLambdasPerProxy)).toNat 0
             gen := gen }

/-- The call `perform(proxies[id], rec, reuseTimeline, memArr, option)` of line 277. -/
def step (R : RandSource) (opts : Options) (w : World) (id : Int) (rec : Record) (now : Int) :
    Outcome World :=
  match indexInt w.proxies id with
  | none => .crash w
  | some p =>
    let r := perform R now w.gen p rec w.reuseTimeline w.memArr opts
    r.1.map fun st =>
      { proxies := w.proxies.set id.toNat st.p
        reuseTimeline := st.reuseTimeline
        memArr := st.memArr
        gen := r.2 }

/-- One iteration of the record loop: the parsed record and the clock reading at
the time it is processed. -/
structure Event where
  record : Record
  now : Int
deriving DecidableEq, Repr

/-- The record loop of `main` (lines 252-278). `locate key` is the string
`ring.LocateKey([]byte(key)).String()`; the ring is immutable after construction,
so it is a function of the key. -/
def mainLoop (R : RandSource) (locate : String → String) (opts : Options) :
    World → List Event → Outcome World
  | w, [] => .done w
  | w, e :: es =>
    match step R opts w (Atoi (locate e.record.Key)) e.record e.now with
    | .done w1 => mainLoop R locate opts w1 es
    | .crash w1 => .crash w1

/-- The simulation part of `main`: set-up followed by the record loop; `none`
when the set-up itself panics. -/
def simulate (R : RandSource) (locate : String → String) (opts : Options) (gen : Nat)
    (trace : List Event) : Option (Outcome World) :=
  match initWorld opts gen with
  | none => none
  | some w => some (mainLoop R locate opts w trace)


/-! ## Vocabulary of the specifications -/

/-- What the hit path does to one worker (lines 68-70); `none` where it panics. -/
def hitUpd (rec : Record) (opts : Options) (lam : Lambda) : Option Lambda :=
  match mapLookup rec.Key lam.Kvs with
  | none => none
  | some obj =>
    if toUint64 opts.NumDataShards = 0 then none
    else
      some { Kvs := mapInsert rec.Key
                      { Key := obj.Key
                        Sz := rec.Sz / toUint64 opts.NumDataShards
                        Freq := u64 (obj.Freq + 1) } lam.Kvs
             MemUsed := lam.MemUsed }

/-- What the miss path does to one worker (lines 87-92); `none` where it panics. -/
def missUpd (rec : Record) (opts : Options) (lam : Lambda) : Option Lambda :=
  if toUint64 opts.NumDataShards = 0 then none
  else
    some { Kvs := mapInsert rec.Key
                    { Key := rec.Key, Sz := rec.Sz / toUint64 opts.NumDataShards, Freq := 0 }
                    lam.Kvs
           MemUsed := u64 (lam.MemUsed + rec.Sz / toUint64 opts.NumDataShards) }

/-- What the miss path adds to a `memArr` entry (lines 100-102), if anything. -/
def missDelta (rec : Record) : Option Int :=
  if rec.TimestampHr ≤ 99 then some (Int.tdiv (wrapInt (rec.Sz : Int)) 1048576) else none

/-- The statement `arr[i] += v` when there is an amount `v` to add, nothing
otherwise. -/
def addOpt (delta : Option Int) (arr : List Int) (i : Int) : Option (List Int) :=
  match delta with
  | none => some arr
  | some v => addAt arr i v

/-- The common shape of the two loop bodies: update the worker, add `delta` to the
worker's `memArr` entry when there is one, count the access in the timeline. -/
def accessStep (upd : Lambda → Option Lambda) (delta : Option Int) (hr : Nat) (opts : Options)
    (st : Store) (idx : Nat) : Outcome Store :=
  match st.p.LambdaPool[idx]? with
  | none => .crash st
  | some lam =>
    match upd lam with
    | none => .crash st
    | some lam1 =>
      let p1 : Proxy :=
        { Id := st.p.Id, LambdaPool := st.p.LambdaPool.set idx lam1, Map := st.p.Map }
      match addOpt delta st.memArr (lambdaIdx st.p opts idx) with
      | none => .crash { p := p1, reuseTimeline := st.reuseTimeline, memArr := st.memArr }
      | some mem =>
        match incrCell st.reuseTimeline (lambdaIdx st.p opts idx) hr with
        | none => .crash { p := p1, reuseTimeline := st.reuseTimeline, memArr := mem }
        | some tl => .done { p := p1, reuseTimeline := tl, memArr := mem }

/-- The shape of a stored shard set: `dataShards + parityShards` pairwise distinct
worker indices, each in `[0, NumLambdasPerProxy)`. -/
def PlacementShape (opts : Options) (idxs : List Nat) : Prop :=
  (idxs.length : Int) = opts.NumDataShards + opts.NumParityShards ∧ idxs.Nodup ∧
    ∀ i ∈ idxs, (i : Int) < opts.NumLambdasPerProxy

/-- Worker `i` of the proxy holds an Object under key `k` whose `Key` field is `k`. -/
def HasObj (p : Proxy) (k : String) (i : Nat) : Prop :=
  ∃ lam obj, p.LambdaPool[i]? = some lam ∧ mapLookup k lam.Kvs = some obj ∧ obj.Key = k

/-- An update keeps, under every key, an Object whose `Key` field is that key. -/
def UpdKeeps (upd : Lambda → Option Lambda) : Prop :=
  ∀ lam lam1, upd lam = some lam1 → ∀ k obj, mapLookup k lam.Kvs = some obj → obj.Key = k →
    ∃ obj1, mapLookup k lam1.Kvs = some obj1 ∧ obj1.Key = k

/-- The effect of a completed loop over the shard set `shard` of a proxy whose
workers have the global indices `base + idx`: every addressed worker is updated
once by `upd`, bucket `hr` of every addressed timeline row is incremented once,
every addressed `memArr` entry receives `delta` once, nothing else changes. -/
def AccessEffect (upd : Lambda → Option Lambda) (delta : Option Int) (hr : Nat) (base : Int)
    (shard : List Nat) (st st2 : Store) : Prop :=
  st2.p.Id = st.p.Id ∧
  (∀ j, j ∉ shard → st2.p.LambdaPool[j]? = st.p.LambdaPool[j]?) ∧
  (∀ j ∈ shard, ∃ lam lam1, st.p.LambdaPool[j]? = some lam ∧ upd lam = some lam1 ∧
    st2.p.LambdaPool[j]? = some lam1) ∧
  (∀ g : Nat, (∀ idx ∈ shard, base + (idx : Int) ≠ (g : Int)) →
    st2.reuseTimeline[g]? = st.reuseTimeline[g]? ∧ st2.memArr[g]? = st.memArr[g]?) ∧
  (∀ idx ∈ shard, ∃ row c, st.reuseTimeline[(base + (idx : Int)).toNat]? = some row ∧
    row[hr]? = some c ∧
    st2.reuseTimeline[(base + (idx : Int)).toNat]? = some (row.set hr (wrapInt (c + 1)))) ∧
  (delta = none → st2.memArr = st.memArr) ∧
  (∀ v, delta = some v → ∀ idx ∈ shard, ∃ c,
    st.memArr[(base + (idx : Int)).toNat]? = some c ∧
    st2.memArr[(base + (idx : Int)).toNat]? = some (wrapInt (c + v)))

/-- The invariants of one proxy: pool size, shape of every stored shard set,
an Object on every referenced worker, and no Object outside the shard sets. -/
def ProxyInv (opts : Options) (p : Proxy) : Prop :=
  (p.LambdaPool.length : Int) = opts.NumLambdasPerProxy ∧
  (∀ k idxs, mapLookup k p.Map = some idxs → PlacementShape opts idxs) ∧
  (∀ k idxs, mapLookup k p.Map = some idxs → ∀ i ∈ idxs, HasObj p k i) ∧
  (∀ (j : Nat) lam k obj, p.LambdaPool[j]? = some lam → mapLookup k lam.Kvs = some obj →
    ∃ idxs, mapLookup k p.Map = some idxs ∧ j ∈ idxs)

/-- The invariants of a run: the proxies are numbered by position, each satisfies
`ProxyInv`, and the two accumulators have one row (entry) per global worker index
and `NumHours` buckets per row. -/
def WorldInv (opts : Options) (w : World) : Prop :=
  (w.proxies.length : Int) = opts.NumProxies ∧
  (∀ (i : Nat) (p : Proxy), w.proxies[i]? = some p → p.Id = Itoa (i : Int) ∧ ProxyInv opts p) ∧
  (w.reuseTimeline.length : Int) = opts.NumProxies * opts.NumLambdasPerProxy ∧
  (∀ row ∈ w.reuseTimeline, (row.length : Int) = opts.NumHours) ∧
  (w.memArr.length : Int) = opts.NumProxies * opts.NumLambdasPerProxy

/-- A configuration under which `perform` is meant to run: there is at least one
proxy (the ring needs a member), sizes are non-negative and fit a Go `int`, there
is at least one data shard, and the shard count does not exceed the pool size. -/
def Options.Valid (opts : Options) : Prop :=
  1 ≤ opts.NumProxies ∧ 0 ≤ opts.NumLambdasPerProxy ∧
  opts.NumLambdasPerProxy < 9223372036854775808 ∧
  opts.NumProxies * opts.NumLambdasPerProxy < 9223372036854775808 ∧
  0 ≤ opts.NumHours ∧
  1 ≤ opts.NumDataShards ∧ opts.NumDataShards < 9223372036854775808 ∧
  0 ≤ opts.NumDataShards + opts.NumParityShards ∧
  opts.NumDataShards + opts.NumParityShards ≤ opts.NumLambdasPerProxy

/-- The shard set stored for key `k` by proxy number `i` (empty when there is none). -/
def shardSet (w : World) (i : Nat) (k : String) : List Nat :=
  match w.proxies[i]? with
  | none => []
  | some p => (mapLookup k p.Map).getD []

/-- The Object stored under key `k` by worker `j` of proxy number `i`. -/
def objectAt (w : World) (i j : Nat) (k : String) : Option Object :=
  match w.proxies[i]? with
  | none => none
  | some p =>
    match p.LambdaPool[j]? with
    | none => none
    | some lam => mapLookup k lam.Kvs

/-- Every record of the trace is routed to an existing proxy (the ring returns one
of its members, and the members are the proxy ids, so the id computed at line 275
is a valid index) and falls inside the timeline. -/
def TraceOK (locate : String → String) (opts : Options) (trace : List Event) : Prop :=
  ∀ e ∈ trace,
    (∃ i : Nat, (i : Int) < opts.NumProxies ∧ Atoi (locate e.record.Key) = (i : Int)) ∧
    (e.record.TimestampHr : Int) < opts.NumHours

/-- No cell of the timeline is negative. -/
def NonNeg (tl : List (List Int)) : Prop := ∀ row ∈ tl, ∀ c ∈ row, 0 ≤ c

/-- Proxy number `i` stores the shard set `idxs` for key `k`. -/
def PlacedIn (w : World) (i : Nat) (k : String) (idxs : List Nat) : Prop :=
  ∃ p, w.proxies[i]? = some p ∧ mapLookup k p.Map = some idxs

/-- The Object a worker of the key's shard set holds under the key after
`perform`, given what it held before: created with `Freq = 0` on the miss path,
`Sz` refreshed and `Freq` incremented on the hit path. -/
def accessObj (rec : Record) (opts : Options) : Option Object → Object
  | none => { Key := rec.Key, Sz := rec.Sz / toUint64 opts.NumDataShards, Freq := 0 }
  | some obj =>
    { Key := obj.Key, Sz := rec.Sz / toUint64 opts.NumDataShards, Freq := u64 (obj.Freq + 1) }

/-- The event is a record that `main` routes to proxy number `g / NumLambdasPerProxy`
and whose key's shard set, as stored in state `wf`, contains the local index
`g % NumLambdasPerProxy` of global worker `g`. -/
def accessedBy (locate : String → String) (opts : Options) (wf : World) (g : Nat)
    (e : Event) : Bool :=
  decide (Atoi (locate e.record.Key) = ((g / opts.NumLambdasPerProxy.toNat : Nat) : Int)) &&
  decide (g % opts.NumLambdasPerProxy.toNat ∈
    shardSet wf (g / opts.NumLambdasPerProxy.toNat) e.record.Key)

/-- The event is a record with key `k` that `main` routes to proxy number `i`. -/
def routedKey (locate : String → String) (i : Nat) (k : String) (e : Event) : Bool :=
  decide (Atoi (locate e.record.Key) = (i : Int)) && decide (e.record.Key = k)

/-- States reachable from the initial state of `main` by calls of `perform` that
return (a panic ends the program). -/
inductive Reachable (R : RandSource) (opts : Options) : World → Prop where
  | init (gen : Nat) (w : World) : initWorld opts gen = some w → Reachable R opts w
  | call (w w1 : World) (id : Int) (rec : Record) (now : Int) :
      Reachable R opts w → step R opts w id rec now = .done w1 → Reachable R opts w1

/-- Sum of the buckets of row `g` of a timeline. -/
def rowSum (tl : List (List Int)) (g : Nat) : Int := ((tl[g]?).getD []).sum

/-- Cell `[g][j]` of a timeline (0 outside the matrix). -/
def cell (tl : List (List Int)) (g j : Nat) : Int := (((tl[g]?).getD [])[j]?).getD 0

/-- The generator used in the worked examples: `rand.Perm(n)` is the identity
permutation. -/
def idRand : RandSource :=
  { seed := fun s => s.toNat, perm := fun g n => (List.range n, g + 1) }

/-! ## Worked example: one proxy, four workers, two data shards, one parity shard -/

/-- Options of the worked example. -/
def exOpts : Options :=
  { InputCsv := "input.csv"
    ReuseOutputCsv := "output.csv"
    MemOutputCsv := "output2.csv"
    NumProxies := 1
    NumLambdasPerProxy := 4
    NumHours := 2
    NumDataShards := 2
    NumParityShards := 1 }

/-- Record A of the worked example. -/
def exRecA : Record :=
  { Key := "k1", Sz := 300, Timestamp := "t0", TimestampHr := 0, Timestamp15min := 0 }

/-- Record B of the worked example. -/
def exRecB : Record :=
  { Key := "k1", Sz := 300, Timestamp := "t1", TimestampHr := 1, Timestamp15min := 4 }

/-- A record of 4 MiB in bucket 0. -/
def exRecBig : Record :=
  { Key := "k2", Sz := 4194304, Timestamp := "t0", TimestampHr := 0, Timestamp15min := 0 }

/-- A record outside the observation window of `memArr`. -/
def exRecLate : Record :=
  { Key := "k3", Sz := 4194304, Timestamp := "t100", TimestampHr := 100, Timestamp15min := 400 }

/-- The proxy of the worked example as `initProxies` builds it. -/
def exProxy0 : Proxy :=
  { Id := "0", LambdaPool := List.replicate 4 { Kvs := [], MemUsed := 0 }, Map := [] }

/-- The timeline of the worked example as `initTimeline` builds it. -/
def exTimeline0 : List (List Int) := List.replicate 4 [0, 0]

/-- The memory array of the worked example as `main` builds it. -/
def exMem0 : List Int := List.replicate 4 0

/-- The store of the worked example after record A. -/
def exStoreA : Store :=
  (perform idRand 0 0 exProxy0 exRecA exTimeline0 exMem0 exOpts).1.state

/-- The initial state of the worked example. -/
def exWorld0 : World :=
  { proxies := [exProxy0], reuseTimeline := exTimeline0, memArr := exMem0, gen := 0 }

/-- The state of the worked example after record A. -/
def exWorldA : World := (step idRand exOpts exWorld0 0 exRecA 0).state

/-- The state of the worked example after records A and B. -/
def exWorldB : World := (step idRand exOpts exWorldA 0 exRecB 1).state

/-- The store after a first access of 4 MiB in bucket 0. -/
def exStoreBig : Store :=
  (perform idRand 0 0 exProxy0 exRecBig exTimeline0 exMem0 exOpts).1.state

/-- Options with three shards for a pool of two workers. -/
def exBadOpts : Options :=
  { InputCsv := "input.csv"
    ReuseOutputCsv := "output.csv"
    MemOutputCsv := "output2.csv"
    NumProxies := 1
    NumLambdasPerProxy := 2
    NumHours := 2
    NumDataShards := 2
    NumParityShards := 1 }

/-- The ring of a single proxy: every key is located at member "0". -/
def exLocate : String → String := fun _ => "0"

/-- The initial state under `exBadOpts`. -/
def exBadWorld0 : World :=
  { proxies := [{ Id := "0", LambdaPool := List.replicate 2 { Kvs := [], MemUsed := 0 }
                  Map := [] }]
    reuseTimeline := List.replicate 2 [0, 0]
    memArr := [0, 0]
    gen := 0 }

/-- Record A of the two-record scenario with size `s`: key "k1", hour 0. -/
def scenRecA (s : Nat) : Record :=
  { Key := "k1", Sz := s, Timestamp := "t0", TimestampHr := 0, Timestamp15min := 0 }

/-- Record B of the two-record scenario with size `s`: key "k1", hour 1. -/
def scenRecB (s : Nat) : Record :=
  { Key := "k1", Sz := s, Timestamp := "t1", TimestampHr := 1, Timestamp15min := 4 }

/-! ## Report emitter (lines 110-127) -/

/-- The inner loop `for j := 0; j < numHours-1; j++ { Fprintf(w, "%d,  ", tl[i][j]) }`
of `printAccessHistory`, started at bucket `j` with `k` iterations to go: the text
it writes, `none` for the index-out-of-range panic. `%d` of a Go `int` is its
decimal representation, `Itoa`. -/
def printCells (row : List Int) : Nat → Nat → Option String
  | 0, _ => some ""
  | k + 1, j =>
    match row[j]? with
    | none => none
    | some c =>
      match printCells row k (j + 1) with
      | none => none
      | some s => some (Itoa c ++ ",  " ++ s)

/-- The body of the outer loop of `printAccessHistory` for one row. -/
def printRow (row : List Int) (numHours : Int) : Option String :=
  match printCells row (wrapInt (numHours - 1)).toNat 0 with
  | none => none
  | some s =>
    match indexInt row (wrapInt (numHours - 1)) with
    | none => none
    | some c => some (s ++ (Itoa c ++ "\n"))

/-- The outer loop `for i, _ := range tl` of `printAccessHistory`. -/
def printRows (numHours : Int) : List (List Int) → Option String
  | [] => some ""
  | row :: rest =>
    match printRow row numHours with
    | none => none
    | some s =>
      match printRows numHours rest with
      | none => none
      | some t => some (s ++ t)

/-- `printAccessHistory(tl, outputPath, numHours)`: the text written to the output
file once it has been created; `none` when the function panics. -/
def printAccessHistory (tl : List (List Int)) (numHours : Int) : Option String :=
  printRows numHours tl

/-- Follows the spec's words: a line of decimal integers separated by `sep` and
terminated by a newline. -/
def specLine (sep : String) : List Int → String
  | [] => "\n"
  | [c] => Itoa c ++ "\n"
  | c :: c2 :: cs => Itoa c ++ sep ++ specLine sep (c2 :: cs)

/-- Follows the spec's words: one line per worker row, in order, no header, each
line holding the first `numHours` cells of the row. -/
def specReport (sep : String) (numHours : Nat) : List (List Int) → String
  | [] => ""
  | row :: rest => specLine sep (row.take numHours) ++ specReport sep numHours rest

/-- A generator whose permutation depends on its state: `rand.Perm(n)` from state
`g` is `[0, n)` rotated by `g`. -/
def exRand : RandSource :=
  { seed := fun s => s.toNat, perm := fun g n => ((List.range n).rotate g, g + 1) }

/-! ## Vocabulary of the trace-level specifications -/

/-- Worker `j` of proxy number `i`. -/
def lambdaAt (w : World) (i j : Nat) : Option Lambda :=
  match w.proxies[i]? with
  | none => none
  | some p => p.LambdaPool[j]?

/-- Sum of `Object.Sz` over the worker's `Kvs`. -/
def szSum (lam : Lambda) : Nat := (lam.Kvs.map fun kv => kv.2.Sz).sum

/-- The keys of the worker's `Kvs`. -/
def kvsKeys (lam : Lambda) : List String := lam.Kvs.map fun kv => kv.1

/-- `Size` of the record that placed key `k` in proxy number `i`: the first record
of the trace with that key that `main` routes to that proxy (0 when there is
none). -/
def placerSz (locate : String → String) (trace : List Event) (i : Nat) (k : String) : Nat :=
  match trace.find? (routedKey locate i k) with
  | none => 0
  | some e => e.record.Sz

/-- The events of a trace that are the first occurrence of their key. Routing is a
function of the key, so these are the first occurrences of a key in its proxy. -/
def firsts : List Event → List Event
  | [] => []
  | e :: es => e :: (firsts es).filter fun e2 => decide (e2.record.Key ≠ e.record.Key)

/-- The event is a first access that counts for `memArr[g]`: it falls inside the
observation window and its key's shard set, as stored in state `wf`, contains the
local index of global worker `g` in the proxy the key is routed to. -/
def countedFor (locate : String → String) (opts : Options) (wf : World) (g : Nat)
    (e : Event) : Bool :=
  accessedBy locate opts wf g e && decide (e.record.TimestampHr ≤ 99)

/-- The event is an access of global worker `g` in bucket `j`. -/
def accessedAt (locate : String → String) (opts : Options) (wf : World) (g j : Nat)
    (e : Event) : Bool :=
  accessedBy locate opts wf g e && decide (e.record.TimestampHr = j)

/-- Placement is a function of the key: whenever `random` is called for a record
of the trace, it returns `place` of the record's key. -/
def KeyPlacement (R : RandSource) (opts : Options) (place : String → List Nat)
    (trace : List Event) : Prop :=
  ∀ e ∈ trace, ∀ gen : Nat,
    (random R e.now gen opts.NumLambdasPerProxy
      (wrapInt (opts.NumDataShards + opts.NumParityShards))).1 = some (place e.record.Key)

/-- What a state owes to the records processed so far: the key of every record
is placed in the proxy the record is routed to, and every placement was made for a
record of that key routed to that proxy, with the shard set `random` returned at
the clock reading of that record. -/
def Hist (R : RandSource) (locate : String → String) (opts : Options) (es : List Event)
    (w : World) : Prop :=
  (∀ e ∈ es, ∃ idxs, PlacedIn w (Atoi (locate e.record.Key)).toNat e.record.Key idxs) ∧
  (∀ i k idxs, PlacedIn w i k idxs → ∃ e ∈ es, e.record.Key = k ∧
    Atoi (locate k) = (i : Int) ∧
    ∃ gen : Nat, (random R e.now gen opts.NumLambdasPerProxy
      (wrapInt (opts.NumDataShards + opts.NumParityShards))).1 = some idxs)

/-! ## Further worked examples -/

/-- A second record of key "k1" with another size. -/
def exRecA500 : Record :=
  { Key := "k1", Sz := 500, Timestamp := "t1", TimestampHr := 1, Timestamp15min := 4 }

/-- The trace of the size-drift example: "k1" with size 300, then with size 500. -/
def exDriftTrace : List Event :=
  [{ record := exRecA, now := 0 }, { record := exRecA500, now := 1 }]

/-- The worked example with a timeline of 101 buckets. -/
def exLongOpts : Options :=
  { InputCsv := "input.csv"
    ReuseOutputCsv := "output.csv"
    MemOutputCsv := "output2.csv"
    NumProxies := 1
    NumLambdasPerProxy := 4
    NumHours := 101
    NumDataShards := 2
    NumParityShards := 1 }

/-- A record of 4 MiB of key "k1" inside the observation window. -/
def exEarly : Event :=
  { record := { Key := "k1", Sz := 4194304, Timestamp := "t0", TimestampHr := 0,
                Timestamp15min := 0 }
    now := 0 }

/-- A record of 4 MiB of key "k1" outside the observation window. -/
def exLate : Event :=
  { record := { Key := "k1", Sz := 4194304, Timestamp := "t100", TimestampHr := 100,
                Timestamp15min := 400 }
    now := 1 }

/-- Options with one data shard and minus one parity shard: the shard sets are
empty. -/
def exNoShardOpts : Options :=
  { InputCsv := "input.csv"
    ReuseOutputCsv := "output.csv"
    MemOutputCsv := "output2.csv"
    NumProxies := 1
    NumLambdasPerProxy := 4
    NumHours := 2
    NumDataShards := 1
    NumParityShards := -1 }

/-! ## Machine integers -/

theorem wrapInt_of_range {a : Int} (h1 : -9223372036854775808 ≤ a)
    (h2 : a < 9223372036854775808) : wrapInt a = a := by
  unfold wrapInt; omega

theorem wrapInt_range (a : Int) :
    -9223372036854775808 ≤ wrapInt a ∧ wrapInt a < 9223372036854775808 := by
  unfold wrapInt; omega

theorem u64_of_lt {n : Nat} (h : n < 18446744073709551616) : u64 n = n := by
  unfold u64; omega

/-! ## Maps -/

theorem mapLookup_mapInsert_self {α : Type} (k : String) (v : α) (m : List (String × α)) :
    mapLookup k (mapInsert k v m) = some v := by
  induction m with
  | nil => simp [mapInsert, mapLookup]
  | cons kv m ih =>
    obtain ⟨k1, v1⟩ := kv
    by_cases h : k1 = k
    · simp [mapInsert, mapLookup, h]
    · simp [mapInsert, mapLookup, h, ih]

theorem mapLookup_mapInsert_ne {α : Type} {k k2 : String} (v : α) (m : List (String × α))
    (hne : k2 ≠ k) : mapLookup k2 (mapInsert k v m) = mapLookup k2 m := by
  induction m with
  | nil => simp [mapInsert, mapLookup, Ne.symm hne]
  | cons kv m ih =>
    obtain ⟨k1, v1⟩ := kv
    by_cases h : k1 = k
    · subst h
      simp [mapInsert, mapLookup, Ne.symm hne]
    · by_cases h2 : k1 = k2
      · subst h2
        simp [mapInsert, mapLookup, h]
      · simp [mapInsert, mapLookup, h, h2, ih]

theorem mapLookup_mapInsert {α : Type} (k k2 : String) (v : α) (m : List (String × α)) :
    mapLookup k2 (mapInsert k v m) = if k2 = k then some v else mapLookup k2 m := by
  by_cases h : k2 = k
  · subst h; simp [mapLookup_mapInsert_self]
  · simp [h, mapLookup_mapInsert_ne v m h]

/-! ## Decimal representation -/

theorem charDigit_digitChar {d : Nat} (h : d < 10) : charDigit (digitChar d) = some d := by
  interval_cases d <;> rfl

theorem digitChar_ne_sign (d : Nat) : digitChar d ≠ '-' ∧ digitChar d ≠ '+' := by
  unfold digitChar
  split <;> exact ⟨by decide, by decide⟩

theorem valLE_digitsLE : ∀ (fuel n : Nat), n < fuel → valLE (digitsLE fuel n) = some n := by
  intro fuel
  induction fuel with
  | zero => intro n h; omega
  | succ f ih =>
    intro n h
    unfold digitsLE
    by_cases h10 : n < 10
    · simp [h10, valLE, charDigit_digitChar h10]
    · have hd : n % 10 < 10 := Nat.mod_lt _ (by decide)
      have hq : n / 10 < f := by omega
      simp only [h10, if_false, valLE, charDigit_digitChar hd, ih _ hq]
      congr 1
      omega

theorem digitsLE_sign : ∀ (fuel n : Nat) (c : Char), c ∈ digitsLE fuel n → c ≠ '-' ∧ c ≠ '+' := by
  intro fuel
  induction fuel with
  | zero => intro n c h; simp [digitsLE] at h
  | succ f ih =>
    intro n c h
    unfold digitsLE at h
    by_cases h10 : n < 10
    · simp [h10] at h
      subst h
      exact digitChar_ne_sign n
    · simp only [h10, if_false, List.mem_cons] at h
      rcases h with h | h
      · subst h
        exact digitChar_ne_sign _
      · exact ih _ _ h

theorem digitsLE_ne_nil (f n : Nat) : digitsLE (f + 1) n ≠ [] := by
  unfold digitsLE
  split <;> simp

theorem Atoi_Itoa (i : Nat) (h : (i : Int) < 9223372036854775808) : Atoi (Itoa (i : Int)) = i := by
  have hneg : ¬ ((i : Int) < 0) := by omega
  unfold Itoa
  simp only [hneg, if_false, Int.toNat_ofNat]
  unfold Atoi
  have hval := valLE_digitsLE (i + 1) i (by omega)
  have hsign := digitsLE_sign (i + 1) i
  have hnil := digitsLE_ne_nil i i
  generalize hl : (digitsLE (i + 1) i).reverse = l at *
  have hrev : digitsLE (i + 1) i = l.reverse := by rw [← hl, List.reverse_reverse]
  cases l with
  | nil => simp [hrev] at hnil
  | cons c cs =>
    have hc := hsign c (by rw [hrev]; simp)
    simp only [hc.1, hc.2, if_false]
    have hp : parseNat (c :: cs) = some i := by
      unfold parseNat
      simp only [List.cons_ne_nil, if_false, reduceCtorEq]
      rw [← hrev]; exact hval
    simp only [hp]
    omega

/-! ## Indexing -/

theorem indexInt_eq_some {α : Type} {l : List α} {i : Int} {a : α} (h : indexInt l i = some a) :
    0 ≤ i ∧ l[i.toNat]? = some a := by
  unfold indexInt at h
  split at h
  · exact ⟨by assumption, h⟩
  · cases h

theorem indexInt_natCast {α : Type} (l : List α) (n : Nat) : indexInt l (n : Int) = l[n]? := by
  unfold indexInt
  simp

/-! ## The two loop bodies as instances of `accessStep` -/

theorem hitStep_eq (rec : Record) (opts : Options) :
    hitStep rec opts = accessStep (hitUpd rec opts) none rec.TimestampHr opts := by
  funext st idx
  unfold hitStep accessStep hitUpd addOpt
  cases h1 : st.p.LambdaPool[idx]? with
  | none => rfl
  | some lam =>
    simp only
    cases h2 : mapLookup rec.Key lam.Kvs with
    | none => rfl
    | some obj =>
      simp only
      by_cases h3 : toUint64 opts.NumDataShards = 0
      · simp [h3]
      · simp only [h3, if_false]

theorem missStep_eq (rec : Record) (opts : Options) :
    missStep rec opts = accessStep (missUpd rec opts) (missDelta rec) rec.TimestampHr opts := by
  funext st idx
  unfold missStep accessStep missUpd addOpt missDelta
  cases h1 : st.p.LambdaPool[idx]? with
  | none => rfl
  | some lam =>
    simp only
    by_cases h3 : toUint64 opts.NumDataShards = 0
    · simp [h3]
    · simp only [h3, if_false]
      by_cases h5 : rec.TimestampHr ≤ 99
      · simp only [h5, if_true]
      · simp only [h5, if_false]

/-! ## Loops -/

theorem forEach_nil (f : Store → Nat → Outcome Store) (st : Store) :
    forEach f [] st = .done st := rfl

theorem forEach_cons_done {f : Store → Nat → Outcome Store} {st st1 : Store} {idx : Nat}
    (rest : List Nat) (h : f st idx = .done st1) :
    forEach f (idx :: rest) st = forEach f rest st1 := by
  simp [forEach, h]

theorem forEach_cons_crash {f : Store → Nat → Outcome Store} {st st1 : Store} {idx : Nat}
    (rest : List Nat) (h : f st idx = .crash st1) :
    forEach f (idx :: rest) st = .crash st1 := by
  simp [forEach, h]

/-- A property kept by every execution of the body, complete or not, holds in the
state the loop ends in. -/
theorem forEach_state_inv {f : Store → Nat → Outcome Store} (Q : Store → Prop)
    (hstep : ∀ st idx, Q st → Q (f st idx).state) :
    ∀ (l : List Nat) (st : Store), Q st → Q (forEach f l st).state := by
  intro l
  induction l with
  | nil => intro st h; exact h
  | cons idx rest ih =>
    intro st h
    have h1 := hstep st idx h
    cases hf : f st idx with
    | done st1 =>
      rw [forEach_cons_done rest hf]
      rw [hf] at h1
      exact ih st1 h1
    | crash st1 =>
      rw [forEach_cons_crash rest hf]
      rw [hf] at h1
      exact h1

/-- A completed loop has established, for every element of the list, what one
completed execution of the body establishes and later executions keep. -/
theorem forEach_done_establish {f : Store → Nat → Outcome Store} (E : Nat → Store → Prop)
    (hE : ∀ st idx st1, f st idx = .done st1 → E idx st1)
    (hK : ∀ st idx st1 i, f st idx = .done st1 → E i st → E i st1) :
    ∀ (l : List Nat) (st st1 : Store), forEach f l st = .done st1 →
      (∀ i, E i st → E i st1) ∧ ∀ i ∈ l, E i st1 := by
  intro l
  induction l with
  | nil =>
    intro st st1 h
    simp [forEach] at h
    subst h
    exact ⟨fun i hi => hi, by simp⟩
  | cons idx rest ih =>
    intro st st1 h
    cases hf : f st idx with
    | crash s => rw [forEach_cons_crash rest hf] at h; cases h
    | done s =>
      rw [forEach_cons_done rest hf] at h
      obtain ⟨hk, he⟩ := ih s st1 h
      refine ⟨fun i hi => hk i (hK st idx s i hf hi), ?_⟩
      intro i hi
      rcases List.mem_cons.1 hi with h1 | h1
      · subst h1
        exact hk _ (hE st _ s hf)
      · exact he i h1

/-! ## Timeline and memory cells -/

theorem incrCell_eq_some {tl tl1 : List (List Int)} {i : Int} {j : Nat}
    (h : incrCell tl i j = some tl1) :
    0 ≤ i ∧ ∃ row c, tl[i.toNat]? = some row ∧ row[j]? = some c ∧
      tl1 = tl.set i.toNat (row.set j (wrapInt (c + 1))) := by
  unfold incrCell at h
  cases h1 : indexInt tl i with
  | none => simp [h1] at h
  | some row =>
    simp only [h1] at h
    cases h2 : row[j]? with
    | none => simp [h2] at h
    | some c =>
      simp only [h2, Option.some.injEq] at h
      obtain ⟨hi, hrow⟩ := indexInt_eq_some h1
      exact ⟨hi, row, c, hrow, h2, h.symm⟩

theorem incrCell_of {tl : List (List Int)} {i : Int} {j : Nat} {row : List Int}
    (hi : 0 ≤ i) (hrow : tl[i.toNat]? = some row) (hj : j < row.length) :
    ∃ c, row[j]? = some c ∧
      incrCell tl i j = some (tl.set i.toNat (row.set j (wrapInt (c + 1)))) := by
  refine ⟨row[j], List.getElem?_eq_getElem hj, ?_⟩
  unfold incrCell indexInt
  simp [hi, hrow, List.getElem?_eq_getElem hj]

theorem addAt_eq_some {arr arr1 : List Int} {i v : Int} (h : addAt arr i v = some arr1) :
    0 ≤ i ∧ ∃ c, arr[i.toNat]? = some c ∧ arr1 = arr.set i.toNat (wrapInt (c + v)) := by
  unfold addAt at h
  cases h1 : indexInt arr i with
  | none => simp [h1] at h
  | some c =>
    simp only [h1, Option.some.injEq] at h
    obtain ⟨hi, hc⟩ := indexInt_eq_some h1
    exact ⟨hi, c, hc, h.symm⟩

theorem addAt_of {arr : List Int} {i v : Int} (hi : 0 ≤ i) (hlt : i.toNat < arr.length) :
    addAt arr i v = some (arr.set i.toNat (wrapInt (arr[i.toNat] + v))) := by
  unfold addAt indexInt
  simp [hi, List.getElem?_eq_getElem hlt]

/-! ## One execution of a loop body -/

/-- The state a loop body ends in, whether it completes or panics: the proxy keeps
its `Id` and `Map`; the pool, the memory array and the timeline are each either
untouched or changed at the one place the body addresses. -/
theorem accessStep_state (upd : Lambda → Option Lambda) (delta : Option Int) (hr : Nat)
    (opts : Options) (st : Store) (idx : Nat) :
    ∃ pool mem tl,
      (accessStep upd delta hr opts st idx).state =
        { p := { Id := st.p.Id, LambdaPool := pool, Map := st.p.Map }
          reuseTimeline := tl, memArr := mem } ∧
      (pool = st.p.LambdaPool ∨ ∃ lam lam1, st.p.LambdaPool[idx]? = some lam ∧
        upd lam = some lam1 ∧ pool = st.p.LambdaPool.set idx lam1) ∧
      (mem = st.memArr ∨ ∃ v, delta = some v ∧
        addAt st.memArr (lambdaIdx st.p opts idx) v = some mem) ∧
      (tl = st.reuseTimeline ∨
        incrCell st.reuseTimeline (lambdaIdx st.p opts idx) hr = some tl) := by
  unfold accessStep
  cases h1 : st.p.LambdaPool[idx]? with
  | none => exact ⟨_, _, _, rfl, Or.inl rfl, Or.inl rfl, Or.inl rfl⟩
  | some lam =>
    simp only
    cases h2 : upd lam with
    | none => exact ⟨_, _, _, rfl, Or.inl rfl, Or.inl rfl, Or.inl rfl⟩
    | some lam1 =>
      simp only
      cases h3 : addOpt delta st.memArr (lambdaIdx st.p opts idx) with
      | none => exact ⟨_, _, _, rfl, Or.inr ⟨lam, lam1, rfl, h2, rfl⟩, Or.inl rfl, Or.inl rfl⟩
      | some mem =>
        simp only
        have hmem : mem = st.memArr ∨ ∃ v, delta = some v ∧
            addAt st.memArr (lambdaIdx st.p opts idx) v = some mem := by
          unfold addOpt at h3
          cases delta with
          | none => simp at h3; exact Or.inl h3.symm
          | some v => exact Or.inr ⟨v, rfl, h3⟩
        cases h4 : incrCell st.reuseTimeline (lambdaIdx st.p opts idx) hr with
        | none => exact ⟨_, _, _, rfl, Or.inr ⟨lam, lam1, rfl, h2, rfl⟩, hmem, Or.inl rfl⟩
        | some tl => exact ⟨_, _, _, rfl, Or.inr ⟨lam, lam1, rfl, h2, rfl⟩, hmem, Or.inr rfl⟩

/-- A loop body that completes has found the worker, updated it, added to the
memory array whatever there was to add, and counted the access. -/
theorem accessStep_done {upd : Lambda → Option Lambda} {delta : Option Int} {hr : Nat}
    {opts : Options} {st st1 : Store} {idx : Nat}
    (h : accessStep upd delta hr opts st idx = .done st1) :
    ∃ lam lam1 mem tl, st.p.LambdaPool[idx]? = some lam ∧ upd lam = some lam1 ∧
      addOpt delta st.memArr (lambdaIdx st.p opts idx) = some mem ∧
      incrCell st.reuseTimeline (lambdaIdx st.p opts idx) hr = some tl ∧
      st1 = { p := { Id := st.p.Id, LambdaPool := st.p.LambdaPool.set idx lam1, Map := st.p.Map }
              reuseTimeline := tl, memArr := mem } := by
  unfold accessStep at h
  cases h1 : st.p.LambdaPool[idx]? with
  | none => simp [h1] at h
  | some lam =>
    simp only [h1] at h
    cases h2 : upd lam with
    | none => simp [h2] at h
    | some lam1 =>
      simp only [h2] at h
      cases h3 : addOpt delta st.memArr (lambdaIdx st.p opts idx) with
      | none => simp [h3] at h
      | some mem =>
        simp only [h3] at h
        cases h4 : incrCell st.reuseTimeline (lambdaIdx st.p opts idx) hr with
        | none => simp [h4] at h
        | some tl =>
          simp only [h4, Outcome.done.injEq] at h
          exact ⟨lam, lam1, mem, tl, rfl, h2, rfl, rfl, h.symm⟩

theorem accessStep_of {upd : Lambda → Option Lambda} {delta : Option Int} {hr : Nat}
    {opts : Options} {st : Store} {idx : Nat} {lam lam1 : Lambda} {mem : List Int}
    {tl : List (List Int)}
    (h1 : st.p.LambdaPool[idx]? = some lam) (h2 : upd lam = some lam1)
    (h3 : addOpt delta st.memArr (lambdaIdx st.p opts idx) = some mem)
    (h4 : incrCell st.reuseTimeline (lambdaIdx st.p opts idx) hr = some tl) :
    accessStep upd delta hr opts st idx =
      .done { p := { Id := st.p.Id, LambdaPool := st.p.LambdaPool.set idx lam1, Map := st.p.Map }
              reuseTimeline := tl, memArr := mem } := by
  unfold accessStep
  simp [h1, h2, h3, h4]

/-- A property kept by every execution of the body on an element of the list,
complete or not, holds in the state the loop ends in. -/
theorem forEach_state_inv_mem {f : Store → Nat → Outcome Store} (Q : Store → Prop) :
    ∀ (l : List Nat), (∀ st idx, idx ∈ l → Q st → Q (f st idx).state) →
      ∀ (st : Store), Q st → Q (forEach f l st).state := by
  intro l
  induction l with
  | nil => intro _ st h; exact h
  | cons idx rest ih =>
    intro hstep st h
    have h1 := hstep st idx (List.mem_cons_self _ _) h
    have hrest : ∀ st i, i ∈ rest → Q st → Q (f st i).state :=
      fun st i hi => hstep st i (List.mem_cons_of_mem _ hi)
    cases hf : f st idx with
    | done st1 =>
      rw [forEach_cons_done rest hf]
      rw [hf] at h1
      exact ih hrest st1 h1
    | crash st1 =>
      rw [forEach_cons_crash rest hf]
      rw [hf] at h1
      exact h1

/-! ## Frame properties of the loops, for every outcome -/

theorem accessLoop_Id_Map (upd : Lambda → Option Lambda) (delta : Option Int) (hr : Nat)
    (opts : Options) (l : List Nat) (st : Store) :
    (forEach (accessStep upd delta hr opts) l st).state.p.Id = st.p.Id ∧
    (forEach (accessStep upd delta hr opts) l st).state.p.Map = st.p.Map := by
  refine forEach_state_inv (fun s => s.p.Id = st.p.Id ∧ s.p.Map = st.p.Map) ?_ l st ⟨rfl, rfl⟩
  intro s idx hs
  obtain ⟨pool, mem, tl, heq, -, -, -⟩ := accessStep_state upd delta hr opts s idx
  rw [heq]
  exact hs

theorem accessLoop_memArr_none (upd : Lambda → Option Lambda) (hr : Nat)
    (opts : Options) (l : List Nat) (st : Store) :
    (forEach (accessStep upd none hr opts) l st).state.memArr = st.memArr := by
  refine forEach_state_inv (fun s => s.memArr = st.memArr) ?_ l st rfl
  intro s idx hs
  obtain ⟨pool, mem, tl, heq, -, hmem, -⟩ := accessStep_state upd none hr opts s idx
  rw [heq]
  rcases hmem with h | ⟨v, hv, -⟩
  · simpa [h] using hs
  · cases hv

theorem accessLoop_pool_length (upd : Lambda → Option Lambda) (delta : Option Int) (hr : Nat)
    (opts : Options) (l : List Nat) (st : Store) :
    (forEach (accessStep upd delta hr opts) l st).state.p.LambdaPool.length =
      st.p.LambdaPool.length := by
  refine forEach_state_inv (fun s => s.p.LambdaPool.length = st.p.LambdaPool.length) ?_ l st rfl
  intro s idx hs
  obtain ⟨pool, mem, tl, heq, hpool, -, -⟩ := accessStep_state upd delta hr opts s idx
  rw [heq]
  rcases hpool with h | ⟨lam, lam1, -, -, h⟩
  · simpa [h] using hs
  · simpa [h] using hs

theorem accessLoop_MemUsed (upd : Lambda → Option Lambda) (delta : Option Int) (hr : Nat)
    (opts : Options) (hupd : ∀ lam lam1, upd lam = some lam1 → lam1.MemUsed = lam.MemUsed)
    (l : List Nat) (st : Store) :
    (forEach (accessStep upd delta hr opts) l st).state.p.LambdaPool.map Lambda.MemUsed =
      st.p.LambdaPool.map Lambda.MemUsed := by
  refine forEach_state_inv
    (fun s => s.p.LambdaPool.map Lambda.MemUsed = st.p.LambdaPool.map Lambda.MemUsed) ?_ l st rfl
  intro s idx hs
  obtain ⟨pool, mem, tl, heq, hpool, -, -⟩ := accessStep_state upd delta hr opts s idx
  rw [heq]
  rcases hpool with h | ⟨lam, lam1, hl, hu, h⟩
  · simpa [h] using hs
  · simp only [h]
    rw [← hs]
    apply List.ext_getElem?
    intro j
    simp only [List.getElem?_map, List.getElem?_set]
    by_cases hj : idx = j
    · subst hj
      have hlt : idx < s.p.LambdaPool.length := (List.getElem?_eq_some.1 hl).1
      simp [hlt, hl, hupd lam lam1 hu]
    · simp [hj]

theorem hitUpd_MemUsed (rec : Record) (opts : Options) (lam lam1 : Lambda)
    (h : hitUpd rec opts lam = some lam1) : lam1.MemUsed = lam.MemUsed := by
  unfold hitUpd at h
  cases h1 : mapLookup rec.Key lam.Kvs with
  | none => simp [h1] at h
  | some obj =>
    simp only [h1] at h
    split at h
    · cases h
    · simp only [Option.some.injEq] at h
      rw [← h]

/-! ## `random` -/

theorem random_eq_some {R : RandSource} {now : Int} {gen : Nat} {n k : Int}
    {index : List Nat} {g : Nat} (h : random R now gen n k = (some index, g)) :
    0 ≤ n ∧ 0 ≤ k ∧ k ≤ ((R.perm (R.seed now) n.toNat).1.length : Int) ∧
      index = (R.perm (R.seed now) n.toNat).1.take k.toNat ∧
      g = (R.perm (R.seed now) n.toNat).2 := by
  unfold random at h
  by_cases hn : n < 0
  · simp [hn] at h
  · simp only [hn, if_false] at h
    by_cases hk : 0 ≤ k ∧ k ≤ ((R.perm (R.seed now) n.toNat).1.length : Int)
    · simp only [hk, and_self, if_true, Prod.mk.injEq, Option.some.injEq] at h
      exact ⟨by omega, hk.1, hk.2, h.1.symm, h.2.symm⟩
    · simp only [hk, if_false, Prod.mk.injEq] at h
      cases h.1

theorem random_shape {R : RandSource} (hR : R.Valid) {now : Int} {gen : Nat} {n k : Int}
    {index : List Nat} {g : Nat} (h : random R now gen n k = (some index, g)) :
    (index.length : Int) = k ∧ index.Nodup ∧ ∀ i ∈ index, (i : Int) < n := by
  obtain ⟨hn, hk, hle, hidx, -⟩ := random_eq_some h
  have hperm := hR (R.seed now) n.toNat
  subst hidx
  refine ⟨?_, ?_, ?_⟩
  · rw [List.length_take]
    omega
  · exact List.Nodup.sublist (List.take_sublist _ _)
      ((List.Perm.nodup_iff hperm).2 (List.nodup_range _))
  · intro i hi
    have h1 : i ∈ List.range n.toNat := (List.Perm.mem_iff hperm).1 (List.mem_of_mem_take hi)
    have h2 := List.mem_range.1 h1
    omega

theorem random_of_valid {R : RandSource} (hR : R.Valid) (now : Int) (gen : Nat) {n k : Int}
    (hk : 0 ≤ k) (hkn : k ≤ n) :
    ∃ index g, random R now gen n k = (some index, g) := by
  have hperm := hR (R.seed now) n.toNat
  have hlen : (R.perm (R.seed now) n.toNat).1.length = n.toNat := by
    rw [List.Perm.length_eq hperm, List.length_range]
  unfold random
  have hn : ¬ n < 0 := by omega
  have hc : 0 ≤ k ∧ k ≤ ((R.perm (R.seed now) n.toNat).1.length : Int) := by
    rw [hlen]; omega
  simp only [hn, if_false, hc, and_self, if_true]
  exact ⟨_, _, rfl⟩

theorem random_too_many {R : RandSource} (hR : R.Valid) (now : Int) (gen : Nat) {n k : Int}
    (hn : 0 ≤ n) (hkn : n < k) :
    (random R now gen n k).1 = none := by
  have hperm := hR (R.seed now) n.toNat
  have hlen : (R.perm (R.seed now) n.toNat).1.length = n.toNat := by
    rw [List.Perm.length_eq hperm, List.length_range]
  unfold random
  have hn : ¬ n < 0 := by omega
  have hc : ¬ (0 ≤ k ∧ k ≤ ((R.perm (R.seed now) n.toNat).1.length : Int)) := by
    rw [hlen]; omega
  simp only [hn, if_false, hc]

/-! ## The two paths of `perform` -/

theorem perform_hit (R : RandSource) (now : Int) (gen : Nat) (p : Proxy) (rec : Record)
    (tl : List (List Int)) (mem : List Int) (opts : Options) {val : List Nat}
    (h : mapLookup rec.Key p.Map = some val) :
    perform R now gen p rec tl mem opts =
      (forEach (accessStep (hitUpd rec opts) none rec.TimestampHr opts) val
        { p := p, reuseTimeline := tl, memArr := mem }, gen) := by
  unfold perform
  simp only [h, hitStep_eq]

theorem perform_miss (R : RandSource) (now : Int) (gen : Nat) (p : Proxy) (rec : Record)
    (tl : List (List Int)) (mem : List Int) (opts : Options) {index : List Nat} {g : Nat}
    (h : mapLookup rec.Key p.Map = none)
    (hr : random R now gen opts.NumLambdasPerProxy
      (wrapInt (opts.NumDataShards + opts.NumParityShards)) = (some index, g)) :
    perform R now gen p rec tl mem opts =
      (forEach (accessStep (missUpd rec opts) (missDelta rec) rec.TimestampHr opts) index
        { p := { Id := p.Id, LambdaPool := p.LambdaPool, Map := mapInsert rec.Key index p.Map }
          reuseTimeline := tl, memArr := mem }, g) := by
  unfold perform
  simp only [h, hr, missStep_eq]

theorem perform_miss_crash (R : RandSource) (now : Int) (gen : Nat) (p : Proxy) (rec : Record)
    (tl : List (List Int)) (mem : List Int) (opts : Options)
    (h : mapLookup rec.Key p.Map = none)
    (hr : (random R now gen opts.NumLambdasPerProxy
      (wrapInt (opts.NumDataShards + opts.NumParityShards))).1 = none) :
    (perform R now gen p rec tl mem opts).1 =
      .crash { p := p, reuseTimeline := tl, memArr := mem } := by
  unfold perform
  simp only [h]
  generalize random R now gen opts.NumLambdasPerProxy
      (wrapInt (opts.NumDataShards + opts.NumParityShards)) = r at hr
  obtain ⟨r1, r2⟩ := r
  simp only at hr
  subst hr
  rfl

/-- The three cases of `perform`. -/
theorem perform_cases (R : RandSource) (now : Int) (gen : Nat) (p : Proxy) (rec : Record)
    (tl : List (List Int)) (mem : List Int) (opts : Options) :
    (∃ val, mapLookup rec.Key p.Map = some val ∧
      perform R now gen p rec tl mem opts =
        (forEach (accessStep (hitUpd rec opts) none rec.TimestampHr opts) val
          { p := p, reuseTimeline := tl, memArr := mem }, gen)) ∨
    (mapLookup rec.Key p.Map = none ∧
      (perform R now gen p rec tl mem opts).1 =
        .crash { p := p, reuseTimeline := tl, memArr := mem }) ∨
    (∃ index g, mapLookup rec.Key p.Map = none ∧
      random R now gen opts.NumLambdasPerProxy
        (wrapInt (opts.NumDataShards + opts.NumParityShards)) = (some index, g) ∧
      perform R now gen p rec tl mem opts =
        (forEach (accessStep (missUpd rec opts) (missDelta rec) rec.TimestampHr opts) index
          { p := { Id := p.Id, LambdaPool := p.LambdaPool, Map := mapInsert rec.Key index p.Map }
            reuseTimeline := tl, memArr := mem }, g)) := by
  cases h : mapLookup rec.Key p.Map with
  | some val => exact Or.inl ⟨val, rfl, perform_hit R now gen p rec tl mem opts h⟩
  | none =>
    right
    cases hr : random R now gen opts.NumLambdasPerProxy
        (wrapInt (opts.NumDataShards + opts.NumParityShards)) with
    | mk r1 r2 =>
      cases r1 with
      | none =>
        exact Or.inl ⟨rfl, perform_miss_crash R now gen p rec tl mem opts h (by rw [hr])⟩
      | some index =>
        exact Or.inr ⟨index, r2, rfl, rfl, perform_miss R now gen p rec tl mem opts h hr⟩

/-! ## Initial state -/

theorem initProxies_eq_some {a b : Int} {ps : List Proxy} (h : initProxies a b = some ps) :
    0 ≤ a ∧ (0 < a → 0 ≤ b) ∧
    ps = (List.range a.toNat).map fun (i : Nat) =>
      { Id := Itoa (i : Int)
        LambdaPool := List.replicate b.toNat { Kvs := [], MemUsed := 0 }
        Map := [] } := by
  unfold initProxies at h
  by_cases h1 : a < 0
  · simp [h1] at h
  · simp only [h1, if_false] at h
    by_cases h2 : 0 < a ∧ b < 0
    · simp [h2] at h
    · simp only [h2, if_false] at h
      by_cases h3 : a = 0
      · simp [h3] at h
      · simp only [h3, if_false, Option.some.injEq] at h
        exact ⟨by omega, fun ha => by omega, h.symm⟩

theorem initTimeline_eq_some {a b : Int} {tl : List (List Int)}
    (h : initTimeline a b = some tl) :
    0 ≤ a ∧ (0 < a → 0 ≤ b) ∧
    tl = List.replicate a.toNat (List.replicate b.toNat 0) := by
  unfold initTimeline at h
  by_cases h1 : a < 0
  · simp [h1] at h
  · simp only [h1, if_false] at h
    by_cases h2 : 0 < a ∧ b < 0
    · simp [h2] at h
    · simp only [h2, if_false, Option.some.injEq] at h
      exact ⟨by omega, fun ha => by omega, h.symm⟩

theorem initWorld_eq_some {opts : Options} {gen : Nat} {w : World}
    (h : initWorld opts gen = some w) :
    ∃ ps tl, initProxies opts.NumProxies opts.NumLambdasPerProxy = some ps ∧
      initTimeline (wrapInt (opts.NumProxies * opts.NumLambdasPerProxy)) opts.NumHours = some tl ∧
      w = { proxies := ps, reuseTimeline := tl
            memArr := List.replicate
              (wrapInt (opts.NumProxies * opts.NumLambdasPerProxy)).toNat 0
            gen := gen } := by
  unfold initWorld at h
  cases h1 : initProxies opts.NumProxies opts.NumLambdasPerProxy with
  | none => simp [h1] at h
  | some ps =>
    simp only [h1] at h
    cases h2 : initTimeline (wrapInt (opts.NumProxies * opts.NumLambdasPerProxy))
        opts.NumHours with
    | none => simp [h2] at h
    | some tl =>
      simp only [h2, Option.some.injEq] at h
      exact ⟨ps, tl, rfl, rfl, h.symm⟩

/-- Every proxy of the initial state is empty and numbered by its position. -/
theorem initWorld_proxy {opts : Options} {gen : Nat} {w : World}
    (h : initWorld opts gen = some w) {i : Nat} {p : Proxy} (hp : w.proxies[i]? = some p) :
    p = { Id := Itoa (i : Int)
          LambdaPool := List.replicate opts.NumLambdasPerProxy.toNat { Kvs := [], MemUsed := 0 }
          Map := [] } ∧ (i : Int) < opts.NumProxies ∧ 0 ≤ opts.NumLambdasPerProxy := by
  obtain ⟨ps, tl, h1, h2, hw⟩ := initWorld_eq_some h
  obtain ⟨ha, hb, hps⟩ := initProxies_eq_some h1
  subst hw
  simp only at hp
  rw [hps, List.getElem?_map] at hp
  have hi : i < opts.NumProxies.toNat := by
    by_contra hcon
    rw [List.getElem?_eq_none (by simpa using Nat.le_of_not_lt hcon)] at hp
    simp at hp
  rw [List.getElem?_range hi] at hp
  simp only [Option.map_some', Option.some.injEq] at hp
  refine ⟨hp.symm, by omega, ?_⟩
  apply hb
  omega

/-! ## One call from `main` -/

theorem step_done {R : RandSource} {opts : Options} {w w1 : World} {id : Int} {rec : Record}
    {now : Int} (h : step R opts w id rec now = .done w1) :
    ∃ p st, 0 ≤ id ∧ w.proxies[id.toNat]? = some p ∧
      (perform R now w.gen p rec w.reuseTimeline w.memArr opts).1 = .done st ∧
      w1 = { proxies := w.proxies.set id.toNat st.p
             reuseTimeline := st.reuseTimeline
             memArr := st.memArr
             gen := (perform R now w.gen p rec w.reuseTimeline w.memArr opts).2 } := by
  unfold step at h
  cases h1 : indexInt w.proxies id with
  | none => simp [h1] at h
  | some p =>
    simp only [h1] at h
    obtain ⟨hid, hp⟩ := indexInt_eq_some h1
    cases h2 : (perform R now w.gen p rec w.reuseTimeline w.memArr opts).1 with
    | crash s => simp [h2, Outcome.map] at h
    | done st =>
      simp only [h2, Outcome.map, Outcome.done.injEq] at h
      exact ⟨p, st, hid, hp, h2, h.symm⟩

/-- The state a call from `main` ends in, for every outcome. -/
theorem step_state (R : RandSource) (opts : Options) (w : World) (id : Int) (rec : Record)
    (now : Int) :
    (indexInt w.proxies id = none ∧ step R opts w id rec now = .crash w) ∨
    ∃ p, 0 ≤ id ∧ w.proxies[id.toNat]? = some p ∧
      (step R opts w id rec now).state =
        { proxies := w.proxies.set id.toNat
            (perform R now w.gen p rec w.reuseTimeline w.memArr opts).1.state.p
          reuseTimeline :=
            (perform R now w.gen p rec w.reuseTimeline w.memArr opts).1.state.reuseTimeline
          memArr := (perform R now w.gen p rec w.reuseTimeline w.memArr opts).1.state.memArr
          gen := (perform R now w.gen p rec w.reuseTimeline w.memArr opts).2 } ∧
      (step R opts w id rec now).isDone =
        (perform R now w.gen p rec w.reuseTimeline w.memArr opts).1.isDone := by
  unfold step
  cases h1 : indexInt w.proxies id with
  | none => exact Or.inl ⟨rfl, rfl⟩
  | some p =>
    right
    obtain ⟨hid, hp⟩ := indexInt_eq_some h1
    refine ⟨p, hid, hp, ?_⟩
    simp only
    cases h2 : (perform R now w.gen p rec w.reuseTimeline w.memArr opts).1 <;>
      simp [Outcome.map, Outcome.state, Outcome.isDone]

/-- The `Map` of the proxy after `perform`, for every outcome: unchanged, or
extended by the slice `random` returned for a key that was absent. -/
theorem perform_Map (R : RandSource) (now : Int) (gen : Nat) (p : Proxy) (rec : Record)
    (tl : List (List Int)) (mem : List Int) (opts : Options) :
    (perform R now gen p rec tl mem opts).1.state.p.Id = p.Id ∧
    ((perform R now gen p rec tl mem opts).1.state.p.Map = p.Map ∨
     ∃ index g, mapLookup rec.Key p.Map = none ∧
      random R now gen opts.NumLambdasPerProxy
        (wrapInt (opts.NumDataShards + opts.NumParityShards)) = (some index, g) ∧
      (perform R now gen p rec tl mem opts).1.state.p.Map = mapInsert rec.Key index p.Map) := by
  rcases perform_cases R now gen p rec tl mem opts with
    ⟨val, hv, he⟩ | ⟨hn, he⟩ | ⟨index, g, hn, hr, he⟩
  · rw [he]
    have h1 := accessLoop_Id_Map (hitUpd rec opts) none rec.TimestampHr opts val
      { p := p, reuseTimeline := tl, memArr := mem }
    exact ⟨h1.1, Or.inl h1.2⟩
  · rw [he]
    exact ⟨rfl, Or.inl rfl⟩
  · rw [he]
    have h1 := accessLoop_Id_Map (missUpd rec opts) (missDelta rec) rec.TimestampHr opts index
      { p := { Id := p.Id, LambdaPool := p.LambdaPool, Map := mapInsert rec.Key index p.Map }
        reuseTimeline := tl, memArr := mem }
    exact ⟨h1.1, Or.inr ⟨index, g, hn, hr, h1.2⟩⟩

/-- The shape of what `random` returns under the contract of `rand.Perm` when the
shard count is a non-negative Go `int`. -/
theorem random_placementShape {R : RandSource} (hR : R.Valid) {opts : Options}
    (h0 : 0 ≤ opts.NumDataShards + opts.NumParityShards)
    (h1 : opts.NumDataShards + opts.NumParityShards < 9223372036854775808)
    {now : Int} {gen : Nat} {index : List Nat} {g : Nat}
    (h : random R now gen opts.NumLambdasPerProxy
      (wrapInt (opts.NumDataShards + opts.NumParityShards)) = (some index, g)) :
    PlacementShape opts index := by
  have hw : wrapInt (opts.NumDataShards + opts.NumParityShards) =
      opts.NumDataShards + opts.NumParityShards := wrapInt_of_range (by omega) h1
  rw [hw] at h
  exact random_shape hR h

/-- Shard sets keep their shape along `perform`, for every outcome. -/
theorem perform_shape {R : RandSource} (hR : R.Valid) {opts : Options}
    (h0 : 0 ≤ opts.NumDataShards + opts.NumParityShards)
    (h1 : opts.NumDataShards + opts.NumParityShards < 9223372036854775808)
    (now : Int) (gen : Nat) (p : Proxy) (rec : Record)
    (tl : List (List Int)) (mem : List Int)
    (hp : ∀ k idxs, mapLookup k p.Map = some idxs → PlacementShape opts idxs) :
    ∀ k idxs, mapLookup k (perform R now gen p rec tl mem opts).1.state.p.Map = some idxs →
      PlacementShape opts idxs := by
  intro k idxs hk
  rcases (perform_Map R now gen p rec tl mem opts).2 with h | ⟨index, g, hn, hr, h⟩
  · rw [h] at hk
    exact hp k idxs hk
  · rw [h, mapLookup_mapInsert] at hk
    by_cases hkk : k = rec.Key
    · simp only [hkk, if_true, Option.some.injEq] at hk
      subst hk
      exact random_placementShape hR h0 h1 hr
    · simp only [hkk, if_false] at hk
      exact hp k idxs hk

theorem reachable_shape {R : RandSource} (hR : R.Valid) {opts : Options}
    (h0 : 0 ≤ opts.NumDataShards + opts.NumParityShards)
    (h1 : opts.NumDataShards + opts.NumParityShards < 9223372036854775808)
    {w : World} (hw : Reachable R opts w) :
    ∀ p ∈ w.proxies, ∀ k idxs, mapLookup k p.Map = some idxs → PlacementShape opts idxs := by
  induction hw with
  | init gen w hinit =>
    intro p hp k idxs hk
    obtain ⟨i, hi⟩ := List.mem_iff_getElem?.1 hp
    obtain ⟨hpe, -, -⟩ := initWorld_proxy hinit hi
    subst hpe
    simp [mapLookup] at hk
  | call w w1 id rec now hreach hstep ih =>
    intro p hp k idxs hk
    obtain ⟨p0, st, hid, hp0, hperf, hw1⟩ := step_done hstep
    subst hw1
    simp only at hp
    rcases List.mem_or_eq_of_mem_set hp with hmem | heq
    · exact ih p hmem k idxs hk
    · subst heq
      have hst : st = (perform R now w.gen p0 rec w.reuseTimeline w.memArr opts).1.state := by
        rw [hperf]; rfl
      rw [hst] at hk
      exact perform_shape hR h0 h1 now w.gen p0 rec w.reuseTimeline w.memArr
        (fun k idxs hk => ih p0 (List.mem_iff_getElem?.2 ⟨_, hp0⟩) k idxs hk) k idxs hk

theorem idRand_valid : idRand.Valid := fun _ _ => List.Perm.refl _

/-! ## Completed loops over pairwise distinct indices -/

theorem forEach_cons_done_inv {f : Store → Nat → Outcome Store} {idx : Nat} {rest : List Nat}
    {st st2 : Store} (h : forEach f (idx :: rest) st = .done st2) :
    ∃ st1, f st idx = .done st1 ∧ forEach f rest st1 = .done st2 := by
  cases hf : f st idx with
  | crash s => rw [forEach_cons_crash rest hf] at h; cases h
  | done s =>
    rw [forEach_cons_done rest hf] at h
    exact ⟨s, rfl, h⟩

theorem lambdaIdx_congr {p q : Proxy} (h : q.Id = p.Id) (opts : Options) (idx : Nat) :
    lambdaIdx q opts idx = lambdaIdx p opts idx := by
  unfold lambdaIdx
  rw [h]

theorem accessLoop_done_Id {upd : Lambda → Option Lambda} {delta : Option Int} {hr : Nat}
    {opts : Options} {l : List Nat} {st st2 : Store}
    (h : forEach (accessStep upd delta hr opts) l st = .done st2) :
    st2.p.Id = st.p.Id ∧ st2.p.Map = st.p.Map := by
  have h1 := accessLoop_Id_Map upd delta hr opts l st
  rw [h] at h1
  exact h1

/-- The worker pool after a completed loop over pairwise distinct indices: the
addressed workers are updated once, the others are untouched. -/
theorem accessLoop_pool {upd : Lambda → Option Lambda} {delta : Option Int} {hr : Nat}
    {opts : Options} :
    ∀ (l : List Nat) (st st2 : Store), l.Nodup →
      forEach (accessStep upd delta hr opts) l st = .done st2 →
      (∀ j, j ∉ l → st2.p.LambdaPool[j]? = st.p.LambdaPool[j]?) ∧
      (∀ i ∈ l, ∃ lam lam1, st.p.LambdaPool[i]? = some lam ∧ upd lam = some lam1 ∧
        st2.p.LambdaPool[i]? = some lam1) := by
  intro l
  induction l with
  | nil =>
    intro st st2 _ h
    simp only [forEach, Outcome.done.injEq] at h
    subst h
    exact ⟨fun _ _ => rfl, by simp⟩
  | cons idx rest ih =>
    intro st st2 hnd h
    obtain ⟨st1, h1, h2⟩ := forEach_cons_done_inv h
    obtain ⟨lam, lam1, mem, tl, hl, hu, -, -, hst1⟩ := accessStep_done h1
    have hnd1 := List.nodup_cons.1 hnd
    obtain ⟨ihA, ihB⟩ := ih st1 st2 hnd1.2 h2
    have hpool1 : st1.p.LambdaPool = st.p.LambdaPool.set idx lam1 := by rw [hst1]
    have hlt : idx < st.p.LambdaPool.length := (List.getElem?_eq_some.1 hl).1
    constructor
    · intro j hj
      have hj1 : j ≠ idx := fun e => hj (by rw [e]; exact List.mem_cons_self _ _)
      have hj2 : j ∉ rest := fun e => hj (List.mem_cons_of_mem _ e)
      rw [ihA j hj2, hpool1, List.getElem?_set_ne (Ne.symm hj1)]
    · intro i hi
      rcases List.mem_cons.1 hi with e | e
      · subst e
        refine ⟨lam, lam1, hl, hu, ?_⟩
        rw [ihA i hnd1.1, hpool1, List.getElem?_set_self hlt]
      · obtain ⟨lam2, lam3, hl2, hu2, hl3⟩ := ihB i e
        have hne : idx ≠ i := fun e2 => hnd1.1 (by rw [e2]; exact e)
        rw [hpool1, List.getElem?_set_ne hne] at hl2
        exact ⟨lam2, lam3, hl2, hu2, hl3⟩

/-- The timeline after a completed loop whose indices address pairwise distinct
rows: each addressed row has bucket `hr` incremented once, the other rows are
untouched. -/
theorem accessLoop_timeline {upd : Lambda → Option Lambda} {delta : Option Int} {hr : Nat}
    {opts : Options} :
    ∀ (l : List Nat) (st st2 : Store), l.Nodup →
      (∀ i ∈ l, ∀ j ∈ l, lambdaIdx st.p opts i = lambdaIdx st.p opts j → i = j) →
      forEach (accessStep upd delta hr opts) l st = .done st2 →
      (∀ g : Nat, (∀ i ∈ l, lambdaIdx st.p opts i ≠ (g : Int)) →
        st2.reuseTimeline[g]? = st.reuseTimeline[g]?) ∧
      (∀ i ∈ l, 0 ≤ lambdaIdx st.p opts i ∧ ∃ row c,
        st.reuseTimeline[(lambdaIdx st.p opts i).toNat]? = some row ∧ row[hr]? = some c ∧
        st2.reuseTimeline[(lambdaIdx st.p opts i).toNat]? =
          some (row.set hr (wrapInt (c + 1)))) := by
  intro l
  induction l with
  | nil =>
    intro st st2 _ _ h
    simp only [forEach, Outcome.done.injEq] at h
    subst h
    exact ⟨fun _ _ => rfl, by simp⟩
  | cons idx rest ih =>
    intro st st2 hnd hinj h
    obtain ⟨st1, h1, h2⟩ := forEach_cons_done_inv h
    obtain ⟨lam, lam1, mem, tl, -, -, -, htl, hst1⟩ := accessStep_done h1
    obtain ⟨hg0, row, c, hrow, hc, htl1⟩ := incrCell_eq_some htl
    have hnd1 := List.nodup_cons.1 hnd
    have hId : st1.p.Id = st.p.Id := by rw [hst1]
    have hli : ∀ i, lambdaIdx st1.p opts i = lambdaIdx st.p opts i :=
      fun i => lambdaIdx_congr hId opts i
    have hinj1 : ∀ i ∈ rest, ∀ j ∈ rest,
        lambdaIdx st1.p opts i = lambdaIdx st1.p opts j → i = j := by
      intro i hi j hj e
      rw [hli, hli] at e
      exact hinj i (List.mem_cons_of_mem _ hi) j (List.mem_cons_of_mem _ hj) e
    obtain ⟨ihA, ihB⟩ := ih st1 st2 hnd1.2 hinj1 h2
    have htl2 : st1.reuseTimeline =
        st.reuseTimeline.set (lambdaIdx st.p opts idx).toNat (row.set hr (wrapInt (c + 1))) := by
      rw [hst1]; exact htl1
    have hlt : (lambdaIdx st.p opts idx).toNat < st.reuseTimeline.length :=
      (List.getElem?_eq_some.1 hrow).1
    constructor
    · intro g hg
      have hg1 : (lambdaIdx st.p opts idx).toNat ≠ g := by
        intro e
        apply hg idx (List.mem_cons_self _ _)
        omega
      rw [ihA g (fun i hi => by rw [hli]; exact hg i (List.mem_cons_of_mem _ hi)), htl2,
        List.getElem?_set_ne hg1]
    · intro i hi
      rcases List.mem_cons.1 hi with e | e
      · subst e
        refine ⟨hg0, row, c, hrow, hc, ?_⟩
        have hfree : ∀ j ∈ rest, lambdaIdx st1.p opts j ≠
            (((lambdaIdx st.p opts i).toNat : Nat) : Int) := by
          intro j hj e2
          rw [hli] at e2
          have e3 : lambdaIdx st.p opts j = lambdaIdx st.p opts i := by omega
          have := hinj j (List.mem_cons_of_mem _ hj) i (List.mem_cons_self _ _) e3
          exact hnd1.1 (by rw [← this]; exact hj)
        rw [ihA _ hfree, htl2, List.getElem?_set_self hlt]
      · obtain ⟨hi0, row2, c2, hrow2, hc2, hfin⟩ := ihB i e
        rw [hli] at hi0 hrow2 hfin
        refine ⟨hi0, row2, c2, ?_, hc2, hfin⟩
        have hne : (lambdaIdx st.p opts idx).toNat ≠ (lambdaIdx st.p opts i).toNat := by
          intro e2
          have e3 : lambdaIdx st.p opts idx = lambdaIdx st.p opts i := by omega
          have := hinj idx (List.mem_cons_self _ _) i hi e3
          exact hnd1.1 (by rw [this]; exact e)
        rw [htl2, List.getElem?_set_ne hne] at hrow2
        exact hrow2

theorem addOpt_eq_some {delta : Option Int} {arr arr1 : List Int} {i : Int}
    (h : addOpt delta arr i = some arr1) :
    (delta = none ∧ arr1 = arr) ∨
    (∃ v c, delta = some v ∧ 0 ≤ i ∧ arr[i.toNat]? = some c ∧
      arr1 = arr.set i.toNat (wrapInt (c + v))) := by
  unfold addOpt at h
  cases delta with
  | none =>
    simp only [Option.some.injEq] at h
    exact Or.inl ⟨rfl, h.symm⟩
  | some v =>
    simp only at h
    obtain ⟨hi, c, hc, he⟩ := addAt_eq_some h
    exact Or.inr ⟨v, c, rfl, hi, hc, he⟩

/-- The memory array after a completed loop whose indices address pairwise
distinct entries: each addressed entry has received the amount once, the other
entries are untouched. -/
theorem accessLoop_memArr {upd : Lambda → Option Lambda} {delta : Option Int} {hr : Nat}
    {opts : Options} :
    ∀ (l : List Nat) (st st2 : Store), l.Nodup →
      (∀ i ∈ l, ∀ j ∈ l, lambdaIdx st.p opts i = lambdaIdx st.p opts j → i = j) →
      forEach (accessStep upd delta hr opts) l st = .done st2 →
      (∀ g : Nat, (∀ i ∈ l, lambdaIdx st.p opts i ≠ (g : Int)) →
        st2.memArr[g]? = st.memArr[g]?) ∧
      (∀ v, delta = some v → ∀ i ∈ l, 0 ≤ lambdaIdx st.p opts i ∧ ∃ c,
        st.memArr[(lambdaIdx st.p opts i).toNat]? = some c ∧
        st2.memArr[(lambdaIdx st.p opts i).toNat]? = some (wrapInt (c + v))) := by
  intro l
  induction l with
  | nil =>
    intro st st2 _ _ h
    simp only [forEach, Outcome.done.injEq] at h
    subst h
    exact ⟨fun _ _ => rfl, by simp⟩
  | cons idx rest ih =>
    intro st st2 hnd hinj h
    obtain ⟨st1, h1, h2⟩ := forEach_cons_done_inv h
    obtain ⟨lam, lam1, mem, tl, -, -, hmem, -, hst1⟩ := accessStep_done h1
    have hnd1 := List.nodup_cons.1 hnd
    have hId : st1.p.Id = st.p.Id := by rw [hst1]
    have hli : ∀ i, lambdaIdx st1.p opts i = lambdaIdx st.p opts i :=
      fun i => lambdaIdx_congr hId opts i
    have hinj1 : ∀ i ∈ rest, ∀ j ∈ rest,
        lambdaIdx st1.p opts i = lambdaIdx st1.p opts j → i = j := by
      intro i hi j hj e
      rw [hli, hli] at e
      exact hinj i (List.mem_cons_of_mem _ hi) j (List.mem_cons_of_mem _ hj) e
    obtain ⟨ihA, ihB⟩ := ih st1 st2 hnd1.2 hinj1 h2
    have hmem1 : st1.memArr = mem := by rw [hst1]
    rcases addOpt_eq_some hmem with ⟨hd, hm⟩ | ⟨v, c, hd, hg0, hc, hm⟩
    · constructor
      · intro g hg
        rw [ihA g (fun i hi => by rw [hli]; exact hg i (List.mem_cons_of_mem _ hi)), hmem1, hm]
      · intro v hv
        rw [hd] at hv
        cases hv
    · have hlt : (lambdaIdx st.p opts idx).toNat < st.memArr.length :=
        (List.getElem?_eq_some.1 hc).1
      constructor
      · intro g hg
        have hg1 : (lambdaIdx st.p opts idx).toNat ≠ g := by
          intro e
          apply hg idx (List.mem_cons_self _ _)
          omega
        rw [ihA g (fun i hi => by rw [hli]; exact hg i (List.mem_cons_of_mem _ hi)), hmem1, hm,
          List.getElem?_set_ne hg1]
      · intro v2 hv2 i hi
        have hvv : v2 = v := by
          rw [hd] at hv2
          exact (Option.some.inj hv2).symm
        subst hvv
        rcases List.mem_cons.1 hi with e | e
        · subst e
          refine ⟨hg0, c, hc, ?_⟩
          have hfree : ∀ j ∈ rest, lambdaIdx st1.p opts j ≠
              (((lambdaIdx st.p opts i).toNat : Nat) : Int) := by
            intro j hj e2
            rw [hli] at e2
            have e3 : lambdaIdx st.p opts j = lambdaIdx st.p opts i := by omega
            have := hinj j (List.mem_cons_of_mem _ hj) i (List.mem_cons_self _ _) e3
            exact hnd1.1 (by rw [← this]; exact hj)
          rw [ihA _ hfree, hmem1, hm, List.getElem?_set_self hlt]
        · obtain ⟨hi0, c2, hc2, hfin⟩ := ihB v2 hd i e
          rw [hli] at hi0 hc2 hfin
          refine ⟨hi0, c2, ?_, hfin⟩
          have hne : (lambdaIdx st.p opts idx).toNat ≠ (lambdaIdx st.p opts i).toNat := by
            intro e2
            have e3 : lambdaIdx st.p opts idx = lambdaIdx st.p opts i := by omega
            have := hinj idx (List.mem_cons_self _ _) i hi e3
            exact hnd1.1 (by rw [this]; exact e)
          rw [hmem1, hm, List.getElem?_set_ne hne] at hc2
          exact hc2

/-- A loop over pairwise distinct indices completes when every addressed worker
exists and can be updated and every addressed cell exists. -/
theorem accessLoop_total {upd : Lambda → Option Lambda} {delta : Option Int} {hr : Nat}
    {opts : Options} :
    ∀ (l : List Nat) (st : Store), l.Nodup →
      (∀ i ∈ l, ∃ lam lam1, st.p.LambdaPool[i]? = some lam ∧ upd lam = some lam1) →
      (∀ i ∈ l, 0 ≤ lambdaIdx st.p opts i ∧
        (lambdaIdx st.p opts i).toNat < st.memArr.length ∧
        ∃ row, st.reuseTimeline[(lambdaIdx st.p opts i).toNat]? = some row ∧ hr < row.length) →
      ∃ st2, forEach (accessStep upd delta hr opts) l st = .done st2 := by
  intro l
  induction l with
  | nil => intro st _ _ _; exact ⟨st, rfl⟩
  | cons idx rest ih =>
    intro st hnd hpool hcells
    have hnd1 := List.nodup_cons.1 hnd
    obtain ⟨lam, lam1, hl, hu⟩ := hpool idx (List.mem_cons_self _ _)
    obtain ⟨hg0, hglt, row, hrow, hhr⟩ := hcells idx (List.mem_cons_self _ _)
    obtain ⟨c, hc, hincr⟩ := incrCell_of hg0 hrow hhr
    have hmemex : ∃ mem, addOpt delta st.memArr (lambdaIdx st.p opts idx) = some mem ∧
        mem.length = st.memArr.length := by
      unfold addOpt
      cases delta with
      | none => exact ⟨st.memArr, rfl, rfl⟩
      | some v =>
        simp only
        rw [addAt_of hg0 hglt]
        exact ⟨_, rfl, by simp⟩
    obtain ⟨mem, hmem, hmemlen⟩ := hmemex
    have hstep := accessStep_of hl hu hmem hincr
    rw [forEach_cons_done rest hstep]
    apply ih _ hnd1.2
    · intro i hi
      obtain ⟨lam2, lam3, hl2, hu2⟩ := hpool i (List.mem_cons_of_mem _ hi)
      have hne : idx ≠ i := fun e => hnd1.1 (by rw [e]; exact hi)
      refine ⟨lam2, lam3, ?_, hu2⟩
      simp only [List.getElem?_set_ne hne, hl2]
    · intro i hi
      obtain ⟨hi0, hilt, row2, hrow2, hhr2⟩ := hcells i (List.mem_cons_of_mem _ hi)
      have hli : lambdaIdx
          { Id := st.p.Id, LambdaPool := st.p.LambdaPool.set idx lam1, Map := st.p.Map }
          opts i = lambdaIdx st.p opts i := lambdaIdx_congr rfl opts i
      simp only [hli]
      refine ⟨hi0, by rw [hmemlen]; exact hilt, ?_⟩
      by_cases hsame : (lambdaIdx st.p opts idx).toNat = (lambdaIdx st.p opts i).toNat
      · rw [← hsame]
        have hlt : (lambdaIdx st.p opts idx).toNat < st.reuseTimeline.length :=
          (List.getElem?_eq_some.1 hrow).1
        rw [List.getElem?_set_self hlt]
        refine ⟨_, rfl, ?_⟩
        rw [List.length_set]
        rw [← hsame, hrow] at hrow2
        cases hrow2
        exact hhr2
      · rw [List.getElem?_set_ne hsame]
        exact ⟨row2, hrow2, hhr2⟩

/-! ## The two worker updates -/

theorem hitUpd_eq_some {rec : Record} {opts : Options} {lam lam1 : Lambda}
    (h : hitUpd rec opts lam = some lam1) :
    ∃ obj, mapLookup rec.Key lam.Kvs = some obj ∧ toUint64 opts.NumDataShards ≠ 0 ∧
      lam1 = { Kvs := mapInsert rec.Key
                        { Key := obj.Key
                          Sz := rec.Sz / toUint64 opts.NumDataShards
                          Freq := u64 (obj.Freq + 1) } lam.Kvs
               MemUsed := lam.MemUsed } := by
  unfold hitUpd at h
  cases h1 : mapLookup rec.Key lam.Kvs with
  | none => simp [h1] at h
  | some obj =>
    simp only [h1] at h
    by_cases h2 : toUint64 opts.NumDataShards = 0
    · simp [h2] at h
    · simp only [h2, if_false, Option.some.injEq] at h
      exact ⟨obj, rfl, h2, h.symm⟩

theorem hitUpd_of {rec : Record} {opts : Options} {lam : Lambda} {obj : Object}
    (h1 : mapLookup rec.Key lam.Kvs = some obj) (h2 : toUint64 opts.NumDataShards ≠ 0) :
    hitUpd rec opts lam =
      some { Kvs := mapInsert rec.Key
                      { Key := obj.Key
                        Sz := rec.Sz / toUint64 opts.NumDataShards
                        Freq := u64 (obj.Freq + 1) } lam.Kvs
             MemUsed := lam.MemUsed } := by
  unfold hitUpd
  simp [h1, h2]

theorem missUpd_eq_some {rec : Record} {opts : Options} {lam lam1 : Lambda}
    (h : missUpd rec opts lam = some lam1) :
    toUint64 opts.NumDataShards ≠ 0 ∧
      lam1 = { Kvs := mapInsert rec.Key
                        { Key := rec.Key, Sz := rec.Sz / toUint64 opts.NumDataShards, Freq := 0 }
                        lam.Kvs
               MemUsed := u64 (lam.MemUsed + rec.Sz / toUint64 opts.NumDataShards) } := by
  unfold missUpd at h
  by_cases h2 : toUint64 opts.NumDataShards = 0
  · simp [h2] at h
  · simp only [h2, if_false, Option.some.injEq] at h
    exact ⟨h2, h.symm⟩

theorem missUpd_of {rec : Record} {opts : Options} (lam : Lambda)
    (h2 : toUint64 opts.NumDataShards ≠ 0) :
    missUpd rec opts lam =
      some { Kvs := mapInsert rec.Key
                      { Key := rec.Key, Sz := rec.Sz / toUint64 opts.NumDataShards, Freq := 0 }
                      lam.Kvs
             MemUsed := u64 (lam.MemUsed + rec.Sz / toUint64 opts.NumDataShards) } := by
  unfold missUpd
  simp [h2]

theorem hitUpd_keeps (rec : Record) (opts : Options) : UpdKeeps (hitUpd rec opts) := by
  intro lam lam1 h k obj hk hkey
  obtain ⟨obj0, h0, -, hl⟩ := hitUpd_eq_some h
  subst hl
  simp only [mapLookup_mapInsert]
  by_cases e : k = rec.Key
  · subst e
    rw [h0] at hk
    cases hk
    simp [hkey]
  · simp only [e, if_false]
    exact ⟨obj, hk, hkey⟩

theorem missUpd_keeps (rec : Record) (opts : Options) : UpdKeeps (missUpd rec opts) := by
  intro lam lam1 h k obj hk hkey
  obtain ⟨-, hl⟩ := missUpd_eq_some h
  subst hl
  simp only [mapLookup_mapInsert]
  by_cases e : k = rec.Key
  · subst e
    simp
  · simp only [e, if_false]
    exact ⟨obj, hk, hkey⟩

theorem missUpd_creates {rec : Record} {opts : Options} {lam lam1 : Lambda}
    (h : missUpd rec opts lam = some lam1) :
    ∃ obj1, mapLookup rec.Key lam1.Kvs = some obj1 ∧ obj1.Key = rec.Key := by
  obtain ⟨-, hl⟩ := missUpd_eq_some h
  subst hl
  simp [mapLookup_mapInsert_self]

/-! ## Objects on the referenced workers -/

theorem HasObj_of_pool_eq {p q : Proxy} (h : q.LambdaPool = p.LambdaPool) {k : String} {i : Nat}
    (hp : HasObj p k i) : HasObj q k i := by
  obtain ⟨lam, obj, h1, h2, h3⟩ := hp
  exact ⟨lam, obj, by rw [h]; exact h1, h2, h3⟩

theorem accessStep_hasObj_keep {upd : Lambda → Option Lambda} (hupd : UpdKeeps upd)
    (delta : Option Int) (hr : Nat) (opts : Options) (st : Store) (idx : Nat)
    {k : String} {i : Nat} (h : HasObj st.p k i) :
    HasObj (accessStep upd delta hr opts st idx).state.p k i := by
  obtain ⟨pool, mem, tl, heq, hpool, -, -⟩ := accessStep_state upd delta hr opts st idx
  rw [heq]
  rcases hpool with e | ⟨lam, lam1, hl, hu, e⟩
  · exact HasObj_of_pool_eq (by rw [e]) h
  · obtain ⟨lam0, obj, h1, h2, h3⟩ := h
    by_cases hi : idx = i
    · subst hi
      rw [hl] at h1
      cases h1
      obtain ⟨obj1, ho1, ho2⟩ := hupd lam lam1 hu k obj h2 h3
      have hlt : idx < st.p.LambdaPool.length := (List.getElem?_eq_some.1 hl).1
      exact ⟨lam1, obj1, by simp only [e, List.getElem?_set_self hlt], ho1, ho2⟩
    · exact ⟨lam0, obj, by simp only [e, List.getElem?_set_ne hi, h1], h2, h3⟩

theorem accessLoop_hasObj_keep {upd : Lambda → Option Lambda} (hupd : UpdKeeps upd)
    (delta : Option Int) (hr : Nat) (opts : Options) (l : List Nat) (st : Store)
    {k : String} {i : Nat} (h : HasObj st.p k i) :
    HasObj (forEach (accessStep upd delta hr opts) l st).state.p k i :=
  forEach_state_inv (fun s => HasObj s.p k i)
    (fun s idx hs => accessStep_hasObj_keep hupd delta hr opts s idx hs) l st h

theorem missLoop_hasObj {rec : Record} {opts : Options} {l : List Nat} {st st2 : Store}
    (h : forEach (accessStep (missUpd rec opts) (missDelta rec) rec.TimestampHr opts) l st =
      .done st2) :
    ∀ i ∈ l, HasObj st2.p rec.Key i := by
  refine (forEach_done_establish (fun i s => HasObj s.p rec.Key i) ?_ ?_ l st st2 h).2
  · intro s idx s1 hs
    obtain ⟨lam, lam1, mem, tl, hl, hu, -, -, hs1⟩ := accessStep_done hs
    obtain ⟨obj1, ho1, ho2⟩ := missUpd_creates hu
    have hlt : idx < s.p.LambdaPool.length := (List.getElem?_eq_some.1 hl).1
    subst hs1
    exact ⟨lam1, obj1, by simp only [List.getElem?_set_self hlt], ho1, ho2⟩
  · intro s idx s1 i hs hi
    have := accessStep_hasObj_keep (missUpd_keeps rec opts) (missDelta rec) rec.TimestampHr
      opts s idx hi
    rw [hs] at this
    exact this

/-- A call of `perform` that returns keeps an Object on every worker referenced by
the `Map`, and puts one on every worker of a new shard set. -/
theorem perform_hasObj {R : RandSource} {now : Int} {gen : Nat} {p : Proxy} {rec : Record}
    {tl : List (List Int)} {mem : List Int} {opts : Options} {st : Store}
    (h : (perform R now gen p rec tl mem opts).1 = .done st)
    (hp : ∀ k idxs, mapLookup k p.Map = some idxs → ∀ i ∈ idxs, HasObj p k i) :
    ∀ k idxs, mapLookup k st.p.Map = some idxs → ∀ i ∈ idxs, HasObj st.p k i := by
  intro k idxs hk i hi
  rcases perform_cases R now gen p rec tl mem opts with
    ⟨val, hv, he⟩ | ⟨hn, he⟩ | ⟨index, g, hn, hr, he⟩
  · rw [he] at h
    simp only at h
    have hmap := (accessLoop_done_Id h).2
    simp only at hmap
    rw [hmap] at hk
    have := accessLoop_hasObj_keep (hitUpd_keeps rec opts) none rec.TimestampHr opts val
      { p := p, reuseTimeline := tl, memArr := mem } (hp k idxs hk i hi)
    rw [h] at this
    exact this
  · rw [he] at h
    cases h
  · rw [he] at h
    simp only at h
    have hmap := (accessLoop_done_Id h).2
    simp only at hmap
    rw [hmap, mapLookup_mapInsert] at hk
    by_cases e : k = rec.Key
    · simp only [e, if_true, Option.some.injEq] at hk
      subst hk
      rw [e]
      exact missLoop_hasObj h i hi
    · simp only [e, if_false] at hk
      have h0 : HasObj
          { Id := p.Id, LambdaPool := p.LambdaPool, Map := mapInsert rec.Key index p.Map } k i :=
        HasObj_of_pool_eq rfl (hp k idxs hk i hi)
      have := accessLoop_hasObj_keep (missUpd_keeps rec opts) (missDelta rec) rec.TimestampHr
        opts index
        { p := { Id := p.Id, LambdaPool := p.LambdaPool, Map := mapInsert rec.Key index p.Map }
          reuseTimeline := tl, memArr := mem } h0
      rw [h] at this
      exact this

theorem reachable_hasObj {R : RandSource} {opts : Options} {w : World}
    (hw : Reachable R opts w) :
    ∀ p ∈ w.proxies, ∀ k idxs, mapLookup k p.Map = some idxs → ∀ i ∈ idxs, HasObj p k i := by
  induction hw with
  | init gen w hinit =>
    intro p hp k idxs hk
    obtain ⟨i, hi⟩ := List.mem_iff_getElem?.1 hp
    obtain ⟨hpe, -, -⟩ := initWorld_proxy hinit hi
    subst hpe
    simp [mapLookup] at hk
  | call w w1 id rec now hreach hstep ih =>
    intro p hp k idxs hk
    obtain ⟨p0, st, hid, hp0, hperf, hw1⟩ := step_done hstep
    subst hw1
    simp only at hp
    rcases List.mem_or_eq_of_mem_set hp with hmem | heq
    · exact ih p hmem k idxs hk
    · subst heq
      exact perform_hasObj hperf (ih p0 (List.mem_iff_getElem?.2 ⟨_, hp0⟩)) k idxs hk

theorem exWorldA_reachable : Reachable idRand exOpts exWorldA :=
  Reachable.call exWorld0 exWorldA 0 exRecA 0 (Reachable.init 0 exWorld0 (by decide))
    (by decide)

/-! ## Global worker indices -/

theorem lambdaIdx_eq_base {p : Proxy} {opts : Options} {idx : Nat}
    (h0 : 0 ≤ Atoi p.Id * opts.NumLambdasPerProxy)
    (h1 : Atoi p.Id * opts.NumLambdasPerProxy + opts.NumLambdasPerProxy < 9223372036854775808)
    (hidx : (idx : Int) < opts.NumLambdasPerProxy) :
    lambdaIdx p opts idx = Atoi p.Id * opts.NumLambdasPerProxy + (idx : Int) := by
  unfold lambdaIdx
  rw [wrapInt_of_range (a := Atoi p.Id * opts.NumLambdasPerProxy) (by omega) (by omega)]
  exact wrapInt_of_range (by omega) (by omega)

theorem Atoi_Itoa_of_mul {i : Nat} {n : Int} (hn : 0 < n)
    (h : ((i : Int) + 1) * n < 9223372036854775808) : Atoi (Itoa (i : Int)) = (i : Int) := by
  apply Atoi_Itoa
  have h1 : (i : Int) + 1 ≤ ((i : Int) + 1) * n := le_mul_of_one_le_right (by omega) (by omega)
  omega

/-! ## The effect of a completed loop -/

theorem accessLoop_effect {upd : Lambda → Option Lambda} {delta : Option Int} {hr : Nat}
    {opts : Options} {l : List Nat} {st st2 : Store} {base : Int}
    (hnd : l.Nodup) (hb0 : 0 ≤ base)
    (hbase : ∀ idx ∈ l, lambdaIdx st.p opts idx = base + (idx : Int))
    (h : forEach (accessStep upd delta hr opts) l st = .done st2) :
    AccessEffect upd delta hr base l st st2 := by
  have hinj : ∀ i ∈ l, ∀ j ∈ l, lambdaIdx st.p opts i = lambdaIdx st.p opts j → i = j := by
    intro i hi j hj e
    rw [hbase i hi, hbase j hj] at e
    omega
  obtain ⟨hA1, hA2⟩ := accessLoop_pool l st st2 hnd h
  obtain ⟨hB1, hB2⟩ := accessLoop_timeline l st st2 hnd hinj h
  obtain ⟨hC1, hC2⟩ := accessLoop_memArr l st st2 hnd hinj h
  refine ⟨(accessLoop_done_Id h).1, hA1, hA2, ?_, ?_, ?_, ?_⟩
  · intro g hg
    have hg2 : ∀ i ∈ l, lambdaIdx st.p opts i ≠ (g : Int) := by
      intro i hi
      rw [hbase i hi]
      exact hg i hi
    exact ⟨hB1 g hg2, hC1 g hg2⟩
  · intro idx hidx
    obtain ⟨-, row, c, h1, h2, h3⟩ := hB2 idx hidx
    rw [hbase idx hidx] at h1 h3
    exact ⟨row, c, h1, h2, h3⟩
  · intro hd
    have := accessLoop_memArr_none upd hr opts l st
    subst hd
    rw [h] at this
    exact this
  · intro v hv idx hidx
    obtain ⟨-, c, h1, h2⟩ := hC2 v hv idx hidx
    rw [hbase idx hidx] at h1 h2
    exact ⟨c, h1, h2⟩

/-- The effect of a call of `perform` that returns, on a proxy whose stored shard
sets are duplicate-free and in range and whose workers have the global indices
`base + idx`. -/
theorem perform_effect {R : RandSource} (hR : R.Valid) {now : Int} {gen : Nat} {p : Proxy}
    {rec : Record} {tl : List (List Int)} {mem : List Int} {opts : Options} {st : Store}
    (h : (perform R now gen p rec tl mem opts).1 = .done st) {base : Int} (hb0 : 0 ≤ base)
    (hshape : ∀ k idxs, mapLookup k p.Map = some idxs →
      idxs.Nodup ∧ ∀ idx ∈ idxs, (idx : Int) < opts.NumLambdasPerProxy)
    (hbase : ∀ idx : Nat, (idx : Int) < opts.NumLambdasPerProxy →
      lambdaIdx p opts idx = base + (idx : Int)) :
    (∃ val, mapLookup rec.Key p.Map = some val ∧ st.p.Map = p.Map ∧
      AccessEffect (hitUpd rec opts) none rec.TimestampHr base val
        { p := p, reuseTimeline := tl, memArr := mem } st) ∨
    (∃ index g, mapLookup rec.Key p.Map = none ∧
      random R now gen opts.NumLambdasPerProxy
        (wrapInt (opts.NumDataShards + opts.NumParityShards)) = (some index, g) ∧
      st.p.Map = mapInsert rec.Key index p.Map ∧ index.Nodup ∧
      (∀ idx ∈ index, (idx : Int) < opts.NumLambdasPerProxy) ∧
      AccessEffect (missUpd rec opts) (missDelta rec) rec.TimestampHr base index
        { p := p, reuseTimeline := tl, memArr := mem } st) := by
  rcases perform_cases R now gen p rec tl mem opts with
    ⟨val, hv, he⟩ | ⟨hn, he⟩ | ⟨index, g, hn, hr, he⟩
  · left
    rw [he] at h
    simp only at h
    obtain ⟨hnd, hlt⟩ := hshape _ _ hv
    exact ⟨val, hv, (accessLoop_done_Id h).2,
      accessLoop_effect hnd hb0 (fun idx hi => hbase idx (hlt idx hi)) h⟩
  · rw [he] at h
    cases h
  · right
    rw [he] at h
    simp only at h
    obtain ⟨-, hnd, hlt⟩ := random_shape hR hr
    have heff := @accessLoop_effect (missUpd rec opts) (missDelta rec) rec.TimestampHr opts
      index { p := { Id := p.Id, LambdaPool := p.LambdaPool
                     Map := mapInsert rec.Key index p.Map }
              reuseTimeline := tl, memArr := mem } st base hnd hb0
      (fun idx hi => by
        have := hbase idx (hlt idx hi)
        rw [← this]
        exact lambdaIdx_congr rfl opts idx) h
    exact ⟨index, g, hn, hr, (accessLoop_done_Id h).2, hnd, hlt, heff⟩

theorem perform_miss_effect {R : RandSource} (hR : R.Valid) {now : Int} {gen : Nat} {p : Proxy}
    {rec : Record} {tl : List (List Int)} {mem : List Int} {opts : Options} {st : Store}
    (hn : mapLookup rec.Key p.Map = none)
    (h : (perform R now gen p rec tl mem opts).1 = .done st) {base : Int} (hb0 : 0 ≤ base)
    (hbase : ∀ idx : Nat, (idx : Int) < opts.NumLambdasPerProxy →
      lambdaIdx p opts idx = base + (idx : Int)) :
    ∃ index g,
      random R now gen opts.NumLambdasPerProxy
        (wrapInt (opts.NumDataShards + opts.NumParityShards)) = (some index, g) ∧
      st.p.Map = mapInsert rec.Key index p.Map ∧ index.Nodup ∧
      (∀ idx ∈ index, (idx : Int) < opts.NumLambdasPerProxy) ∧
      AccessEffect (missUpd rec opts) (missDelta rec) rec.TimestampHr base index
        { p := p, reuseTimeline := tl, memArr := mem } st := by
  rcases perform_cases R now gen p rec tl mem opts with
    ⟨val, hv, he⟩ | ⟨-, he⟩ | ⟨index, g, -, hr, he⟩
  · rw [hn] at hv
    cases hv
  · rw [he] at h
    cases h
  · rw [he] at h
    simp only at h
    obtain ⟨-, hnd, hlt⟩ := random_shape hR hr
    have heff := @accessLoop_effect (missUpd rec opts) (missDelta rec) rec.TimestampHr opts
      index { p := { Id := p.Id, LambdaPool := p.LambdaPool
                     Map := mapInsert rec.Key index p.Map }
              reuseTimeline := tl, memArr := mem } st base hnd hb0
      (fun idx hi => by
        have := hbase idx (hlt idx hi)
        rw [← this]
        exact lambdaIdx_congr rfl opts idx) h
    exact ⟨index, g, hr, (accessLoop_done_Id h).2, hnd, hlt, heff⟩

theorem perform_hit_effect {R : RandSource} {now : Int} {gen : Nat} {p : Proxy}
    {rec : Record} {tl : List (List Int)} {mem : List Int} {opts : Options} {st : Store}
    {val : List Nat} (hv : mapLookup rec.Key p.Map = some val)
    (h : (perform R now gen p rec tl mem opts).1 = .done st) {base : Int} (hb0 : 0 ≤ base)
    (hnd : val.Nodup)
    (hbase : ∀ idx ∈ val, lambdaIdx p opts idx = base + (idx : Int)) :
    st.p.Map = p.Map ∧
      AccessEffect (hitUpd rec opts) none rec.TimestampHr base val
        { p := p, reuseTimeline := tl, memArr := mem } st := by
  rw [perform_hit R now gen p rec tl mem opts hv] at h
  simp only at h
  exact ⟨(accessLoop_done_Id h).2, accessLoop_effect hnd hb0 hbase h⟩

theorem random_none {R : RandSource} (hR : R.Valid) (now : Int) (gen : Nat) {n k : Int}
    (h : n < 0 ∨ k < 0 ∨ n < k) : (random R now gen n k).1 = none := by
  by_cases hn : n < 0
  · unfold random
    simp [hn]
  · have hperm := hR (R.seed now) n.toNat
    have hlen : (R.perm (R.seed now) n.toNat).1.length = n.toNat := by
      rw [List.Perm.length_eq hperm, List.length_range]
    unfold random
    have hc : ¬ (0 ≤ k ∧ k ≤ ((R.perm (R.seed now) n.toNat).1.length : Int)) := by
      rw [hlen]; omega
    simp only [hn, if_false, hc]

theorem List.set_of_getElem? {α : Type} {l : List α} {i : Nat} {a : α} (h : l[i]? = some a) :
    l.set i a = l := by
  apply List.ext_getElem?
  intro j
  rw [List.getElem?_set]
  by_cases e : i = j
  · subst e
    have hlt : i < l.length := (List.getElem?_eq_some.1 h).1
    simp [hlt, h]
  · simp [e]

/-- A call from `main` whose placement fails leaves the whole state as it was,
the generator apart. -/
theorem step_crash_of_random_none {R : RandSource} {opts : Options} {w : World} {id : Int}
    {rec : Record} {now : Int}
    (hempty : ∀ p ∈ w.proxies, mapLookup rec.Key p.Map = none)
    (hrand : (random R now w.gen opts.NumLambdasPerProxy
      (wrapInt (opts.NumDataShards + opts.NumParityShards))).1 = none) :
    ∃ wc, step R opts w id rec now = .crash wc ∧ wc.proxies = w.proxies ∧
      wc.reuseTimeline = w.reuseTimeline ∧ wc.memArr = w.memArr := by
  unfold step
  cases h1 : indexInt w.proxies id with
  | none => exact ⟨w, rfl, rfl, rfl, rfl⟩
  | some p =>
    obtain ⟨hid, hp⟩ := indexInt_eq_some h1
    have hn := hempty p (List.mem_iff_getElem?.2 ⟨_, hp⟩)
    have hc := perform_miss_crash R now w.gen p rec w.reuseTimeline w.memArr opts hn hrand
    simp only [hc, Outcome.map]
    exact ⟨_, rfl, List.set_of_getElem? hp, rfl, rfl⟩

theorem mainLoop_cons_crash {R : RandSource} {locate : String → String} {opts : Options}
    {w wc : World} {e : Event} (es : List Event)
    (h : step R opts w (Atoi (locate e.record.Key)) e.record e.now = .crash wc) :
    mainLoop R locate opts w (e :: es) = .crash wc := by
  simp [mainLoop, h]

theorem mainLoop_cons_done {R : RandSource} {locate : String → String} {opts : Options}
    {w w1 : World} {e : Event} (es : List Event)
    (h : step R opts w (Atoi (locate e.record.Key)) e.record e.now = .done w1) :
    mainLoop R locate opts w (e :: es) = mainLoop R locate opts w1 es := by
  simp [mainLoop, h]

/-- The initial state is empty: no placement, no Object, no memory, no access. -/
theorem initWorld_clean {opts : Options} {gen : Nat} {w : World}
    (h : initWorld opts gen = some w) :
    (∀ p ∈ w.proxies, p.Map = [] ∧ ∀ lam ∈ p.LambdaPool, lam.Kvs = [] ∧ lam.MemUsed = 0) ∧
    (∀ row ∈ w.reuseTimeline, ∀ c ∈ row, c = 0) ∧ (∀ c ∈ w.memArr, c = 0) := by
  refine ⟨?_, ?_, ?_⟩
  · intro p hp
    obtain ⟨i, hi⟩ := List.mem_iff_getElem?.1 hp
    obtain ⟨hpe, -, -⟩ := initWorld_proxy h hi
    subst hpe
    refine ⟨rfl, ?_⟩
    intro lam hlam
    simp only at hlam
    rw [List.eq_of_mem_replicate hlam]
    exact ⟨rfl, rfl⟩
  · obtain ⟨ps, tl, -, h2, hw⟩ := initWorld_eq_some h
    obtain ⟨-, -, htl⟩ := initTimeline_eq_some h2
    subst hw
    subst htl
    intro row hrow c hc
    simp only at hrow
    rw [List.eq_of_mem_replicate hrow] at hc
    exact List.eq_of_mem_replicate hc
  · obtain ⟨ps, tl, -, -, hw⟩ := initWorld_eq_some h
    subst hw
    intro c hc
    exact List.eq_of_mem_replicate hc

theorem lambdaIdx_of_Itoa {p : Proxy} {opts : Options} {i idx : Nat}
    (hId : p.Id = Itoa (i : Int)) (hn0 : 0 ≤ opts.NumLambdasPerProxy)
    (hfit : ((i : Int) + 1) * opts.NumLambdasPerProxy < 9223372036854775808)
    (hidx : (idx : Int) < opts.NumLambdasPerProxy) :
    lambdaIdx p opts idx = (i : Int) * opts.NumLambdasPerProxy + (idx : Int) := by
  have hA : Atoi p.Id = (i : Int) := by
    rw [hId]
    exact Atoi_Itoa_of_mul (by omega) hfit
  have hexp : ((i : Int) + 1) * opts.NumLambdasPerProxy =
      (i : Int) * opts.NumLambdasPerProxy + opts.NumLambdasPerProxy := by ring
  have h0 : 0 ≤ (i : Int) * opts.NumLambdasPerProxy :=
    mul_nonneg (by omega) hn0
  have h1 : (i : Int) * opts.NumLambdasPerProxy + opts.NumLambdasPerProxy <
      9223372036854775808 := by
    rw [← hexp]
    exact hfit
  have := @lambdaIdx_eq_base p opts idx (by rw [hA]; exact h0)
    (by rw [hA]; exact h1) hidx
  rw [this, hA]

/-- Whatever its outcome, a loop leaves alone every timeline row and every
`memArr` entry that no element of the list addresses. -/
theorem accessLoop_frame (upd : Lambda → Option Lambda) (delta : Option Int) (hr : Nat)
    (opts : Options) (l : List Nat) (st : Store) (g : Nat)
    (hg : ∀ idx ∈ l, lambdaIdx st.p opts idx ≠ (g : Int)) :
    (forEach (accessStep upd delta hr opts) l st).state.reuseTimeline[g]? =
      st.reuseTimeline[g]? ∧
    (forEach (accessStep upd delta hr opts) l st).state.memArr[g]? = st.memArr[g]? := by
  have key := forEach_state_inv_mem (f := accessStep upd delta hr opts)
    (fun s => s.p.Id = st.p.Id ∧ s.reuseTimeline[g]? = st.reuseTimeline[g]? ∧
      s.memArr[g]? = st.memArr[g]?) l ?_ st ⟨rfl, rfl, rfl⟩
  · exact key.2
  · intro s idx hidx hs
    obtain ⟨hsId, hstl, hsmem⟩ := hs
    obtain ⟨pool, mem, tl, heq, -, hmem, htl⟩ := accessStep_state upd delta hr opts s idx
    rw [heq]
    have hne : lambdaIdx s.p opts idx ≠ (g : Int) := by
      rw [lambdaIdx_congr hsId]
      exact hg idx hidx
    refine ⟨hsId, ?_, ?_⟩
    · rcases htl with e | e
      · simp only [e]; exact hstl
      · obtain ⟨h0, row, c, -, -, e2⟩ := incrCell_eq_some e
        simp only [e2]
        rw [List.getElem?_set_ne (by omega)]
        exact hstl
    · rcases hmem with e | ⟨v, -, e⟩
      · simp only [e]; exact hsmem
      · obtain ⟨h0, c, -, e2⟩ := addAt_eq_some e
        simp only [e2]
        rw [List.getElem?_set_ne (by omega)]
        exact hsmem

/-- Whatever its outcome, `perform` leaves alone every timeline row and every
`memArr` entry that the key's shard set does not address. -/
theorem perform_frame (R : RandSource) (now : Int) (gen : Nat) (p : Proxy) (rec : Record)
    (tl : List (List Int)) (mem : List Int) (opts : Options) (g : Nat)
    (hg : ∀ idx ∈ (mapLookup rec.Key (perform R now gen p rec tl mem opts).1.state.p.Map).getD [],
      lambdaIdx p opts idx ≠ (g : Int)) :
    (perform R now gen p rec tl mem opts).1.state.reuseTimeline[g]? = tl[g]? ∧
    (perform R now gen p rec tl mem opts).1.state.memArr[g]? = mem[g]? := by
  rcases perform_cases R now gen p rec tl mem opts with
    ⟨val, hv, he⟩ | ⟨hn, he⟩ | ⟨index, gg, hn, hr, he⟩
  · rw [he] at hg ⊢
    simp only at hg ⊢
    have hmap := (accessLoop_Id_Map (hitUpd rec opts) none rec.TimestampHr opts val
      { p := p, reuseTimeline := tl, memArr := mem }).2
    rw [hmap] at hg
    simp only [hv, Option.getD_some] at hg
    exact accessLoop_frame (hitUpd rec opts) none rec.TimestampHr opts val
      { p := p, reuseTimeline := tl, memArr := mem } g hg
  · rw [he]
    exact ⟨rfl, rfl⟩
  · rw [he] at hg ⊢
    simp only at hg ⊢
    have hmap := (accessLoop_Id_Map (missUpd rec opts) (missDelta rec) rec.TimestampHr opts
      index { p := { Id := p.Id, LambdaPool := p.LambdaPool
                     Map := mapInsert rec.Key index p.Map }
              reuseTimeline := tl, memArr := mem }).2
    rw [hmap] at hg
    simp only [mapLookup_mapInsert_self, Option.getD_some] at hg
    exact accessLoop_frame (missUpd rec opts) (missDelta rec) rec.TimestampHr opts index
      { p := { Id := p.Id, LambdaPool := p.LambdaPool, Map := mapInsert rec.Key index p.Map }
        reuseTimeline := tl, memArr := mem } g
      (fun idx hi => hg idx hi)

/-- The shard set of the key after `perform`, whatever the outcome, is in range
when the stored shard sets are and `rand.Perm` returns a permutation. -/
theorem perform_shard_range {R : RandSource} (hR : R.Valid) (now : Int) (gen : Nat) (p : Proxy)
    (rec : Record) (tl : List (List Int)) (mem : List Int) (opts : Options)
    (hrange : ∀ k idxs, mapLookup k p.Map = some idxs →
      ∀ idx ∈ idxs, (idx : Int) < opts.NumLambdasPerProxy) :
    ∀ idx ∈ (mapLookup rec.Key (perform R now gen p rec tl mem opts).1.state.p.Map).getD [],
      (idx : Int) < opts.NumLambdasPerProxy := by
  intro idx hidx
  rcases (perform_Map R now gen p rec tl mem opts).2 with h | ⟨index, g, hn, hr, h⟩
  · rw [h] at hidx
    cases hk : mapLookup rec.Key p.Map with
    | none => simp [hk] at hidx
    | some idxs =>
      simp only [hk, Option.getD_some] at hidx
      exact hrange _ _ hk idx hidx
  · rw [h, mapLookup_mapInsert_self] at hidx
    simp only [Option.getD_some] at hidx
    exact (random_shape hR hr).2.2 idx hidx

theorem ranges_disjoint {i j : Nat} {n a b : Int} (hij : j ≠ i) (ha0 : 0 ≤ a) (ha : a < n)
    (hb0 : 0 ≤ b) (hb : b < n) : (i : Int) * n + a ≠ (j : Int) * n + b := by
  intro e
  rcases Nat.lt_or_gt_of_ne hij with h | h
  · have h1 : ((j : Int) + 1) * n ≤ (i : Int) * n :=
      mul_le_mul_of_nonneg_right (by omega) (by omega)
    have h2 : ((j : Int) + 1) * n = (j : Int) * n + n := by ring
    omega
  · have h1 : ((i : Int) + 1) * n ≤ (j : Int) * n :=
      mul_le_mul_of_nonneg_right (by omega) (by omega)
    have h2 : ((i : Int) + 1) * n = (i : Int) * n + n := by ring
    omega

theorem placement_shape_exStoreA :
    ∀ k idxs, mapLookup k exStoreA.p.Map = some idxs → PlacementShape exOpts idxs := by
  intro k idxs hk
  have hm : exStoreA.p.Map = [("k1", [0, 1, 2])] := by decide
  rw [hm] at hk
  simp only [mapLookup] at hk
  split at hk
  · cases hk
    refine ⟨by decide, by decide, ?_⟩
    intro i hi
    simp only [List.mem_cons, List.mem_singleton, List.not_mem_nil, or_false] at hi
    rcases hi with h | h | h <;> subst h <;> decide
  · cases hk

/-! ## Sizes of the accumulators -/

theorem map_length_set_row {tl : List (List Int)} {g : Nat} {row row1 : List Int}
    (h : tl[g]? = some row) (hlen : row1.length = row.length) :
    (tl.set g row1).map List.length = tl.map List.length := by
  apply List.ext_getElem?
  intro k
  simp only [List.getElem?_map, List.getElem?_set]
  by_cases e : g = k
  · subst e
    have hlt : g < tl.length := (List.getElem?_eq_some.1 h).1
    simp [hlt, h, hlen]
  · simp [e]

/-- Whatever its outcome, a loop keeps the number of timeline rows, the length of
every row and the length of the memory array. -/
theorem accessLoop_sizes (upd : Lambda → Option Lambda) (delta : Option Int) (hr : Nat)
    (opts : Options) (l : List Nat) (st : Store) :
    (forEach (accessStep upd delta hr opts) l st).state.reuseTimeline.map List.length =
      st.reuseTimeline.map List.length ∧
    (forEach (accessStep upd delta hr opts) l st).state.memArr.length = st.memArr.length := by
  refine forEach_state_inv
    (fun s => s.reuseTimeline.map List.length = st.reuseTimeline.map List.length ∧
      s.memArr.length = st.memArr.length) ?_ l st ⟨rfl, rfl⟩
  intro s idx hs
  obtain ⟨pool, mem, tl, heq, -, hmem, htl⟩ := accessStep_state upd delta hr opts s idx
  rw [heq]
  constructor
  · rcases htl with e | e
    · simp only [e]; exact hs.1
    · obtain ⟨-, row, c, h1, -, e2⟩ := incrCell_eq_some e
      simp only [e2]
      rw [map_length_set_row h1 (by simp)]
      exact hs.1
  · rcases hmem with e | ⟨v, -, e⟩
    · simp only [e]; exact hs.2
    · obtain ⟨-, c, -, e2⟩ := addAt_eq_some e
      simp only [e2, List.length_set]
      exact hs.2

theorem perform_sizes (R : RandSource) (now : Int) (gen : Nat) (p : Proxy) (rec : Record)
    (tl : List (List Int)) (mem : List Int) (opts : Options) :
    (perform R now gen p rec tl mem opts).1.state.reuseTimeline.map List.length =
      tl.map List.length ∧
    (perform R now gen p rec tl mem opts).1.state.memArr.length = mem.length ∧
    (perform R now gen p rec tl mem opts).1.state.p.LambdaPool.length = p.LambdaPool.length := by
  rcases perform_cases R now gen p rec tl mem opts with
    ⟨val, hv, he⟩ | ⟨hn, he⟩ | ⟨index, g, hn, hr, he⟩
  · rw [he]
    have h1 := accessLoop_sizes (hitUpd rec opts) none rec.TimestampHr opts val
      { p := p, reuseTimeline := tl, memArr := mem }
    have h2 := accessLoop_pool_length (hitUpd rec opts) none rec.TimestampHr opts val
      { p := p, reuseTimeline := tl, memArr := mem }
    exact ⟨h1.1, h1.2, h2⟩
  · rw [he]
    exact ⟨rfl, rfl, rfl⟩
  · rw [he]
    have h1 := accessLoop_sizes (missUpd rec opts) (missDelta rec) rec.TimestampHr opts index
      { p := { Id := p.Id, LambdaPool := p.LambdaPool, Map := mapInsert rec.Key index p.Map }
        reuseTimeline := tl, memArr := mem }
    have h2 := accessLoop_pool_length (missUpd rec opts) (missDelta rec) rec.TimestampHr opts
      index
      { p := { Id := p.Id, LambdaPool := p.LambdaPool, Map := mapInsert rec.Key index p.Map }
        reuseTimeline := tl, memArr := mem }
    exact ⟨h1.1, h1.2, h2⟩

theorem rows_of_map_length {tl tl1 : List (List Int)} {n : Int}
    (h : tl1.map List.length = tl.map List.length)
    (hrows : ∀ row ∈ tl, (row.length : Int) = n) :
    ∀ row ∈ tl1, (row.length : Int) = n := by
  intro row hrow
  obtain ⟨g, hg⟩ := List.mem_iff_getElem?.1 hrow
  have h1 : (tl1.map List.length)[g]? = some row.length := by
    rw [List.getElem?_map, hg]; rfl
  rw [h, List.getElem?_map] at h1
  cases h0 : tl[g]? with
  | none => rw [h0] at h1; cases h1
  | some row0 =>
    rw [h0] at h1
    simp only [Option.map_some', Option.some.injEq] at h1
    rw [← h1]
    exact hrows row0 (List.mem_iff_getElem?.2 ⟨g, h0⟩)

theorem length_of_map_length {tl tl1 : List (List Int)}
    (h : tl1.map List.length = tl.map List.length) : tl1.length = tl.length := by
  have := congrArg List.length h
  simpa using this

/-! ## Configuration facts -/

theorem Options.Valid.toUint64_ne {opts : Options} (hV : opts.Valid) :
    toUint64 opts.NumDataShards ≠ 0 := by
  obtain ⟨-, -, -, -, -, h1, h2, -, -⟩ := hV
  unfold toUint64
  omega

theorem Options.Valid.wrap_shards {opts : Options} (hV : opts.Valid) :
    wrapInt (opts.NumDataShards + opts.NumParityShards) =
      opts.NumDataShards + opts.NumParityShards := by
  obtain ⟨-, -, h3, -, -, -, -, h8, h9⟩ := hV
  exact wrapInt_of_range (by omega) (by omega)

theorem Options.Valid.fit {opts : Options} (hV : opts.Valid) {i : Nat}
    (hi : (i : Int) < opts.NumProxies) :
    ((i : Int) + 1) * opts.NumLambdasPerProxy ≤ opts.NumProxies * opts.NumLambdasPerProxy ∧
    ((i : Int) + 1) * opts.NumLambdasPerProxy < 9223372036854775808 := by
  obtain ⟨-, h2, -, h4, -, -, -, -, -⟩ := hV
  have h : ((i : Int) + 1) * opts.NumLambdasPerProxy ≤
      opts.NumProxies * opts.NumLambdasPerProxy :=
    mul_le_mul_of_nonneg_right (by omega) h2
  exact ⟨h, by omega⟩

theorem Options.Valid.wrap_total {opts : Options} (hV : opts.Valid) :
    wrapInt (opts.NumProxies * opts.NumLambdasPerProxy) =
      opts.NumProxies * opts.NumLambdasPerProxy := by
  obtain ⟨h1, h2, -, h4, -, -, -, -, -⟩ := hV
  have h : 0 ≤ opts.NumProxies * opts.NumLambdasPerProxy := mul_nonneg (by omega) h2
  exact wrapInt_of_range (by omega) h4

theorem hitUpd_keys {rec : Record} {opts : Options} {lam lam1 : Lambda} {k : String}
    {obj : Object} (h : hitUpd rec opts lam = some lam1)
    (hk : mapLookup k lam1.Kvs = some obj) :
    k = rec.Key ∨ ∃ obj0, mapLookup k lam.Kvs = some obj0 := by
  obtain ⟨obj0, -, -, hl⟩ := hitUpd_eq_some h
  subst hl
  by_cases e : k = rec.Key
  · exact Or.inl e
  · simp only [mapLookup_mapInsert, e, if_false] at hk
    exact Or.inr ⟨obj, hk⟩

theorem missUpd_keys {rec : Record} {opts : Options} {lam lam1 : Lambda} {k : String}
    {obj : Object} (h : missUpd rec opts lam = some lam1)
    (hk : mapLookup k lam1.Kvs = some obj) :
    k = rec.Key ∨ ∃ obj0, mapLookup k lam.Kvs = some obj0 := by
  obtain ⟨-, hl⟩ := missUpd_eq_some h
  subst hl
  by_cases e : k = rec.Key
  · exact Or.inl e
  · simp only [mapLookup_mapInsert, e, if_false] at hk
    exact Or.inr ⟨obj, hk⟩

/-- After a completed loop every Object still lies on a worker of its key's shard
set. -/
theorem kvs_inv_of_effect {upd : Lambda → Option Lambda} {delta : Option Int} {hr : Nat}
    {base : Int} {shard : List Nat} {st0 st : Store} {key : String}
    (hkeys : ∀ lam lam1 k obj, upd lam = some lam1 → mapLookup k lam1.Kvs = some obj →
      k = key ∨ ∃ obj0, mapLookup k lam.Kvs = some obj0)
    (heff : AccessEffect upd delta hr base shard st0 st)
    (hold : ∀ (j : Nat) lam k obj, st0.p.LambdaPool[j]? = some lam →
      mapLookup k lam.Kvs = some obj → ∃ idxs, mapLookup k st0.p.Map = some idxs ∧ j ∈ idxs)
    (hmap1 : mapLookup key st.p.Map = some shard)
    (hmap2 : ∀ k idxs, mapLookup k st0.p.Map = some idxs → mapLookup k st.p.Map = some idxs) :
    ∀ (j : Nat) lam k obj, st.p.LambdaPool[j]? = some lam →
      mapLookup k lam.Kvs = some obj → ∃ idxs, mapLookup k st.p.Map = some idxs ∧ j ∈ idxs := by
  intro j lam k obj hl hk
  obtain ⟨-, hout, hin, -, -, -, -⟩ := heff
  by_cases hj : j ∈ shard
  · obtain ⟨lam0, lam1, hl0, hu, hl1⟩ := hin j hj
    rw [hl1] at hl
    cases hl
    rcases hkeys lam0 lam k obj hu hk with e | ⟨obj0, h0⟩
    · subst e
      exact ⟨shard, hmap1, hj⟩
    · obtain ⟨idxs, h1, h2⟩ := hold j lam0 k obj0 hl0 h0
      exact ⟨idxs, hmap2 k idxs h1, h2⟩
  · rw [hout j hj] at hl
    obtain ⟨idxs, h1, h2⟩ := hold j lam k obj hl hk
    exact ⟨idxs, hmap2 k idxs h1, h2⟩

/-- The cells addressed for a worker of proxy number `i` exist. -/
theorem cells_exist {opts : Options} (hV : opts.Valid) {p : Proxy} {i : Nat}
    (hId : p.Id = Itoa (i : Int)) (hi : (i : Int) < opts.NumProxies)
    {tl : List (List Int)} {mem : List Int}
    (htl : (tl.length : Int) = opts.NumProxies * opts.NumLambdasPerProxy)
    (hrows : ∀ row ∈ tl, (row.length : Int) = opts.NumHours)
    (hmem : (mem.length : Int) = opts.NumProxies * opts.NumLambdasPerProxy)
    {hr : Nat} (hhr : (hr : Int) < opts.NumHours) {idx : Nat}
    (hidx : (idx : Int) < opts.NumLambdasPerProxy) :
    lambdaIdx p opts idx = (i : Int) * opts.NumLambdasPerProxy + (idx : Int) ∧
    0 ≤ lambdaIdx p opts idx ∧ (lambdaIdx p opts idx).toNat < mem.length ∧
    ∃ row, tl[(lambdaIdx p opts idx).toNat]? = some row ∧ hr < row.length := by
  have hfit := Options.Valid.fit hV hi
  obtain ⟨-, hV2, -, -, -, -, -, -, -⟩ := hV
  have hb := lambdaIdx_of_Itoa hId hV2 hfit.2 hidx
  have hb0 : 0 ≤ (i : Int) * opts.NumLambdasPerProxy := mul_nonneg (by omega) hV2
  have hexp : ((i : Int) + 1) * opts.NumLambdasPerProxy =
      (i : Int) * opts.NumLambdasPerProxy + opts.NumLambdasPerProxy := by ring
  rw [hb]
  have hlt1 : ((i : Int) * opts.NumLambdasPerProxy + (idx : Int)).toNat < tl.length := by
    omega
  refine ⟨rfl, by omega, by omega, tl[((i : Int) * opts.NumLambdasPerProxy + (idx : Int)).toNat],
    List.getElem?_eq_getElem hlt1, ?_⟩
  have := hrows _ (List.getElem_mem hlt1)
  omega

/-- Under the invariants, `perform` returns, keeps the invariants, and its effect
is that of one completed loop over the key's shard set. -/
theorem perform_spec {R : RandSource} (hR : R.Valid) {opts : Options} (hV : opts.Valid)
    {p : Proxy} {i : Nat} (hId : p.Id = Itoa (i : Int)) (hi : (i : Int) < opts.NumProxies)
    (hP : ProxyInv opts p) {tl : List (List Int)} {mem : List Int}
    (htl : (tl.length : Int) = opts.NumProxies * opts.NumLambdasPerProxy)
    (hrows : ∀ row ∈ tl, (row.length : Int) = opts.NumHours)
    (hmem : (mem.length : Int) = opts.NumProxies * opts.NumLambdasPerProxy)
    (rec : Record) (hhr : (rec.TimestampHr : Int) < opts.NumHours) (now : Int) (gen : Nat) :
    ∃ st g shard, perform R now gen p rec tl mem opts = (.done st, g) ∧
      st.p.Id = p.Id ∧ ProxyInv opts st.p ∧
      mapLookup rec.Key st.p.Map = some shard ∧ PlacementShape opts shard ∧
      (∀ k idxs, mapLookup k p.Map = some idxs → mapLookup k st.p.Map = some idxs) ∧
      ((mapLookup rec.Key p.Map = some shard ∧
        AccessEffect (hitUpd rec opts) none rec.TimestampHr
          ((i : Int) * opts.NumLambdasPerProxy) shard
          { p := p, reuseTimeline := tl, memArr := mem } st) ∨
       (mapLookup rec.Key p.Map = none ∧
        AccessEffect (missUpd rec opts) (missDelta rec) rec.TimestampHr
          ((i : Int) * opts.NumLambdasPerProxy) shard
          { p := p, reuseTimeline := tl, memArr := mem } st)) := by
  have hd := Options.Valid.toUint64_ne hV
  have hwrap := Options.Valid.wrap_shards hV
  obtain ⟨hPlen, hPshape, hPobj, hPkvs⟩ := hP
  have hcells : ∀ idx : Nat, (idx : Int) < opts.NumLambdasPerProxy →
      lambdaIdx p opts idx = (i : Int) * opts.NumLambdasPerProxy + (idx : Int) ∧
      0 ≤ lambdaIdx p opts idx ∧ (lambdaIdx p opts idx).toNat < mem.length ∧
      ∃ row, tl[(lambdaIdx p opts idx).toNat]? = some row ∧ rec.TimestampHr < row.length :=
    fun idx hidx => cells_exist hV hId hi htl hrows hmem hhr hidx
  have hb0 : 0 ≤ (i : Int) * opts.NumLambdasPerProxy :=
    mul_nonneg (by omega) hV.2.1
  cases hk : mapLookup rec.Key p.Map with
  | some val =>
    obtain ⟨hlen, hnd, hlt⟩ := hPshape _ _ hk
    obtain ⟨st, hst⟩ := @accessLoop_total (hitUpd rec opts) none rec.TimestampHr opts val
      { p := p, reuseTimeline := tl, memArr := mem } hnd
      (fun idx hidx => by
        obtain ⟨lam, obj, hl, ho, -⟩ := hPobj _ _ hk idx hidx
        exact ⟨lam, _, hl, hitUpd_of ho hd⟩)
      (fun idx hidx => (hcells idx (hlt idx hidx)).2)
    have hperf := perform_hit R now gen p rec tl mem opts hk
    rw [hst] at hperf
    have hperf1 : (perform R now gen p rec tl mem opts).1 = .done st := by rw [hperf]
    have hIdMap := accessLoop_done_Id hst
    have heff := @accessLoop_effect (hitUpd rec opts) none rec.TimestampHr opts val
      { p := p, reuseTimeline := tl, memArr := mem } st _ hnd hb0
      (fun idx hidx => (hcells idx (hlt idx hidx)).1) hst
    have hmapst : st.p.Map = p.Map := hIdMap.2
    have hpers : ∀ k idxs, mapLookup k p.Map = some idxs → mapLookup k st.p.Map = some idxs := by
      intro k idxs h
      rw [hmapst]
      exact h
    refine ⟨st, gen, val, hperf, hIdMap.1, ⟨?_, ?_, ?_, ?_⟩, by rw [hmapst]; exact hk,
      ⟨hlen, hnd, hlt⟩, hpers, Or.inl ⟨rfl, heff⟩⟩
    · have := accessLoop_pool_length (hitUpd rec opts) none rec.TimestampHr opts val
        { p := p, reuseTimeline := tl, memArr := mem }
      rw [hst] at this
      simp only [Outcome.state] at this
      rw [this]
      exact hPlen
    · intro k idxs h
      rw [hmapst] at h
      exact hPshape k idxs h
    · exact perform_hasObj hperf1 hPobj
    · exact kvs_inv_of_effect (fun lam lam1 k obj hu hk2 => hitUpd_keys hu hk2) heff hPkvs
        (by rw [hmapst]; exact hk) hpers
  | none =>
    obtain ⟨index, g, hrand⟩ := random_of_valid hR now gen
      (show 0 ≤ wrapInt (opts.NumDataShards + opts.NumParityShards) by
        rw [hwrap]; exact hV.2.2.2.2.2.2.2.1)
      (show wrapInt (opts.NumDataShards + opts.NumParityShards) ≤ opts.NumLambdasPerProxy by
        rw [hwrap]; exact hV.2.2.2.2.2.2.2.2)
    have hshape : PlacementShape opts index :=
      random_placementShape hR hV.2.2.2.2.2.2.2.1
        (lt_of_le_of_lt hV.2.2.2.2.2.2.2.2 hV.2.2.1) hrand
    obtain ⟨hlen, hnd, hlt⟩ := hshape
    obtain ⟨st, hst⟩ := @accessLoop_total (missUpd rec opts) (missDelta rec) rec.TimestampHr
      opts index
      { p := { Id := p.Id, LambdaPool := p.LambdaPool, Map := mapInsert rec.Key index p.Map }
        reuseTimeline := tl, memArr := mem } hnd
      (fun idx hidx => by
        have h1 : idx < p.LambdaPool.length := by
          have := hlt idx hidx
          omega
        exact ⟨p.LambdaPool[idx], _, List.getElem?_eq_getElem h1, missUpd_of _ hd⟩)
      (fun idx hidx => (hcells idx (hlt idx hidx)).2)
    have hperf := perform_miss R now gen p rec tl mem opts hk hrand
    rw [hst] at hperf
    have hperf1 : (perform R now gen p rec tl mem opts).1 = .done st := by rw [hperf]
    have hIdMap := accessLoop_done_Id hst
    have heff := @accessLoop_effect (missUpd rec opts) (missDelta rec) rec.TimestampHr opts
      index
      { p := { Id := p.Id, LambdaPool := p.LambdaPool, Map := mapInsert rec.Key index p.Map }
        reuseTimeline := tl, memArr := mem } st _ hnd hb0
      (fun idx hidx => (hcells idx (hlt idx hidx)).1) hst
    have hmapst : st.p.Map = mapInsert rec.Key index p.Map := hIdMap.2
    have hpers : ∀ k idxs, mapLookup k p.Map = some idxs → mapLookup k st.p.Map = some idxs := by
      intro k idxs h
      rw [hmapst, mapLookup_mapInsert]
      by_cases e : k = rec.Key
      · rw [e, hk] at h
        cases h
      · simp only [e, if_false]
        exact h
    have hnew : mapLookup rec.Key st.p.Map = some index := by
      rw [hmapst]
      exact mapLookup_mapInsert_self _ _ _
    refine ⟨st, g, index, hperf, hIdMap.1, ⟨?_, ?_, ?_, ?_⟩, hnew, ⟨hlen, hnd, hlt⟩, hpers,
      Or.inr ⟨rfl, heff⟩⟩
    · have := accessLoop_pool_length (missUpd rec opts) (missDelta rec) rec.TimestampHr opts
        index
        { p := { Id := p.Id, LambdaPool := p.LambdaPool, Map := mapInsert rec.Key index p.Map }
          reuseTimeline := tl, memArr := mem }
      rw [hst] at this
      simp only [Outcome.state] at this
      rw [this]
      exact hPlen
    · intro k idxs h
      rw [hmapst, mapLookup_mapInsert] at h
      by_cases e : k = rec.Key
      · simp only [e, if_true, Option.some.injEq] at h
        subst h
        exact ⟨hlen, hnd, hlt⟩
      · simp only [e, if_false] at h
        exact hPshape k idxs h
    · exact perform_hasObj hperf1 hPobj
    · exact @kvs_inv_of_effect (missUpd rec opts) (missDelta rec) rec.TimestampHr _ index
        { p := p, reuseTimeline := tl, memArr := mem } st rec.Key
        (fun lam lam1 k obj hu hk2 => missUpd_keys hu hk2) heff hPkvs hnew hpers

/-- Under the invariants, a call from `main` on an existing proxy with a record
inside the timeline returns, keeps the invariants, and has the effect of one
completed loop over the key's shard set. -/
theorem step_spec {R : RandSource} (hR : R.Valid) {opts : Options} (hV : opts.Valid)
    {w : World} (hW : WorldInv opts w) {i : Nat} (hi : (i : Int) < opts.NumProxies)
    (rec : Record) (hhr : (rec.TimestampHr : Int) < opts.NumHours) (now : Int) :
    ∃ w1 p st shard, w.proxies[i]? = some p ∧ ProxyInv opts p ∧ p.Id = Itoa (i : Int) ∧
      step R opts w (i : Int) rec now = .done w1 ∧ WorldInv opts w1 ∧
      w1.proxies = w.proxies.set i st.p ∧ w1.reuseTimeline = st.reuseTimeline ∧
      w1.memArr = st.memArr ∧ st.p.Id = p.Id ∧
      mapLookup rec.Key st.p.Map = some shard ∧ PlacementShape opts shard ∧
      (∀ k idxs, mapLookup k p.Map = some idxs → mapLookup k st.p.Map = some idxs) ∧
      ((mapLookup rec.Key p.Map = some shard ∧
        AccessEffect (hitUpd rec opts) none rec.TimestampHr
          ((i : Int) * opts.NumLambdasPerProxy) shard
          { p := p, reuseTimeline := w.reuseTimeline, memArr := w.memArr } st) ∨
       (mapLookup rec.Key p.Map = none ∧
        AccessEffect (missUpd rec opts) (missDelta rec) rec.TimestampHr
          ((i : Int) * opts.NumLambdasPerProxy) shard
          { p := p, reuseTimeline := w.reuseTimeline, memArr := w.memArr } st)) := by
  obtain ⟨hWlen, hWp, hWtl, hWrows, hWmem⟩ := hW
  have hlt : i < w.proxies.length := by omega
  have hp : w.proxies[i]? = some w.proxies[i] := List.getElem?_eq_getElem hlt
  obtain ⟨hId, hP⟩ := hWp i _ hp
  obtain ⟨st, g, shard, hperf, hstId, hstP, hshard, hshape, hpers, heff⟩ :=
    perform_spec hR hV hId hi hP hWtl hWrows hWmem rec hhr now w.gen
  have hsizes := perform_sizes R now w.gen w.proxies[i] rec w.reuseTimeline w.memArr opts
  rw [hperf] at hsizes
  simp only [Outcome.state] at hsizes
  have hstep : step R opts w (i : Int) rec now =
      .done { proxies := w.proxies.set i st.p, reuseTimeline := st.reuseTimeline
              memArr := st.memArr, gen := g } := by
    unfold step
    rw [indexInt_natCast, hp]
    simp only [hperf, Outcome.map, Int.toNat_ofNat]
  refine ⟨_, w.proxies[i], st, shard, hp, hP, hId, hstep, ⟨?_, ?_, ?_, ?_, ?_⟩, rfl, rfl, rfl,
    hstId, hshard, hshape, hpers, heff⟩
  · simp only [List.length_set]
    exact hWlen
  · intro j q hq
    simp only [List.getElem?_set] at hq
    by_cases e : i = j
    · subst e
      simp only [if_true, hlt, Option.some.injEq] at hq
      subst hq
      exact ⟨by rw [hstId]; exact hId, hstP⟩
    · simp only [e, if_false] at hq
      exact hWp j q hq
  · simp only
    rw [length_of_map_length hsizes.1]
    exact hWtl
  · exact rows_of_map_length hsizes.1 hWrows
  · simp only
    rw [hsizes.2.1]
    exact hWmem

/-- The initial state of `main` satisfies the invariants. -/
theorem initWorld_inv {opts : Options} (hV : opts.Valid) {gen : Nat} {w : World}
    (h : initWorld opts gen = some w) : WorldInv opts w := by
  obtain ⟨ps, tl, h1, h2, hw⟩ := initWorld_eq_some h
  obtain ⟨-, -, hps⟩ := initProxies_eq_some h1
  obtain ⟨-, -, htl⟩ := initTimeline_eq_some h2
  have hwrap := Options.Valid.wrap_total hV
  obtain ⟨hV1, hV2, -, hV4, hV5, -, -, -, -⟩ := hV
  have hnn : 0 ≤ opts.NumProxies * opts.NumLambdasPerProxy := mul_nonneg (by omega) hV2
  rw [hwrap] at htl
  refine ⟨?_, ?_, ?_, ?_, ?_⟩
  · rw [hw, hps]
    simp only [List.length_map, List.length_range]
    omega
  · intro i p hp
    obtain ⟨hpe, -, -⟩ := initWorld_proxy h hp
    subst hpe
    refine ⟨rfl, ?_, ?_, ?_, ?_⟩
    · simp only [List.length_replicate]
      omega
    · intro k idxs hk
      simp [mapLookup] at hk
    · intro k idxs hk
      simp [mapLookup] at hk
    · intro j lam k obj hl hk
      simp only [List.getElem?_replicate] at hl
      split at hl
      · cases hl
        simp [mapLookup] at hk
      · cases hl
  · rw [hw, htl]
    simp only [List.length_replicate]
    omega
  · rw [hw, htl]
    intro row hrow
    simp only at hrow
    rw [List.eq_of_mem_replicate hrow]
    simp only [List.length_replicate]
    omega
  · rw [hw, hwrap]
    simp only [List.length_replicate]
    omega

/-! ## Global index arithmetic -/

theorem addressed_iff {N i g : Nat} {shard : List Nat} (hlt : ∀ idx ∈ shard, idx < N) :
    (∃ idx ∈ shard, (i : Int) * (N : Int) + (idx : Int) = (g : Int)) ↔
      (g / N = i ∧ g % N ∈ shard) := by
  constructor
  · rintro ⟨idx, hidx, e⟩
    have hN := hlt idx hidx
    have e2 : g = idx + i * N := by
      have : ((i * N + idx : Nat) : Int) = (g : Int) := by
        push_cast
        exact e
      have := Int.ofNat_inj.1 this
      omega
    subst e2
    constructor
    · rw [Nat.add_mul_div_right _ _ (by omega), Nat.div_eq_of_lt hN]
      simp
    · rw [Nat.add_mul_mod_self_right, Nat.mod_eq_of_lt hN]
      exact hidx
  · rintro ⟨h1, h2⟩
    refine ⟨g % N, h2, ?_⟩
    have := Nat.div_add_mod g N
    rw [h1] at this
    have h3 : ((N * i + g % N : Nat) : Int) = (g : Int) := by rw [this]
    push_cast at h3
    rw [mul_comm]
    exact h3

/-! ## Row sums -/

theorem rowSum_eq_of_getElem? {tl : List (List Int)} {g : Nat} {row : List Int}
    (h : tl[g]? = some row) : rowSum tl g = row.sum := by
  unfold rowSum
  rw [h]
  rfl

theorem rowSum_congr {tl tl1 : List (List Int)} {g : Nat} (h : tl1[g]? = tl[g]?) :
    rowSum tl1 g = rowSum tl g := by
  unfold rowSum
  rw [h]

theorem le_sum_of_nonneg {row : List Int} (hnn : ∀ c ∈ row, 0 ≤ c) {c : Int} (hc : c ∈ row) :
    c ≤ row.sum := List.single_le_sum hnn c hc

/-- The timeline after a completed loop: the sum of every addressed row has grown
by one, the other sums are as before, and no cell is negative. -/
theorem rowSum_of_effect {upd : Lambda → Option Lambda} {delta : Option Int} {hr : Nat}
    {base : Int} {shard : List Nat} {st0 st : Store}
    (heff : AccessEffect upd delta hr base shard st0 st)
    (hnn : NonNeg st0.reuseTimeline)
    (hbound : ∀ g, rowSum st0.reuseTimeline g < 9223372036854775807)
    (hb : ∀ idx ∈ shard, 0 ≤ base + (idx : Int)) :
    (∀ g : Nat, (∃ idx ∈ shard, base + (idx : Int) = (g : Int)) →
      rowSum st.reuseTimeline g = rowSum st0.reuseTimeline g + 1) ∧
    (∀ g : Nat, (∀ idx ∈ shard, base + (idx : Int) ≠ (g : Int)) →
      rowSum st.reuseTimeline g = rowSum st0.reuseTimeline g) ∧
    NonNeg st.reuseTimeline := by
  obtain ⟨-, -, -, hout, hin, -, -⟩ := heff
  have hrow : ∀ idx ∈ shard, ∃ row c,
      st0.reuseTimeline[(base + (idx : Int)).toNat]? = some row ∧ row[hr]? = some c ∧
      st.reuseTimeline[(base + (idx : Int)).toNat]? = some (row.set hr (c + 1)) ∧
      0 ≤ c := by
    intro idx hidx
    obtain ⟨row, c, h1, h2, h3⟩ := hin idx hidx
    have hmem : row ∈ st0.reuseTimeline := List.mem_iff_getElem?.2 ⟨_, h1⟩
    have hcm : c ∈ row := List.mem_iff_getElem?.2 ⟨_, h2⟩
    have hc0 := hnn row hmem c hcm
    have hcs := le_sum_of_nonneg (hnn row hmem) hcm
    have hsum := hbound (base + (idx : Int)).toNat
    rw [rowSum_eq_of_getElem? h1] at hsum
    rw [wrapInt_of_range (by omega) (by omega)] at h3
    exact ⟨row, c, h1, h2, h3, hc0⟩
  refine ⟨?_, ?_, ?_⟩
  · rintro g ⟨idx, hidx, e⟩
    obtain ⟨row, c, h1, h2, h3, -⟩ := hrow idx hidx
    have hg : (base + (idx : Int)).toNat = g := by omega
    rw [hg] at h1 h3
    rw [rowSum_eq_of_getElem? h1, rowSum_eq_of_getElem? h3, List.sum_set']
    obtain ⟨hlt, hget⟩ := List.getElem?_eq_some.1 h2
    simp only [hlt, dite_true, hget]
    ring
  · intro g hg
    exact rowSum_congr (hout g hg).1
  · intro row hrow1 c hc
    obtain ⟨g, hg⟩ := List.mem_iff_getElem?.1 hrow1
    by_cases ha : ∃ idx ∈ shard, base + (idx : Int) = (g : Int)
    · obtain ⟨idx, hidx, e⟩ := ha
      obtain ⟨row0, c0, h1, h2, h3, hc0⟩ := hrow idx hidx
      have hgg : (base + (idx : Int)).toNat = g := by omega
      rw [hgg] at h1 h3
      rw [h3] at hg
      cases hg
      rcases List.mem_or_eq_of_mem_set hc with h | h
      · exact hnn row0 (List.mem_iff_getElem?.2 ⟨_, h1⟩) c h
      · omega
    · have ha2 : ∀ idx ∈ shard, base + (idx : Int) ≠ (g : Int) :=
        fun idx hidx e => ha ⟨idx, hidx, e⟩
      rw [(hout g ha2).1] at hg
      exact hnn row (List.mem_iff_getElem?.2 ⟨_, hg⟩) c hc

theorem shardSet_of_placedIn {w : World} {i : Nat} {k : String} {idxs : List Nat}
    (h : PlacedIn w i k idxs) : shardSet w i k = idxs := by
  obtain ⟨p, hp, hk⟩ := h
  unfold shardSet
  rw [hp]
  simp only [hk, Option.getD_some]

theorem accessedBy_iff {locate : String → String} {opts : Options} {wf : World} {g i : Nat}
    {e : Event} {shard : List Nat} (hA : Atoi (locate e.record.Key) = (i : Int))
    (hpl : PlacedIn wf i e.record.Key shard) :
    accessedBy locate opts wf g e = true ↔
      (g / opts.NumLambdasPerProxy.toNat = i ∧ g % opts.NumLambdasPerProxy.toNat ∈ shard) := by
  unfold accessedBy
  simp only [Bool.and_eq_true, decide_eq_true_eq, hA]
  constructor
  · rintro ⟨h1, h2⟩
    have h3 : g / opts.NumLambdasPerProxy.toNat = i := by omega
    rw [h3, shardSet_of_placedIn hpl] at h2
    exact ⟨h3, h2⟩
  · rintro ⟨h1, h2⟩
    refine ⟨by omega, ?_⟩
    rw [h1, shardSet_of_placedIn hpl]
    exact h2

/-- One call from `main` under the invariants: it returns, keeps the invariants
and every stored shard set, places the key, and adds one to the row sum of each
worker of the key's shard set and to no other. -/
theorem step_rowSum {R : RandSource} (hR : R.Valid) {opts : Options} (hV : opts.Valid)
    {w : World} (hW : WorldInv opts w) {i : Nat} (hi : (i : Int) < opts.NumProxies)
    (rec : Record) (hhr : (rec.TimestampHr : Int) < opts.NumHours) (now : Int)
    (hnn : NonNeg w.reuseTimeline)
    (hbound : ∀ g, rowSum w.reuseTimeline g < 9223372036854775807) :
    ∃ w1 shard, step R opts w (i : Int) rec now = .done w1 ∧ WorldInv opts w1 ∧
      PlacedIn w1 i rec.Key shard ∧
      (∀ i2 k idxs, PlacedIn w i2 k idxs → PlacedIn w1 i2 k idxs) ∧
      NonNeg w1.reuseTimeline ∧
      ∀ g : Nat, rowSum w1.reuseTimeline g = rowSum w.reuseTimeline g +
        (if g / opts.NumLambdasPerProxy.toNat = i ∧
            g % opts.NumLambdasPerProxy.toNat ∈ shard then 1 else 0) := by
  obtain ⟨w1, p, st, shard, hp, hP, hId, hstep, hW1, hprox, htl, hmem, hstId, hshard, hshape,
    hpers, heff⟩ := step_spec hR hV hW hi rec hhr now
  have hlt : i < w.proxies.length := (List.getElem?_eq_some.1 hp).1
  have hn0 : 0 ≤ opts.NumLambdasPerProxy := hV.2.1
  have hN : opts.NumLambdasPerProxy = ((opts.NumLambdasPerProxy.toNat : Nat) : Int) := by omega
  have hshlt : ∀ idx ∈ shard, idx < opts.NumLambdasPerProxy.toNat := by
    intro idx hidx
    have := hshape.2.2 idx hidx
    omega
  have hb0 : 0 ≤ (i : Int) * opts.NumLambdasPerProxy := mul_nonneg (by omega) hn0
  have hsums : (∀ g : Nat, (∃ idx ∈ shard,
        (i : Int) * opts.NumLambdasPerProxy + (idx : Int) = (g : Int)) →
        rowSum st.reuseTimeline g = rowSum w.reuseTimeline g + 1) ∧
      (∀ g : Nat, (∀ idx ∈ shard,
        (i : Int) * opts.NumLambdasPerProxy + (idx : Int) ≠ (g : Int)) →
        rowSum st.reuseTimeline g = rowSum w.reuseTimeline g) ∧
      NonNeg st.reuseTimeline := by
    rcases heff with ⟨-, h⟩ | ⟨-, h⟩
    · exact rowSum_of_effect h hnn hbound (fun idx _ => by omega)
    · exact rowSum_of_effect h hnn hbound (fun idx _ => by omega)
  obtain ⟨hs1, hs2, hs3⟩ := hsums
  refine ⟨w1, shard, hstep, hW1, ?_, ?_, ?_, ?_⟩
  · refine ⟨st.p, ?_, hshard⟩
    rw [hprox, List.getElem?_set_self hlt]
  · rintro i2 k idxs ⟨q, hq, hk⟩
    by_cases e : i = i2
    · subst e
      rw [hp] at hq
      cases hq
      exact ⟨st.p, by rw [hprox, List.getElem?_set_self hlt], hpers k idxs hk⟩
    · exact ⟨q, by rw [hprox, List.getElem?_set_ne e]; exact hq, hk⟩
  · rw [htl]
    exact hs3
  · intro g
    rw [htl]
    have hiff := @addressed_iff opts.NumLambdasPerProxy.toNat i g shard hshlt
    rw [← hN] at hiff
    by_cases hc : g / opts.NumLambdasPerProxy.toNat = i ∧
        g % opts.NumLambdasPerProxy.toNat ∈ shard
    · rw [if_pos hc]
      exact hs1 g (hiff.2 hc)
    · rw [if_neg hc, add_zero]
      apply hs2 g
      intro idx hidx e
      exact hc (hiff.1 ⟨idx, hidx, e⟩)

/-- The record loop under the invariants: it completes, keeps the invariants and
every stored shard set, and the row sum of each global worker grows by the number
of records that accessed it. -/
theorem mainLoop_rowSum {R : RandSource} (hR : R.Valid) {locate : String → String}
    {opts : Options} (hV : opts.Valid) :
    ∀ (es : List Event) (w : World), WorldInv opts w → TraceOK locate opts es →
      NonNeg w.reuseTimeline →
      (∀ g, rowSum w.reuseTimeline g + (es.length : Int) ≤ 9223372036854775807) →
      ∃ wf, mainLoop R locate opts w es = .done wf ∧ WorldInv opts wf ∧
        NonNeg wf.reuseTimeline ∧
        (∀ i k idxs, PlacedIn w i k idxs → PlacedIn wf i k idxs) ∧
        ∀ g : Nat, rowSum wf.reuseTimeline g =
          rowSum w.reuseTimeline g + ((es.countP (accessedBy locate opts wf g) : Nat) : Int) := by
  intro es
  induction es with
  | nil =>
    intro w hW _ hnn _
    exact ⟨w, rfl, hW, hnn, fun _ _ _ h => h, fun g => by simp⟩
  | cons e es ih =>
    intro w hW hT hnn hbound
    obtain ⟨⟨i, hi, hA⟩, hhr⟩ := hT e (List.mem_cons_self _ _)
    have hb1 : ∀ g, rowSum w.reuseTimeline g < 9223372036854775807 := by
      intro g
      have := hbound g
      simp only [List.length_cons] at this
      push_cast at this
      omega
    obtain ⟨w1, shard, hstep, hW1, hpl, hpers1, hnn1, hsum1⟩ :=
      step_rowSum hR hV hW hi e.record hhr e.now hnn hb1
    have hstep2 : step R opts w (Atoi (locate e.record.Key)) e.record e.now = .done w1 := by
      rw [hA]
      exact hstep
    have hb2 : ∀ g, rowSum w1.reuseTimeline g + (es.length : Int) ≤ 9223372036854775807 := by
      intro g
      have h1 := hbound g
      have h2 := hsum1 g
      simp only [List.length_cons] at h1
      push_cast at h1
      split at h2 <;> omega
    obtain ⟨wf, hloop, hWf, hnnf, hpersf, hsumf⟩ :=
      ih w1 hW1 (fun e2 he2 => hT e2 (List.mem_cons_of_mem _ he2)) hnn1 hb2
    refine ⟨wf, ?_, hWf, hnnf, fun i2 k idxs h => hpersf i2 k idxs (hpers1 i2 k idxs h), ?_⟩
    · rw [mainLoop_cons_done es hstep2]
      exact hloop
    · intro g
      rw [hsumf g, hsum1 g, List.countP_cons]
      have hiff := @accessedBy_iff locate opts wf g i e shard hA (hpersf i _ _ hpl)
      by_cases hc : g / opts.NumLambdasPerProxy.toNat = i ∧
          g % opts.NumLambdasPerProxy.toNat ∈ shard
      · rw [if_pos hc, if_pos (hiff.2 hc)]
        push_cast
        ring
      · have hc2 : ¬ accessedBy locate opts wf g e = true := fun h => hc (hiff.1 h)
        rw [if_neg hc, if_neg hc2]
        push_cast
        ring

/-- Every row sum of the initial timeline is zero and no cell is negative. -/
theorem initWorld_rowSum {opts : Options} {gen : Nat} {w : World}
    (h : initWorld opts gen = some w) :
    NonNeg w.reuseTimeline ∧ ∀ g, rowSum w.reuseTimeline g = 0 := by
  obtain ⟨-, hz, -⟩ := initWorld_clean h
  constructor
  · intro row hrow c hc
    rw [hz row hrow c hc]
  · intro g
    unfold rowSum
    cases hg : w.reuseTimeline[g]? with
    | none => simp
    | some row =>
      simp only [Option.getD_some]
      apply List.sum_eq_zero
      intro c hc
      exact hz row (List.mem_iff_getElem?.2 ⟨g, hg⟩) c hc

theorem objectAt_eq {w : World} {i : Nat} {p : Proxy} (hp : w.proxies[i]? = some p) (j : Nat)
    (k : String) : objectAt w i j k = (p.LambdaPool[j]?).bind (fun lam => mapLookup k lam.Kvs) := by
  unfold objectAt
  rw [hp]
  simp only
  cases h : p.LambdaPool[j]? <;> simp

theorem objectAt_congr {w w1 : World} {i : Nat} (h : w1.proxies[i]? = w.proxies[i]?) (j : Nat)
    (k : String) : objectAt w1 i j k = objectAt w i j k := by
  unfold objectAt
  rw [h]

/-- One call from `main` under the invariants, seen from the Objects: the Object
of the key on each worker of the key's shard set is created or refreshed, every
other Object is untouched. -/
theorem step_objects {R : RandSource} (hR : R.Valid) {opts : Options} (hV : opts.Valid)
    {w : World} (hW : WorldInv opts w) {i : Nat} (hi : (i : Int) < opts.NumProxies)
    (rec : Record) (hhr : (rec.TimestampHr : Int) < opts.NumHours) (now : Int) :
    ∃ w1 shard, step R opts w (i : Int) rec now = .done w1 ∧ WorldInv opts w1 ∧
      PlacedIn w1 i rec.Key shard ∧
      (∀ i2 k idxs, PlacedIn w i2 k idxs → PlacedIn w1 i2 k idxs) ∧
      ∀ i2 j k, objectAt w1 i2 j k =
        if i2 = i ∧ k = rec.Key ∧ j ∈ shard then some (accessObj rec opts (objectAt w i j k))
        else objectAt w i2 j k := by
  obtain ⟨w1, p, st, shard, hp, hP, hId, hstep, hW1, hprox, htl, hmem, hstId, hshard, hshape,
    hpers, heff⟩ := step_spec hR hV hW hi rec hhr now
  have hlt : i < w.proxies.length := (List.getElem?_eq_some.1 hp).1
  have hp1 : w1.proxies[i]? = some st.p := by rw [hprox, List.getElem?_set_self hlt]
  refine ⟨w1, shard, hstep, hW1, ⟨st.p, hp1, hshard⟩, ?_, ?_⟩
  · rintro i2 k idxs ⟨q, hq, hk⟩
    by_cases e : i = i2
    · subst e
      rw [hp] at hq
      cases hq
      exact ⟨st.p, hp1, hpers k idxs hk⟩
    · exact ⟨q, by rw [hprox, List.getElem?_set_ne e]; exact hq, hk⟩
  · intro i2 j k
    by_cases e : i2 = i
    · subst e
      rw [objectAt_eq hp1, objectAt_eq hp]
      by_cases hj : j ∈ shard
      · rcases heff with ⟨hk0, -, -, hin, -⟩ | ⟨hk0, -, -, hin, -⟩
        · obtain ⟨lam0, lam1, hl0, hu, hl1⟩ := hin j hj
          simp only at hl0
          obtain ⟨obj0, ho0, -, hlam1⟩ := hitUpd_eq_some hu
          rw [hl0, hl1]
          simp only [Option.some_bind, hlam1, mapLookup_mapInsert]
          by_cases hk : k = rec.Key
          · subst hk
            simp [hj, ho0, accessObj]
          · simp [hk]
        · obtain ⟨lam0, lam1, hl0, hu, hl1⟩ := hin j hj
          simp only at hl0
          obtain ⟨-, hlam1⟩ := missUpd_eq_some hu
          rw [hl0, hl1]
          simp only [Option.some_bind, hlam1, mapLookup_mapInsert]
          by_cases hk : k = rec.Key
          · subst hk
            have hnone : mapLookup rec.Key lam0.Kvs = none := by
              cases hc : mapLookup rec.Key lam0.Kvs with
              | none => rfl
              | some o =>
                obtain ⟨idxs, h1, -⟩ := hP.2.2.2 j lam0 rec.Key o hl0 hc
                rw [hk0] at h1
                cases h1
            simp [hj, hnone, accessObj]
          · simp [hk]
      · have hsame : st.p.LambdaPool[j]? = p.LambdaPool[j]? := by
          rcases heff with ⟨-, -, hout, -⟩ | ⟨-, -, hout, -⟩
          · exact hout j hj
          · exact hout j hj
        rw [hsame]
        simp [hj]
    · have hsame : w1.proxies[i2]? = w.proxies[i2]? := by
        rw [hprox, List.getElem?_set_ne (Ne.symm e)]
      rw [objectAt_congr hsame]
      simp [e]

theorem u64_add_u64 (a b : Nat) : u64 (u64 a + b) = u64 (a + b) := by
  unfold u64
  omega

/-- The record loop under the invariants, seen from the Objects: the `Freq` of an
Object that was there before has grown by the number of records of its key routed
to its proxy, and the `Freq` of an Object created on the way is one less than
that number. -/
theorem mainLoop_freq {R : RandSource} (hR : R.Valid) {locate : String → String}
    {opts : Options} (hV : opts.Valid) :
    ∀ (es : List Event) (w : World), WorldInv opts w → TraceOK locate opts es →
      ∃ wf, mainLoop R locate opts w es = .done wf ∧ WorldInv opts wf ∧
        (∀ i k idxs, PlacedIn w i k idxs → PlacedIn wf i k idxs) ∧
        ∀ i j k obj, objectAt wf i j k = some obj →
          (∀ obj0, objectAt w i j k = some obj0 →
            (obj.Freq = obj0.Freq ∧ es.countP (routedKey locate i k) = 0) ∨
            (0 < es.countP (routedKey locate i k) ∧
              obj.Freq = u64 (obj0.Freq + es.countP (routedKey locate i k)))) ∧
          (objectAt w i j k = none → 1 ≤ es.countP (routedKey locate i k) ∧
            obj.Freq = u64 (es.countP (routedKey locate i k) - 1)) := by
  intro es
  induction es with
  | nil =>
    intro w hW _
    refine ⟨w, rfl, hW, fun _ _ _ h => h, ?_⟩
    intro i j k obj ho
    constructor
    · intro obj0 h0
      rw [ho] at h0
      cases h0
      exact Or.inl ⟨rfl, rfl⟩
    · intro hn
      rw [hn] at ho
      cases ho
  | cons e es ih =>
    intro w hW hT
    obtain ⟨⟨i0, hi0, hA⟩, hhr⟩ := hT e (List.mem_cons_self _ _)
    obtain ⟨w1, shard, hstep, hW1, hpl, hpers1, hobj⟩ :=
      step_objects hR hV hW hi0 e.record hhr e.now
    have hstep2 : step R opts w (Atoi (locate e.record.Key)) e.record e.now = .done w1 := by
      rw [hA]
      exact hstep
    obtain ⟨wf, hloop, hWf, hpersf, hfreq⟩ :=
      ih w1 hW1 (fun e2 he2 => hT e2 (List.mem_cons_of_mem _ he2))
    refine ⟨wf, ?_, hWf, fun i2 k idxs h => hpersf i2 k idxs (hpers1 i2 k idxs h), ?_⟩
    · rw [mainLoop_cons_done es hstep2]
      exact hloop
    · intro i j k obj ho
      obtain ⟨hsome, hnone⟩ := hfreq i j k obj ho
      have hrk : routedKey locate i k e = true ↔ (i = i0 ∧ k = e.record.Key) := by
        unfold routedKey
        simp only [Bool.and_eq_true, decide_eq_true_eq, hA]
        constructor
        · rintro ⟨h1, h2⟩
          exact ⟨by omega, h2.symm⟩
        · rintro ⟨h1, h2⟩
          exact ⟨by omega, h2.symm⟩
      -- where the object lies when the event is a record of its key for its proxy
      have hin : i = i0 → k = e.record.Key → j ∈ shard := by
        intro h1 h2
        subst h1
        subst h2
        obtain ⟨pf, hpf, hkf⟩ := hpersf i _ _ hpl
        have hof := ho
        rw [objectAt_eq hpf] at hof
        cases hl : pf.LambdaPool[j]? with
        | none => rw [hl] at hof; cases hof
        | some lam =>
          rw [hl] at hof
          simp only [Option.some_bind] at hof
          obtain ⟨idxs, h3, h4⟩ := (hWf.2.1 i pf hpf).2.2.2.2 j lam _ obj hl hof
          rw [hkf] at h3
          cases h3
          exact h4
      have h1 := hobj i j k
      rw [List.countP_cons]
      by_cases hc : i = i0 ∧ k = e.record.Key
      · have hj := hin hc.1 hc.2
        rw [if_pos ⟨hc.1, hc.2, hj⟩] at h1
        rw [if_pos (hrk.2 hc)]
        obtain ⟨hsome1, -⟩ := hfreq i j k obj ho
        have hcase := hsome1 _ h1
        have hci : objectAt w i0 j k = objectAt w i j k := by rw [hc.1]
        constructor
        · intro obj0 h0
          right
          rw [hci, h0] at hcase
          simp only [accessObj] at hcase
          refine ⟨by omega, ?_⟩
          rcases hcase with ⟨ha, hb⟩ | ⟨ha, hb⟩
          · rw [ha, hb]
          · rw [hb, u64_add_u64]
            congr 1
            omega
        · intro hn
          rw [hci, hn] at hcase
          simp only [accessObj] at hcase
          refine ⟨by omega, ?_⟩
          rcases hcase with ⟨ha, hb⟩ | ⟨ha, hb⟩
          · rw [ha, hb]
            rfl
          · rw [hb]
            congr 1
            omega
      · have hc2 : ¬ (i = i0 ∧ k = e.record.Key ∧ j ∈ shard) := fun h => hc ⟨h.1, h.2.1⟩
        have hc3 : ¬ routedKey locate i k e = true := fun h => hc (hrk.1 h)
        rw [if_neg hc2] at h1
        rw [if_neg hc3, add_zero]
        rw [h1] at hsome hnone
        exact ⟨hsome, hnone⟩

/-- Under a valid configuration the set-up of `main` succeeds. -/
theorem initWorld_of_valid {opts : Options} (hV : opts.Valid) (gen : Nat) :
    ∃ w, initWorld opts gen = some w := by
  have hwrap := Options.Valid.wrap_total hV
  obtain ⟨hV1, hV2, -, hV4, hV5, -, -, -, -⟩ := hV
  have hnn : 0 ≤ opts.NumProxies * opts.NumLambdasPerProxy := mul_nonneg (by omega) hV2
  unfold initWorld initProxies initTimeline
  rw [hwrap]
  have h1 : ¬ opts.NumProxies < 0 := by omega
  have h2 : ¬ (0 < opts.NumProxies ∧ opts.NumLambdasPerProxy < 0) := by omega
  have h3 : ¬ opts.NumProxies * opts.NumLambdasPerProxy < 0 := by omega
  have h4 : ¬ (0 < opts.NumProxies * opts.NumLambdasPerProxy ∧ opts.NumHours < 0) := by omega
  have h5 : ¬ opts.NumProxies = 0 := by omega
  simp only [h1, h2, h3, h4, h5, if_false]
  exact ⟨_, rfl⟩

theorem simulate_of_init {R : RandSource} {locate : String → String} {opts : Options}
    {gen : Nat} {w : World} (h : initWorld opts gen = some w) (trace : List Event) :
    simulate R locate opts gen trace = some (mainLoop R locate opts w trace) := by
  unfold simulate
  rw [h]

theorem initWorld_objectAt {opts : Options} {gen : Nat} {w : World}
    (h : initWorld opts gen = some w) (i j : Nat) (k : String) : objectAt w i j k = none := by
  obtain ⟨hclean, -, -⟩ := initWorld_clean h
  unfold objectAt
  cases hp : w.proxies[i]? with
  | none => rfl
  | some p =>
    simp only
    cases hl : p.LambdaPool[j]? with
    | none => rfl
    | some lam =>
      simp only
      have := ((hclean p (List.mem_iff_getElem?.2 ⟨i, hp⟩)).2 lam
        (List.mem_iff_getElem?.2 ⟨j, hl⟩)).1
      rw [this]
      rfl

/-- A miss-path `perform` that returns has put an Object with `Freq = 0` on every
selected worker. -/
theorem perform_miss_objects {R : RandSource} (hR : R.Valid) {now : Int} {gen : Nat}
    {p : Proxy} {rec : Record} {tl : List (List Int)} {mem : List Int} {opts : Options}
    {st : Store} (hn : mapLookup rec.Key p.Map = none)
    (h : (perform R now gen p rec tl mem opts).1 = .done st) :
    ∃ shard, mapLookup rec.Key st.p.Map = some shard ∧ ∀ j ∈ shard, ∃ lam obj,
      st.p.LambdaPool[j]? = some lam ∧ mapLookup rec.Key lam.Kvs = some obj ∧
      obj = { Key := rec.Key, Sz := rec.Sz / toUint64 opts.NumDataShards, Freq := 0 } := by
  rcases perform_cases R now gen p rec tl mem opts with
    ⟨val, hv, he⟩ | ⟨-, he⟩ | ⟨index, g, -, hr, he⟩
  · rw [hn] at hv
    cases hv
  · rw [he] at h
    cases h
  · rw [he] at h
    simp only at h
    obtain ⟨-, hnd, -⟩ := random_shape hR hr
    obtain ⟨-, hin⟩ := accessLoop_pool index _ st hnd h
    have hmap := (accessLoop_done_Id h).2
    refine ⟨index, by rw [hmap]; exact mapLookup_mapInsert_self _ _ _, ?_⟩
    intro j hj
    obtain ⟨lam0, lam1, -, hu, hl1⟩ := hin j hj
    obtain ⟨-, hlam1⟩ := missUpd_eq_some hu
    refine ⟨lam1, _, hl1, ?_, rfl⟩
    rw [hlam1]
    exact mapLookup_mapInsert_self _ _ _

/-- A hit-path `perform` that returns, on a duplicate-free shard set, has
incremented the `Freq` of the key's Object on every worker of the shard set and
has left every other Object as it was. -/
theorem perform_hit_objects {R : RandSource} {now : Int} {gen : Nat}
    {p : Proxy} {rec : Record} {tl : List (List Int)} {mem : List Int} {opts : Options}
    {st : Store} {shard : List Nat} (hv : mapLookup rec.Key p.Map = some shard)
    (hnd : shard.Nodup)
    (h : (perform R now gen p rec tl mem opts).1 = .done st) :
    (∀ j ∈ shard, ∃ lam obj lam1 obj1, p.LambdaPool[j]? = some lam ∧
      mapLookup rec.Key lam.Kvs = some obj ∧ st.p.LambdaPool[j]? = some lam1 ∧
      mapLookup rec.Key lam1.Kvs = some obj1 ∧ obj1.Freq = u64 (obj.Freq + 1)) ∧
    (∀ (j : Nat) (k : String), (j ∉ shard ∨ k ≠ rec.Key) →
      (st.p.LambdaPool[j]?).bind (fun lam => mapLookup k lam.Kvs) =
        (p.LambdaPool[j]?).bind (fun lam => mapLookup k lam.Kvs)) := by
  rw [perform_hit R now gen p rec tl mem opts hv] at h
  simp only at h
  obtain ⟨hout, hin⟩ := accessLoop_pool shard _ st hnd h
  simp only at hout hin
  constructor
  · intro j hj
    obtain ⟨lam0, lam1, hl0, hu, hl1⟩ := hin j hj
    obtain ⟨obj0, ho0, -, hlam1⟩ := hitUpd_eq_some hu
    refine ⟨lam0, obj0, lam1,
      { Key := obj0.Key, Sz := rec.Sz / toUint64 opts.NumDataShards
        Freq := u64 (obj0.Freq + 1) }, hl0, ho0, hl1, ?_, rfl⟩
    rw [hlam1]
    exact mapLookup_mapInsert_self _ _ _
  · intro j k hjk
    by_cases hj : j ∈ shard
    · have hk : k ≠ rec.Key := by
        rcases hjk with h1 | h1
        · exact absurd hj h1
        · exact h1
      obtain ⟨lam0, lam1, hl0, hu, hl1⟩ := hin j hj
      obtain ⟨obj0, -, -, hlam1⟩ := hitUpd_eq_some hu
      rw [hl0, hl1]
      simp only [Option.some_bind, hlam1]
      exact mapLookup_mapInsert_ne _ _ hk
    · rw [hout j hj]

theorem exOpts_valid : exOpts.Valid := by
  unfold Options.Valid
  decide

theorem exTrace_ok :
    TraceOK exLocate exOpts [{ record := exRecA, now := 0 }, { record := exRecB, now := 1 }] := by
  intro e he
  simp only [List.mem_cons, List.mem_singleton, List.not_mem_nil, or_false] at he
  rcases he with h | h <;> subst h <;> exact ⟨⟨0, by decide, by decide⟩, by decide⟩

theorem cell_eq_of_getElem? {tl : List (List Int)} {g : Nat} {row : List Int}
    (h : tl[g]? = some row) (j : Nat) : cell tl g j = (row[j]?).getD 0 := by
  unfold cell
  rw [h]
  rfl

theorem cell_congr {tl tl1 : List (List Int)} {g : Nat} (h : tl1[g]? = tl[g]?) (j : Nat) :
    cell tl1 g j = cell tl g j := by
  unfold cell
  rw [h]

/-- The cells of the timeline after a completed loop: bucket `hr` of every
addressed row is incremented (as a Go `int`), every other cell is untouched. -/
theorem cell_of_effect {upd : Lambda → Option Lambda} {delta : Option Int} {hr : Nat}
    {base : Int} {shard : List Nat} {st0 st : Store}
    (heff : AccessEffect upd delta hr base shard st0 st)
    (hb : ∀ idx ∈ shard, 0 ≤ base + (idx : Int)) :
    (∀ g j : Nat, (∃ idx ∈ shard, base + (idx : Int) = (g : Int)) →
      cell st.reuseTimeline g j =
        if j = hr then wrapInt (cell st0.reuseTimeline g j + 1)
        else cell st0.reuseTimeline g j) ∧
    (∀ g j : Nat, (∀ idx ∈ shard, base + (idx : Int) ≠ (g : Int)) →
      cell st.reuseTimeline g j = cell st0.reuseTimeline g j) := by
  obtain ⟨-, -, -, hout, hin, -, -⟩ := heff
  constructor
  · rintro g j ⟨idx, hidx, e⟩
    obtain ⟨row, c, h1, h2, h3⟩ := hin idx hidx
    have hg : (base + (idx : Int)).toNat = g := by omega
    rw [hg] at h1 h3
    rw [cell_eq_of_getElem? h3, cell_eq_of_getElem? h1, List.getElem?_set]
    have hlt : hr < row.length := (List.getElem?_eq_some.1 h2).1
    by_cases hj : j = hr
    · subst hj
      simp [hlt, h2]
    · have hj2 : ¬ hr = j := fun e2 => hj e2.symm
      simp [hj, hj2]
  · intro g j hg
    exact cell_congr (hout g hg).1 j

theorem PlacedIn_unique {w : World} {i : Nat} {k : String} {a b : List Nat}
    (ha : PlacedIn w i k a) (hb : PlacedIn w i k b) : a = b := by
  obtain ⟨p, hp, hk⟩ := ha
  obtain ⟨q, hq, hk2⟩ := hb
  rw [hp] at hq
  cases hq
  rw [hk] at hk2
  exact Option.some.inj hk2

/-- One call from `main` under the invariants, seen from the two accumulators:
bucket `TimestampHr` of the row of every worker of the key's shard set is
incremented and no other cell changes; `memArr` is untouched on a hit, and on a
miss with `TimestampHr <= 99` the entry of every worker of the shard set receives
`int(rec.Sz) / 1048576`. -/
theorem step_cells {R : RandSource} (hR : R.Valid) {opts : Options} (hV : opts.Valid)
    {w : World} (hW : WorldInv opts w) {i : Nat} (hi : (i : Int) < opts.NumProxies)
    (rec : Record) (hhr : (rec.TimestampHr : Int) < opts.NumHours) (now : Int) :
    ∃ w1 shard, step R opts w (i : Int) rec now = .done w1 ∧
      PlacedIn w1 i rec.Key shard ∧ PlacementShape opts shard ∧
      (∀ g j : Nat, cell w1.reuseTimeline g j =
        if g / opts.NumLambdasPerProxy.toNat = i ∧
            g % opts.NumLambdasPerProxy.toNat ∈ shard ∧ j = rec.TimestampHr
        then wrapInt (cell w.reuseTimeline g j + 1) else cell w.reuseTimeline g j) ∧
      ((PlacedIn w i rec.Key shard ∧ w1.memArr = w.memArr) ∨
       ((∀ idxs, ¬ PlacedIn w i rec.Key idxs) ∧
        ∀ g : Nat, w1.memArr[g]? =
          if g / opts.NumLambdasPerProxy.toNat = i ∧
              g % opts.NumLambdasPerProxy.toNat ∈ shard ∧ rec.TimestampHr ≤ 99
          then (w.memArr[g]?).map
            (fun c => wrapInt (c + Int.tdiv (wrapInt (rec.Sz : Int)) 1048576))
          else w.memArr[g]?)) := by
  obtain ⟨w1, p, st, shard, hp, hP, hId, hstep, hW1, hprox, htl, hmem, hstId, hshard, hshape,
    hpers, heff⟩ := step_spec hR hV hW hi rec hhr now
  have hlt : i < w.proxies.length := (List.getElem?_eq_some.1 hp).1
  have hn0 : 0 ≤ opts.NumLambdasPerProxy := hV.2.1
  have hN : opts.NumLambdasPerProxy = ((opts.NumLambdasPerProxy.toNat : Nat) : Int) := by omega
  have hshlt : ∀ idx ∈ shard, idx < opts.NumLambdasPerProxy.toNat := by
    intro idx hidx
    have := hshape.2.2 idx hidx
    omega
  have hb0 : 0 ≤ (i : Int) * opts.NumLambdasPerProxy := mul_nonneg (by omega) hn0
  have hb : ∀ idx ∈ shard, 0 ≤ (i : Int) * opts.NumLambdasPerProxy + (idx : Int) :=
    fun idx _ => by omega
  have hiff : ∀ g : Nat, (∃ idx ∈ shard,
      (i : Int) * opts.NumLambdasPerProxy + (idx : Int) = (g : Int)) ↔
      (g / opts.NumLambdasPerProxy.toNat = i ∧ g % opts.NumLambdasPerProxy.toNat ∈ shard) := by
    intro g
    have := @addressed_iff opts.NumLambdasPerProxy.toNat i g shard hshlt
    rw [← hN] at this
    exact this
  have hcells : (∀ g j : Nat, (∃ idx ∈ shard,
        (i : Int) * opts.NumLambdasPerProxy + (idx : Int) = (g : Int)) →
        cell st.reuseTimeline g j =
          if j = rec.TimestampHr then wrapInt (cell w.reuseTimeline g j + 1)
          else cell w.reuseTimeline g j) ∧
      (∀ g j : Nat, (∀ idx ∈ shard,
        (i : Int) * opts.NumLambdasPerProxy + (idx : Int) ≠ (g : Int)) →
        cell st.reuseTimeline g j = cell w.reuseTimeline g j) := by
    rcases heff with ⟨-, h⟩ | ⟨-, h⟩
    · have h2 := cell_of_effect h hb
      simp only at h2
      exact h2
    · have h2 := cell_of_effect h hb
      simp only at h2
      exact h2
  refine ⟨w1, shard, hstep, ⟨st.p, by rw [hprox, List.getElem?_set_self hlt], hshard⟩, hshape,
    ?_, ?_⟩
  · intro g j
    rw [htl]
    by_cases ha : g / opts.NumLambdasPerProxy.toNat = i ∧
        g % opts.NumLambdasPerProxy.toNat ∈ shard
    · rw [hcells.1 g j ((hiff g).2 ha)]
      by_cases hj : j = rec.TimestampHr
      · rw [if_pos hj, if_pos ⟨ha.1, ha.2, hj⟩]
      · rw [if_neg hj, if_neg (fun h => hj h.2.2)]
    · rw [hcells.2 g j (fun idx hidx e => ha ((hiff g).1 ⟨idx, hidx, e⟩)),
        if_neg (fun h => ha ⟨h.1, h.2.1⟩)]
  · rcases heff with ⟨hk0, h⟩ | ⟨hk0, h⟩
    · left
      obtain ⟨-, -, -, -, -, hnone, -⟩ := h
      exact ⟨⟨p, hp, hk0⟩, by rw [hmem]; exact hnone rfl⟩
    · right
      constructor
      · rintro idxs ⟨q, hq, hk⟩
        rw [hp] at hq
        cases hq
        rw [hk0] at hk
        cases hk
      · intro g
        rw [hmem]
        obtain ⟨-, -, -, hout, -, hnone, hsome⟩ := h
        by_cases hhr99 : rec.TimestampHr ≤ 99
        · have hd : missDelta rec = some (Int.tdiv (wrapInt (rec.Sz : Int)) 1048576) := by
            unfold missDelta
            simp [hhr99]
          by_cases ha : g / opts.NumLambdasPerProxy.toNat = i ∧
              g % opts.NumLambdasPerProxy.toNat ∈ shard
          · rw [if_pos ⟨ha.1, ha.2, hhr99⟩]
            obtain ⟨idx, hidx, e⟩ := (hiff g).2 ha
            obtain ⟨c, h1, h2⟩ := hsome _ hd idx hidx
            have hg : ((i : Int) * opts.NumLambdasPerProxy + (idx : Int)).toNat = g := by omega
            rw [hg] at h1 h2
            simp only at h1
            rw [h2, h1]
            rfl
          · rw [if_neg (fun h => ha ⟨h.1, h.2.1⟩)]
            exact (hout g (fun idx hidx e => ha ((hiff g).1 ⟨idx, hidx, e⟩))).2
        · have hd : missDelta rec = none := by
            unfold missDelta
            simp [hhr99]
          rw [if_neg (fun h => hhr99 h.2.2)]
          have := hnone hd
          simp only at this
          rw [this]

theorem initWorld_cell {opts : Options} {gen : Nat} {w : World}
    (h : initWorld opts gen = some w) (g j : Nat) : cell w.reuseTimeline g j = 0 := by
  obtain ⟨-, hz, -⟩ := initWorld_clean h
  unfold cell
  cases hg : w.reuseTimeline[g]? with
  | none => simp
  | some row =>
    simp only [Option.getD_some]
    cases hj : row[j]? with
    | none => simp
    | some c =>
      simp only [Option.getD_some]
      exact hz row (List.mem_iff_getElem?.2 ⟨g, hg⟩) c (List.mem_iff_getElem?.2 ⟨j, hj⟩)

theorem initWorld_not_placed {opts : Options} {gen : Nat} {w : World}
    (h : initWorld opts gen = some w) (i : Nat) (k : String) (idxs : List Nat) :
    ¬ PlacedIn w i k idxs := by
  rintro ⟨p, hp, hk⟩
  obtain ⟨hclean, -, -⟩ := initWorld_clean h
  rw [(hclean p (List.mem_iff_getElem?.2 ⟨i, hp⟩)).1] at hk
  cases hk

theorem mainLoop_nil (R : RandSource) (locate : String → String) (opts : Options) (w : World) :
    mainLoop R locate opts w [] = .done w := rfl

/-- The two-record scenario for an arbitrary size `s`: one proxy, four workers,
two data shards, one parity shard, record A then record B of the same key. -/
theorem scenario_general {R : RandSource} (hR : R.Valid) {locate : String → String}
    (hloc : Atoi (locate "k1") = 0) (gen : Nat) (nowA nowB : Int) (s : Nat) :
    ∃ (shard : List Nat) (wA wB : World), shard.length = 3 ∧ shard.Nodup ∧ (∀ j ∈ shard, j < 4) ∧
      simulate R locate exOpts gen [{ record := scenRecA s, now := nowA }] = some (.done wA) ∧
      (∀ j, objectAt wA 0 j "k1" =
        if j ∈ shard then some { Key := "k1", Sz := s / 2, Freq := 0 } else none) ∧
      (∀ j, j < 4 → cell wA.reuseTimeline j 0 = if j ∈ shard then 1 else 0) ∧
      (∀ j, j < 4 → wA.memArr[j]? =
        some (if j ∈ shard then wrapInt (0 + Int.tdiv (wrapInt (s : Int)) 1048576) else 0)) ∧
      simulate R locate exOpts gen
        [{ record := scenRecA s, now := nowA }, { record := scenRecB s, now := nowB }] =
          some (.done wB) ∧
      (∀ j ∈ shard, objectAt wB 0 j "k1" = some { Key := "k1", Sz := s / 2, Freq := 1 }) ∧
      (∀ j ∈ shard, cell wB.reuseTimeline j 1 = 1) ∧
      wB.memArr = wA.memArr := by
  have hV := exOpts_valid
  obtain ⟨w0, hinit⟩ := initWorld_of_valid hV gen
  have hW0 := initWorld_inv hV hinit
  have hi : ((0 : Nat) : Int) < exOpts.NumProxies := by decide
  have hhrA : ((scenRecA s).TimestampHr : Int) < exOpts.NumHours := by
    show ((0 : Nat) : Int) < 2
    decide
  have hhrB : ((scenRecB s).TimestampHr : Int) < exOpts.NumHours := by
    show ((1 : Nat) : Int) < 2
    decide
  have hN : exOpts.NumLambdasPerProxy.toNat = 4 := by decide
  have hd : toUint64 exOpts.NumDataShards = 2 := by decide
  have hmem0 : w0.memArr = [0, 0, 0, 0] := by
    obtain ⟨ps, tl, -, -, hw⟩ := initWorld_eq_some hinit
    rw [hw]
    show List.replicate (wrapInt (exOpts.NumProxies * exOpts.NumLambdasPerProxy)).toNat
      (0 : Int) = [0, 0, 0, 0]
    decide
  -- record A
  obtain ⟨w1, shard, hstepA, hW1, hplA, hpersA, hobjA⟩ :=
    step_objects hR hV hW0 hi (scenRecA s) hhrA nowA
  obtain ⟨w1b, shardb, hstepAb, hplAb, hshapeA, hcellA, hmemA⟩ :=
    step_cells hR hV hW0 hi (scenRecA s) hhrA nowA
  have e1 : w1b = w1 := by
    rw [hstepA] at hstepAb
    exact (Outcome.done.inj hstepAb).symm
  subst e1
  have e2 : shardb = shard := PlacedIn_unique hplAb hplA
  subst e2
  -- record B
  obtain ⟨w2, shard2, hstepB, hW2, hplB, hpersB, hobjB⟩ :=
    step_objects hR hV hW1 hi (scenRecB s) hhrB nowB
  obtain ⟨w2b, shard2b, hstepBb, hplBb, hshapeB, hcellB, hmemB⟩ :=
    step_cells hR hV hW1 hi (scenRecB s) hhrB nowB
  have e3 : w2b = w2 := by
    rw [hstepB] at hstepBb
    exact (Outcome.done.inj hstepBb).symm
  subst e3
  have e4 : shard2 = shardb := PlacedIn_unique hplB (hpersB 0 "k1" shardb hplA)
  subst e4
  have e5 : shard2b = shard2 := PlacedIn_unique hplBb hplB
  subst e5
  have hstepA2 : step R exOpts w0 (Atoi (locate (scenRecA s).Key)) (scenRecA s) nowA =
      .done w1b := by
    have : (scenRecA s).Key = "k1" := rfl
    rw [this, hloc]
    exact hstepA
  have hstepB2 : step R exOpts w1b (Atoi (locate (scenRecB s).Key)) (scenRecB s) nowB =
      .done w2b := by
    have : (scenRecB s).Key = "k1" := rfl
    rw [this, hloc]
    exact hstepB
  obtain ⟨hlen, hnd, hlt⟩ := hshapeA
  have hlt4 : ∀ j ∈ shard2b, j < 4 := by
    intro j hj
    have := hlt j hj
    have h4 : exOpts.NumLambdasPerProxy = 4 := rfl
    omega
  have hobjA1 : ∀ j, objectAt w1b 0 j "k1" =
      if j ∈ shard2b then some { Key := "k1", Sz := s / 2, Freq := 0 } else none := by
    intro j
    rw [hobjA 0 j "k1", initWorld_objectAt hinit]
    by_cases hj : j ∈ shard2b
    · rw [if_pos hj, if_pos ⟨rfl, rfl, hj⟩]
      simp only [accessObj, hd]
      rfl
    · rw [if_neg hj, if_neg (fun h => hj h.2.2)]
  have hcellA1 : ∀ g j, g < 4 → cell w1b.reuseTimeline g j =
      if g ∈ shard2b ∧ j = 0 then 1 else 0 := by
    intro g j hg
    rw [hcellA g j, initWorld_cell hinit, hN]
    have h1 : g / 4 = 0 := by omega
    have h2 : g % 4 = g := by omega
    rw [h1, h2]
    by_cases hc : g ∈ shard2b ∧ j = 0
    · rw [if_pos hc, if_pos ⟨rfl, hc.1, hc.2⟩]
      decide
    · rw [if_neg hc, if_neg (fun h => hc ⟨h.2.1, h.2.2⟩)]
  refine ⟨shard2b, w1b, w2b, ?_, hnd, hlt4, ?_, hobjA1, ?_, ?_, ?_, ?_, ?_, ?_⟩
  · have h3 : exOpts.NumDataShards + exOpts.NumParityShards = 3 := rfl
    omega
  · rw [simulate_of_init hinit, mainLoop_cons_done [] hstepA2, mainLoop_nil]
  · intro j hj
    rw [hcellA1 j 0 hj]
    by_cases hc : j ∈ shard2b
    · rw [if_pos hc, if_pos ⟨hc, rfl⟩]
    · rw [if_neg hc, if_neg (fun h => hc h.1)]
  · intro j hj
    rcases hmemA with ⟨hpl, -⟩ | ⟨-, hm⟩
    · exact absurd hpl (initWorld_not_placed hinit _ _ _)
    · rw [hm j, hN, hmem0]
      have h1 : j / 4 = 0 := by omega
      have h2 : j % 4 = j := by omega
      rw [h1, h2]
      have h99 : (scenRecA s).TimestampHr ≤ 99 := by
        show 0 ≤ 99
        decide
      have hget : ([0, 0, 0, 0] : List Int)[j]? = some 0 := by
        interval_cases j <;> rfl
      rw [hget]
      by_cases hc : j ∈ shard2b
      · rw [if_pos hc, if_pos ⟨rfl, hc, h99⟩]
        rfl
      · rw [if_neg hc, if_neg (fun h => hc h.2.1)]
  · rw [simulate_of_init hinit, mainLoop_cons_done _ hstepA2, mainLoop_cons_done [] hstepB2,
      mainLoop_nil]
  · intro j hj
    rw [hobjB 0 j "k1", if_pos ⟨rfl, rfl, hj⟩, hobjA1 j, if_pos hj]
    simp only [accessObj, hd]
    rfl
  · intro j hj
    have hj4 := hlt4 j hj
    rw [hcellB j 1, hcellA1 j 1 hj4, hN]
    have h1 : j / 4 = 0 := by omega
    have h2 : j % 4 = j := by omega
    rw [h1, h2, if_pos ⟨rfl, hj, rfl⟩, if_neg (fun h => by omega)]
    decide
  · rcases hmemB with ⟨-, hm⟩ | ⟨hnp, -⟩
    · exact hm
    · exact absurd hplA (hnp _)

/-- A map write keeps every key. -/
theorem mapInsert_keeps {α : Type} {k : String} {v : α} (k2 : String) (v2 : α)
    {m : List (String × α)} (h : mapLookup k m = some v) :
    ∃ v1, mapLookup k (mapInsert k2 v2 m) = some v1 := by
  rw [mapLookup_mapInsert]
  by_cases e : k = k2
  · exact ⟨v2, by simp [e]⟩
  · exact ⟨v, by simp [e, h]⟩

theorem hitUpd_keeps_keys {rec : Record} {opts : Options} {lam lam1 : Lambda}
    (h : hitUpd rec opts lam = some lam1) {k : String} {obj : Object}
    (hk : mapLookup k lam.Kvs = some obj) : ∃ obj1, mapLookup k lam1.Kvs = some obj1 := by
  obtain ⟨o, -, -, rfl⟩ := hitUpd_eq_some h
  exact mapInsert_keeps _ _ hk

theorem missUpd_keeps_keys {rec : Record} {opts : Options} {lam lam1 : Lambda}
    (h : missUpd rec opts lam = some lam1) {k : String} {obj : Object}
    (hk : mapLookup k lam.Kvs = some obj) : ∃ obj1, mapLookup k lam1.Kvs = some obj1 := by
  obtain ⟨-, rfl⟩ := missUpd_eq_some h
  exact mapInsert_keeps _ _ hk

/-- A loop of accesses, whatever its outcome, keeps every key of every worker. -/
theorem accessLoop_keeps_keys {upd : Lambda → Option Lambda}
    (hupd : ∀ lam lam1, upd lam = some lam1 → ∀ k obj, mapLookup k lam.Kvs = some obj →
      ∃ obj1, mapLookup k lam1.Kvs = some obj1)
    (delta : Option Int) (hr : Nat) (opts : Options) (l : List Nat) (st : Store)
    (j : Nat) (k : String) {lam : Lambda} {obj : Object}
    (hl : st.p.LambdaPool[j]? = some lam) (hk : mapLookup k lam.Kvs = some obj) :
    ∃ lam1 obj1, (forEach (accessStep upd delta hr opts) l st).state.p.LambdaPool[j]? = some lam1 ∧
      mapLookup k lam1.Kvs = some obj1 := by
  have key := forEach_state_inv (f := accessStep upd delta hr opts)
    (fun s => ∃ lam1 obj1, s.p.LambdaPool[j]? = some lam1 ∧ mapLookup k lam1.Kvs = some obj1)
    (by
      rintro s idx ⟨lam1, obj1, h1, h2⟩
      obtain ⟨pool, mem, tl, hs, hpool, -, -⟩ := accessStep_state upd delta hr opts s idx
      rw [hs]
      simp only
      rcases hpool with rfl | ⟨la, la1, hla, hu, rfl⟩
      · exact ⟨lam1, obj1, h1, h2⟩
      · by_cases e : idx = j
        · subst e
          rw [hla] at h1
          cases h1
          obtain ⟨o2, ho2⟩ := hupd _ _ hu k obj1 h2
          have hlt : idx < s.p.LambdaPool.length := (List.getElem?_eq_some.1 hla).1
          exact ⟨la1, o2, by rw [List.getElem?_set_self hlt], ho2⟩
        · exact ⟨lam1, obj1, by rw [List.getElem?_set_ne e]; exact h1, h2⟩)
    l st ⟨lam, obj, hl, hk⟩
  exact key

/-- Whatever its outcome, `perform` keeps every binding of the proxy's `Map`. -/
theorem perform_keeps_map (R : RandSource) (now : Int) (gen : Nat) (p : Proxy) (rec : Record)
    (tl : List (List Int)) (mem : List Int) (opts : Options) {k : String} {idxs : List Nat}
    (h : mapLookup k p.Map = some idxs) :
    mapLookup k (perform R now gen p rec tl mem opts).1.state.p.Map = some idxs := by
  rcases (perform_Map R now gen p rec tl mem opts).2 with h1 | ⟨index, g, hn, -, h1⟩
  · rw [h1]
    exact h
  · rw [h1, mapLookup_mapInsert]
    have e : k ≠ rec.Key := by
      rintro rfl
      rw [hn] at h
      cases h
    simp [e, h]

/-- Whatever its outcome, `perform` keeps every key of every worker's `Kvs`. -/
theorem perform_keeps_kvs (R : RandSource) (now : Int) (gen : Nat) (p : Proxy) (rec : Record)
    (tl : List (List Int)) (mem : List Int) (opts : Options) (j : Nat) (k : String)
    {lam : Lambda} {obj : Object}
    (hl : p.LambdaPool[j]? = some lam) (hk : mapLookup k lam.Kvs = some obj) :
    ∃ lam1 obj1, (perform R now gen p rec tl mem opts).1.state.p.LambdaPool[j]? = some lam1 ∧
      mapLookup k lam1.Kvs = some obj1 := by
  rcases perform_cases R now gen p rec tl mem opts with ⟨val, -, h⟩ | ⟨-, h⟩ | ⟨index, g, -, -, h⟩
  · rw [h]
    exact accessLoop_keeps_keys (fun _ _ hu _ _ hk => hitUpd_keeps_keys hu hk) _ _ _ _ _ j k hl hk
  · rw [h]
    exact ⟨lam, obj, hl, hk⟩
  · rw [h]
    exact accessLoop_keeps_keys (fun _ _ hu _ _ hk => missUpd_keeps_keys hu hk) _ _ _ _ _ j k
      hl hk

/-- Whatever its outcome, a call from `main` keeps every placement. -/
theorem step_keeps_placed (R : RandSource) (opts : Options) (w : World) (id : Int)
    (rec : Record) (now : Int) {i : Nat} {k : String} {idxs : List Nat}
    (h : PlacedIn w i k idxs) : PlacedIn (step R opts w id rec now).state i k idxs := by
  rcases step_state R opts w id rec now with ⟨-, hc⟩ | ⟨p, h0, hp, hs, -⟩
  · rw [hc]
    exact h
  · rw [hs]
    obtain ⟨q, hq, hk⟩ := h
    have hlt : id.toNat < w.proxies.length := (List.getElem?_eq_some.1 hp).1
    by_cases e : id.toNat = i
    · subst e
      rw [hp] at hq
      cases hq
      exact ⟨_, by simp only; rw [List.getElem?_set_self hlt],
        perform_keeps_map R now w.gen p rec _ _ opts hk⟩
    · exact ⟨q, by simp only; rw [List.getElem?_set_ne e]; exact hq, hk⟩

/-- Whatever its outcome, a call from `main` keeps every key of every worker. -/
theorem step_keeps_objects (R : RandSource) (opts : Options) (w : World) (id : Int)
    (rec : Record) (now : Int) {i j : Nat} {k : String} {obj : Object}
    (h : objectAt w i j k = some obj) :
    ∃ obj1, objectAt (step R opts w id rec now).state i j k = some obj1 := by
  rcases step_state R opts w id rec now with ⟨-, hc⟩ | ⟨p, h0, hp, hs, -⟩
  · rw [hc]
    exact ⟨obj, h⟩
  · have hlt : id.toNat < w.proxies.length := (List.getElem?_eq_some.1 hp).1
    by_cases e : id.toNat = i
    · subst e
      rw [objectAt_eq hp] at h
      cases hl : p.LambdaPool[j]? with
      | none => rw [hl] at h; cases h
      | some lam =>
        rw [hl] at h
        simp only [Option.some_bind] at h
        obtain ⟨lam1, obj1, h1, h2⟩ :=
          perform_keeps_kvs R now w.gen p rec w.reuseTimeline w.memArr opts j k hl h
        refine ⟨obj1, ?_⟩
        have hp1 : (step R opts w id rec now).state.proxies[id.toNat]? =
            some (perform R now w.gen p rec w.reuseTimeline w.memArr opts).1.state.p := by
          rw [hs]
          simp only
          rw [List.getElem?_set_self hlt]
        rw [objectAt_eq hp1, h1]
        exact h2
    · refine ⟨obj, ?_⟩
      have hsame : (step R opts w id rec now).state.proxies[i]? = w.proxies[i]? := by
        rw [hs]
        simp only
        rw [List.getElem?_set_ne e]
      rw [objectAt_congr hsame]
      exact h

/-- The state the record loop ends in is the state after the first call when that
call panics, the end state of the rest of the loop otherwise. -/
theorem mainLoop_cons_state (R : RandSource) (locate : String → String) (opts : Options)
    (w : World) (e : Event) (es : List Event) :
    (mainLoop R locate opts w (e :: es)).state =
        (step R opts w (Atoi (locate e.record.Key)) e.record e.now).state ∨
    (mainLoop R locate opts w (e :: es)).state =
        (mainLoop R locate opts
          (step R opts w (Atoi (locate e.record.Key)) e.record e.now).state es).state := by
  cases h : step R opts w (Atoi (locate e.record.Key)) e.record e.now with
  | done w1 =>
    right
    rw [mainLoop_cons_done es h]
    rfl
  | crash w1 =>
    left
    rw [mainLoop_cons_crash es h]

/-- A property of the state that every call keeps holds at the end of the loop. -/
theorem mainLoop_state_inv (R : RandSource) (locate : String → String) (opts : Options)
    (Q : World → Prop)
    (hstep : ∀ w id rec now, Q w → Q (step R opts w id rec now).state) :
    ∀ (es : List Event) (w : World), Q w → Q (mainLoop R locate opts w es).state := by
  intro es
  induction es with
  | nil => intro w h; exact h
  | cons e es ih =>
    intro w h
    rcases mainLoop_cons_state R locate opts w e es with h1 | h1
    · rw [h1]
      exact hstep _ _ _ _ h
    · rw [h1]
      exact ih _ (hstep _ _ _ _ h)

theorem specLine_cons (sep : String) (a : Int) (cs : List Int) (c : Int) :
    specLine sep (a :: (cs ++ [c])) = Itoa a ++ sep ++ specLine sep (cs ++ [c]) := by
  cases cs <;> rfl

/-- The inner loop of `printAccessHistory` over the cells `cs`, followed by the
text of the last cell `c`, is the line of `cs ++ [c]`. -/
theorem printCells_spec (row : List Int) (c : Int) (post : List Int) :
    ∀ (cs pre : List Int), row = pre ++ cs ++ [c] ++ post →
      ∃ s, printCells row cs.length pre.length = some s ∧
        s ++ (Itoa c ++ "\n") = specLine ",  " (cs ++ [c]) := by
  intro cs
  induction cs with
  | nil =>
    intro pre _
    exact ⟨"", rfl, by simp [specLine]⟩
  | cons a cs ih =>
    intro pre h
    have h2 : row = (pre ++ [a]) ++ cs ++ [c] ++ post := by simp [h]
    obtain ⟨s, hs, hspec⟩ := ih (pre ++ [a]) h2
    have ha : row[pre.length]? = some a := by
      rw [h]
      simp only [List.append_assoc]
      rw [List.getElem?_append_right (le_refl _)]
      simp
    refine ⟨Itoa a ++ ",  " ++ s, ?_, ?_⟩
    · simp only [List.length_cons, printCells, ha]
      simp only [List.length_append, List.length_singleton] at hs
      rw [hs]
    · rw [List.cons_append, specLine_cons, ← hspec]
      simp only [String.append_assoc]

theorem printRow_spec {row : List Int} {numHours : Int} (h1 : 1 ≤ numHours)
    (h2 : numHours < 9223372036854775808) (h3 : numHours ≤ (row.length : Int)) :
    printRow row numHours = some (specLine ",  " (row.take numHours.toNat)) := by
  have hw : wrapInt (numHours - 1) = numHours - 1 :=
    wrapInt_of_range (by omega) (by omega)
  obtain ⟨n, rfl⟩ : ∃ n : Nat, numHours = ((n + 1 : Nat) : Int) :=
    ⟨(numHours - 1).toNat, by omega⟩
  have hn : n < row.length := by omega
  have hsplit : row = row.take n ++ [] ++ [row[n]] ++ row.drop (n + 1) := by
    simp
  have hd : row.take n ++ [row[n]] = row.take (n + 1) := by
    rw [List.take_succ, List.getElem?_eq_getElem hn]
    rfl
  have hrow : row = [] ++ row.take n ++ [row[n]] ++ row.drop (n + 1) := by
    simp only [List.nil_append]
    rw [hd]
    exact (List.take_append_drop (n + 1) row).symm
  obtain ⟨s, hs, hspec⟩ := printCells_spec row row[n] (row.drop (n + 1)) (row.take n) [] hrow
  have hlen : (row.take n).length = n := by
    rw [List.length_take]
    omega
  rw [hlen] at hs
  simp only [List.length_nil] at hs
  unfold printRow
  rw [hw]
  have e1 : ((((n + 1 : Nat) : Int) - 1)).toNat = n := by omega
  have e2 : indexInt row (((n + 1 : Nat) : Int) - 1) = some row[n] := by
    have : (((n + 1 : Nat) : Int) - 1) = (n : Int) := by omega
    rw [this, indexInt_natCast, List.getElem?_eq_getElem hn]
  rw [e1, hs]
  simp only [e2]
  rw [hspec, hd]
  simp

/-- The text written by `printAccessHistory`, row by row. -/
theorem printRows_spec {numHours : Int} (h1 : 1 ≤ numHours)
    (h2 : numHours < 9223372036854775808) :
    ∀ (tl : List (List Int)), (∀ row ∈ tl, numHours ≤ (row.length : Int)) →
      printRows numHours tl = some (specReport ",  " numHours.toNat tl) := by
  intro tl
  induction tl with
  | nil => intro _; rfl
  | cons row rest ih =>
    intro h
    have hr := printRow_spec h1 h2 (h row (List.mem_cons_self _ _))
    have ht := ih (fun r hr => h r (List.mem_cons_of_mem _ hr))
    simp only [printRows, hr, ht, specReport]

/-- A completed loop of accesses whose update leaves under `key` an Object of size
`v` has such an Object on every worker it visited. -/
theorem accessLoop_sz {upd : Lambda → Option Lambda} {key : String} {v : Nat}
    (hupd : ∀ lam lam1, upd lam = some lam1 →
      ∃ obj, mapLookup key lam1.Kvs = some obj ∧ obj.Sz = v)
    {delta : Option Int} {hr : Nat} {opts : Options} {l : List Nat} {st st2 : Store}
    (h : forEach (accessStep upd delta hr opts) l st = .done st2) :
    ∀ j ∈ l, ∃ lam obj, st2.p.LambdaPool[j]? = some lam ∧ mapLookup key lam.Kvs = some obj ∧
      obj.Sz = v := by
  have hE : ∀ s idx s1, accessStep upd delta hr opts s idx = .done s1 →
      ∃ lam obj, s1.p.LambdaPool[idx]? = some lam ∧ mapLookup key lam.Kvs = some obj ∧
        obj.Sz = v := by
    intro s idx s1 hs
    obtain ⟨lam, lam1, mem, tl, hl, hu, -, -, hs1⟩ := accessStep_done hs
    obtain ⟨obj1, ho1, ho2⟩ := hupd _ _ hu
    have hlt : idx < s.p.LambdaPool.length := (List.getElem?_eq_some.1 hl).1
    subst hs1
    exact ⟨lam1, obj1, by simp only [List.getElem?_set_self hlt], ho1, ho2⟩
  refine (forEach_done_establish
    (fun i s => ∃ lam obj, s.p.LambdaPool[i]? = some lam ∧ mapLookup key lam.Kvs = some obj ∧
      obj.Sz = v) hE ?_ l st st2 h).2
  intro s idx s1 i hs hi
  by_cases e : idx = i
  · subst e
    exact hE s idx s1 hs
  · obtain ⟨lam, lam1, mem, tl, hl, hu, -, -, hs1⟩ := accessStep_done hs
    obtain ⟨la, ob, h1, h2, h3⟩ := hi
    subst hs1
    exact ⟨la, ob, by simp only [List.getElem?_set_ne e]; exact h1, h2, h3⟩

theorem hitUpd_sz {rec : Record} {opts : Options} {lam lam1 : Lambda}
    (h : hitUpd rec opts lam = some lam1) :
    ∃ obj, mapLookup rec.Key lam1.Kvs = some obj ∧
      obj.Sz = rec.Sz / toUint64 opts.NumDataShards := by
  obtain ⟨o, -, -, rfl⟩ := hitUpd_eq_some h
  exact ⟨_, mapLookup_mapInsert_self _ _ _, rfl⟩

theorem missUpd_sz {rec : Record} {opts : Options} {lam lam1 : Lambda}
    (h : missUpd rec opts lam = some lam1) :
    ∃ obj, mapLookup rec.Key lam1.Kvs = some obj ∧
      obj.Sz = rec.Sz / toUint64 opts.NumDataShards := by
  obtain ⟨-, rfl⟩ := missUpd_eq_some h
  exact ⟨_, mapLookup_mapInsert_self _ _ _, rfl⟩

/-- After a `perform` that returns, the Object of the record's key on every worker
of the key's shard set has the size of the record divided by the data shards. -/
theorem perform_size {R : RandSource} {now : Int} {gen : Nat} {p : Proxy} {rec : Record}
    {tl : List (List Int)} {mem : List Int} {opts : Options} {st : Store}
    (h : (perform R now gen p rec tl mem opts).1 = .done st) :
    ∃ shard, mapLookup rec.Key st.p.Map = some shard ∧
      (∀ idxs, mapLookup rec.Key p.Map = some idxs → idxs = shard) ∧
      ∀ j ∈ shard, ∃ lam obj, st.p.LambdaPool[j]? = some lam ∧
        mapLookup rec.Key lam.Kvs = some obj ∧
        obj.Sz = rec.Sz / toUint64 opts.NumDataShards := by
  rcases perform_cases R now gen p rec tl mem opts with
    ⟨val, hv, he⟩ | ⟨-, he⟩ | ⟨index, g, hn, hr, he⟩
  · rw [he] at h
    simp only at h
    have hmap := (accessLoop_done_Id h).2
    refine ⟨val, by rw [hmap]; exact hv, ?_, accessLoop_sz (fun _ _ hu => hitUpd_sz hu) h⟩
    intro idxs hi
    rw [hv] at hi
    cases hi
    rfl
  · rw [he] at h
    cases h
  · rw [he] at h
    simp only at h
    have hmap := (accessLoop_done_Id h).2
    refine ⟨index, by rw [hmap]; exact mapLookup_mapInsert_self _ _ _, ?_,
      accessLoop_sz (fun _ _ hu => missUpd_sz hu) h⟩
    intro idxs hi
    rw [hn] at hi
    cases hi

/-- Whatever its outcome, a hit-path `perform` leaves every `MemUsed` and the whole
of `memArr` as they were. -/
theorem perform_hit_memory (R : RandSource) (now : Int) (gen : Nat) (p : Proxy) (rec : Record)
    (tl : List (List Int)) (mem : List Int) (opts : Options) {val : List Nat}
    (hv : mapLookup rec.Key p.Map = some val) :
    (perform R now gen p rec tl mem opts).1.state.p.LambdaPool.map Lambda.MemUsed =
      p.LambdaPool.map Lambda.MemUsed ∧
    (perform R now gen p rec tl mem opts).1.state.memArr = mem := by
  rw [perform_hit R now gen p rec tl mem opts hv]
  exact ⟨accessLoop_MemUsed _ _ _ _ (fun lam lam1 hu => hitUpd_MemUsed rec opts lam lam1 hu) _ _,
    accessLoop_memArr_none _ _ _ _ _⟩

/-! ### Records outside the timeline -/

theorem incrCell_none_of_short {tl : List (List Int)} {hr : Nat}
    (hrows : ∀ row ∈ tl, row.length ≤ hr) (i : Int) : incrCell tl i hr = none := by
  unfold incrCell
  cases h : indexInt tl i with
  | none => rfl
  | some row =>
    obtain ⟨h0, hrow⟩ := indexInt_eq_some h
    have hm : row ∈ tl := List.mem_iff_getElem?.2 ⟨_, hrow⟩
    have hl := hrows row hm
    simp only
    rw [List.getElem?_eq_none hl]

theorem accessStep_crash_of_short {upd : Lambda → Option Lambda} {delta : Option Int}
    {hr : Nat} {opts : Options} {st : Store} (hrows : ∀ row ∈ st.reuseTimeline, row.length ≤ hr)
    (idx : Nat) : (accessStep upd delta hr opts st idx).isDone = false := by
  unfold accessStep
  cases st.p.LambdaPool[idx]? with
  | none => rfl
  | some lam =>
    simp only
    cases upd lam with
    | none => rfl
    | some lam1 =>
      simp only
      cases addOpt delta st.memArr (lambdaIdx st.p opts idx) with
      | none => rfl
      | some m =>
        simp only
        rw [incrCell_none_of_short hrows]
        rfl

theorem accessLoop_crash_of_short {upd : Lambda → Option Lambda} {delta : Option Int}
    {hr : Nat} {opts : Options} {st : Store} (hrows : ∀ row ∈ st.reuseTimeline, row.length ≤ hr)
    {l : List Nat} (hl : l ≠ []) :
    (forEach (accessStep upd delta hr opts) l st).isDone = false := by
  cases l with
  | nil => exact absurd rfl hl
  | cons idx rest =>
    have h := @accessStep_crash_of_short upd delta hr opts st hrows idx
    cases hs : accessStep upd delta hr opts st idx with
    | done s1 => rw [hs] at h; cases h
    | crash s1 =>
      rw [forEach_cons_crash rest hs]
      rfl

/-- A record whose bucket lies outside every row of the timeline makes `perform`
panic as soon as the shard set it works on is not empty. -/
theorem perform_late_fails (R : RandSource) (now : Int) (gen : Nat) (p : Proxy) (rec : Record)
    (tl : List (List Int)) (mem : List Int) (opts : Options)
    (hrows : ∀ row ∈ tl, row.length ≤ rec.TimestampHr)
    (hhit : ∀ idxs, mapLookup rec.Key p.Map = some idxs → idxs ≠ [])
    (hmiss : 1 ≤ wrapInt (opts.NumDataShards + opts.NumParityShards)) :
    (perform R now gen p rec tl mem opts).1.isDone = false := by
  rcases perform_cases R now gen p rec tl mem opts with
    ⟨val, hv, he⟩ | ⟨-, he⟩ | ⟨index, g, hn, hr, he⟩
  · rw [he]
    exact accessLoop_crash_of_short hrows (hhit val hv)
  · rw [he]
    rfl
  · rw [he]
    refine accessLoop_crash_of_short hrows ?_
    obtain ⟨h0, hk0, hk, hidx, -⟩ := random_eq_some hr
    intro hnil
    have hlen : index.length = 0 := by rw [hnil]; rfl
    rw [hidx, List.length_take] at hlen
    omega

/-! ### Counting the addressed rows -/

theorem addressed_count {N M i : Nat} {shard : List Nat} (hnd : shard.Nodup)
    (hlt : ∀ idx ∈ shard, idx < N) (hM : (i + 1) * N ≤ M) :
    (List.range M).countP (fun g => decide (g / N = i ∧ g % N ∈ shard)) = shard.length := by
  rw [List.countP_eq_length_filter]
  have hperm : List.Perm ((List.range M).filter (fun g => decide (g / N = i ∧ g % N ∈ shard)))
      (shard.map (fun idx => i * N + idx)) := by
    rw [List.perm_ext_iff_of_nodup ((List.nodup_range M).filter _)
      (hnd.map (fun a b h => by simpa using h))]
    intro g
    simp only [List.mem_filter, List.mem_range, decide_eq_true_eq, List.mem_map]
    constructor
    · rintro ⟨hg, hdiv, hmod⟩
      refine ⟨g % N, hmod, ?_⟩
      have := Nat.div_add_mod g N
      rw [hdiv, Nat.mul_comm] at this
      exact this
    · rintro ⟨idx, hidx, rfl⟩
      have hN := hlt idx hidx
      have h1 : (i * N + idx) / N = i := by
        rw [Nat.mul_comm, Nat.mul_add_div (by omega), Nat.div_eq_of_lt hN, Nat.add_zero]
      have h2 : (i * N + idx) % N = idx := by
        rw [Nat.mul_comm, Nat.mul_add_mod, Nat.mod_eq_of_lt hN]
      refine ⟨?_, h1, by rw [h2]; exact hidx⟩
      have : i * N + idx < (i + 1) * N := by
        rw [Nat.add_mul, Nat.one_mul]
        omega
      omega
  rw [hperm.length_eq, List.length_map]

theorem addr_div_mod {N idx : Nat} (i : Nat) (h : idx < N) :
    (i * N + idx) / N = i ∧ (i * N + idx) % N = idx := by
  constructor
  · rw [Nat.mul_comm, Nat.mul_add_div (by omega), Nat.div_eq_of_lt h, Nat.add_zero]
  · rw [Nat.mul_comm, Nat.mul_add_mod, Nat.mod_eq_of_lt h]

theorem exWorld0_init : initWorld exOpts 0 = some exWorld0 := by decide

theorem exWorld0_inv : WorldInv exOpts exWorld0 := initWorld_inv exOpts_valid exWorld0_init

theorem exWorld0_cap (g j : Nat) :
    -9223372036854775808 ≤ cell exWorld0.reuseTimeline g j ∧
      cell exWorld0.reuseTimeline g j < 9223372036854775807 := by
  rw [initWorld_cell exWorld0_init g j]
  omega

theorem lambdaAt_eq {w : World} {i : Nat} {p : Proxy} (hp : w.proxies[i]? = some p) (j : Nat) :
    lambdaAt w i j = p.LambdaPool[j]? := by
  unfold lambdaAt
  rw [hp]

theorem lambdaAt_congr {w w1 : World} {i : Nat} (h : w1.proxies[i]? = w.proxies[i]?) (j : Nat) :
    lambdaAt w1 i j = lambdaAt w i j := by
  unfold lambdaAt
  rw [h]

/-- One call from `main` under the invariants, seen from the workers and the
placements: the workers of the key's shard set are updated once (by the hit update
when the key was placed, by the miss update otherwise, in which case the shard set
is the one `random` returned), and the only new placement is that of the record's
key. -/
theorem step_lambda {R : RandSource} (hR : R.Valid) {opts : Options} (hV : opts.Valid)
    {w : World} (hW : WorldInv opts w) {i : Nat} (hi : (i : Int) < opts.NumProxies)
    (rec : Record) (hhr : (rec.TimestampHr : Int) < opts.NumHours) (now : Int) :
    ∃ w1 shard, step R opts w (i : Int) rec now = .done w1 ∧ WorldInv opts w1 ∧
      PlacedIn w1 i rec.Key shard ∧ PlacementShape opts shard ∧
      (∀ i2 k idxs, PlacedIn w1 i2 k idxs ↔
        (PlacedIn w i2 k idxs ∨ (i2 = i ∧ k = rec.Key ∧ idxs = shard))) ∧
      ((PlacedIn w i rec.Key shard ∧
        ∀ i2 j, lambdaAt w1 i2 j =
          if i2 = i ∧ j ∈ shard then (lambdaAt w i j).bind (hitUpd rec opts)
          else lambdaAt w i2 j) ∨
       ((∀ idxs, ¬ PlacedIn w i rec.Key idxs) ∧
        (∃ gen : Nat, (random R now gen opts.NumLambdasPerProxy
          (wrapInt (opts.NumDataShards + opts.NumParityShards))).1 = some shard) ∧
        ∀ i2 j, lambdaAt w1 i2 j =
          if i2 = i ∧ j ∈ shard then (lambdaAt w i j).bind (missUpd rec opts)
          else lambdaAt w i2 j)) := by
  obtain ⟨w1, p, st, shard, hp, hP, hId, hstep, hW1, hprox, htl, hmem, hstId, hshard, hshape,
    hpers, heff⟩ := step_spec hR hV hW hi rec hhr now
  have hlt : i < w.proxies.length := (List.getElem?_eq_some.1 hp).1
  have hp1 : w1.proxies[i]? = some st.p := by rw [hprox, List.getElem?_set_self hlt]
  -- the map after the call
  have hMap : st.p.Map = p.Map ∨
      (mapLookup rec.Key p.Map = none ∧
       (∃ g, random R now w.gen opts.NumLambdasPerProxy
          (wrapInt (opts.NumDataShards + opts.NumParityShards)) = (some shard, g)) ∧
       st.p.Map = mapInsert rec.Key shard p.Map) := by
    obtain ⟨p2, st2, h0, hp2, hperf, hw1⟩ := step_done hstep
    simp only [Int.toNat_ofNat] at hp2 hw1
    rw [hp] at hp2
    cases hp2
    have hst : st2.p = st.p := by
      have h1 : w1.proxies[i]? = some st2.p := by
        rw [hw1]
        simp only
        rw [List.getElem?_set_self hlt]
      exact Option.some.inj (h1.symm.trans hp1)
    have hM := (perform_Map R now w.gen p rec w.reuseTimeline w.memArr opts).2
    rw [hperf] at hM
    simp only [Outcome.state] at hM
    rw [hst] at hM
    rcases hM with h | ⟨index, g, hn, hr, hm⟩
    · exact Or.inl h
    · right
      have hidx : index = shard := by
        rw [hm, mapLookup_mapInsert_self] at hshard
        cases hshard
        rfl
      subst hidx
      exact ⟨hn, ⟨g, hr⟩, hm⟩
  have hplaced : ∀ i2 k idxs, PlacedIn w1 i2 k idxs ↔
      (PlacedIn w i2 k idxs ∨ (i2 = i ∧ k = rec.Key ∧ idxs = shard)) := by
    intro i2 k idxs
    constructor
    · rintro ⟨q, hq, hk⟩
      by_cases e : i2 = i
      · subst e
        rw [hp1] at hq
        cases hq
        rcases hMap with h | ⟨hn, -, hm⟩
        · rw [h] at hk
          exact Or.inl ⟨p, hp, hk⟩
        · rw [hm, mapLookup_mapInsert] at hk
          by_cases ek : k = rec.Key
          · rw [if_pos ek] at hk
            cases hk
            exact Or.inr ⟨rfl, ek, rfl⟩
          · rw [if_neg ek] at hk
            exact Or.inl ⟨p, hp, hk⟩
      · left
        refine ⟨q, ?_, hk⟩
        rw [hprox, List.getElem?_set_ne (Ne.symm e)] at hq
        exact hq
    · rintro (⟨q, hq, hk⟩ | ⟨rfl, rfl, rfl⟩)
      · by_cases e : i = i2
        · subst e
          rw [hp] at hq
          cases hq
          exact ⟨st.p, hp1, hpers k idxs hk⟩
        · exact ⟨q, by rw [hprox, List.getElem?_set_ne e]; exact hq, hk⟩
      · exact ⟨st.p, hp1, hshard⟩
  have hlam : ∀ (upd : Lambda → Option Lambda) (delta : Option Int),
      AccessEffect upd delta rec.TimestampHr ((i : Int) * opts.NumLambdasPerProxy) shard
        { p := p, reuseTimeline := w.reuseTimeline, memArr := w.memArr } st →
      ∀ i2 j, lambdaAt w1 i2 j =
        if i2 = i ∧ j ∈ shard then (lambdaAt w i j).bind upd else lambdaAt w i2 j := by
    intro upd delta h i2 j
    obtain ⟨-, hout, hin, -⟩ := h
    by_cases e : i2 = i
    · subst e
      rw [lambdaAt_eq hp1, lambdaAt_eq hp]
      by_cases hj : j ∈ shard
      · obtain ⟨lam0, lam1, hl0, hu, hl1⟩ := hin j hj
        simp only at hl0
        rw [if_pos ⟨rfl, hj⟩, hl0, hl1, Option.some_bind, hu]
      · rw [if_neg (fun hh => hj hh.2)]
        exact hout j hj
    · have hsame : w1.proxies[i2]? = w.proxies[i2]? := by
        rw [hprox, List.getElem?_set_ne (Ne.symm e)]
      rw [lambdaAt_congr hsame, if_neg (fun hh => e hh.1)]
  refine ⟨w1, shard, hstep, hW1, ⟨st.p, hp1, hshard⟩, hshape, hplaced, ?_⟩
  rcases heff with ⟨hk0, h⟩ | ⟨hk0, h⟩
  · exact Or.inl ⟨⟨p, hp, hk0⟩, hlam _ _ h⟩
  · right
    refine ⟨?_, ?_, hlam _ _ h⟩
    · rintro idxs ⟨q, hq, hk⟩
      rw [hp] at hq
      cases hq
      rw [hk0] at hk
      cases hk
    · rcases hMap with hm | ⟨-, ⟨g, hr⟩, -⟩
      · rw [hm, hk0] at hshard
        cases hshard
      · exact ⟨w.gen, by rw [hr]⟩

/-! ### Induction along the record loop -/

theorem mainLoop_append (R : RandSource) (locate : String → String) (opts : Options)
    (es2 : List Event) :
    ∀ (es : List Event) (w w1 : World), mainLoop R locate opts w es = .done w1 →
      mainLoop R locate opts w (es ++ es2) = mainLoop R locate opts w1 es2 := by
  intro es
  induction es with
  | nil =>
    intro w w1 h
    cases h
    rfl
  | cons e es ih =>
    intro w w1 h
    cases hs : step R opts w (Atoi (locate e.record.Key)) e.record e.now with
    | done w2 =>
      rw [List.cons_append, mainLoop_cons_done _ hs]
      rw [mainLoop_cons_done _ hs] at h
      exact ih w2 w1 h
    | crash w2 =>
      rw [mainLoop_cons_crash _ hs] at h
      cases h

theorem TraceOK_append {locate : String → String} {opts : Options} {es es2 : List Event}
    (h : TraceOK locate opts (es ++ es2)) : TraceOK locate opts es ∧ TraceOK locate opts es2 :=
  ⟨fun e he => h e (List.mem_append_left _ he), fun e he => h e (List.mem_append_right _ he)⟩

/-- Induction along the record loop under the invariants: a property of the
records processed so far and the state reached, true at the start and kept by
every call, holds at the end; and the loop completes. -/
theorem run_induction {R : RandSource} (hR : R.Valid) {locate : String → String}
    {opts : Options} (hV : opts.Valid) (P : List Event → World → Prop) {w0 : World}
    (hW0 : WorldInv opts w0) (h0 : P [] w0)
    (hs : ∀ (es : List Event) (e : Event) (w w1 : World) (i : Nat), WorldInv opts w → P es w →
      (i : Int) < opts.NumProxies → Atoi (locate e.record.Key) = (i : Int) →
      (e.record.TimestampHr : Int) < opts.NumHours →
      step R opts w (i : Int) e.record e.now = .done w1 → WorldInv opts w1 →
      P (es ++ [e]) w1) :
    ∀ trace : List Event, TraceOK locate opts trace →
      ∃ wf, mainLoop R locate opts w0 trace = .done wf ∧ WorldInv opts wf ∧ P trace wf := by
  intro trace
  induction trace using List.reverseRecOn with
  | nil => intro _; exact ⟨w0, rfl, hW0, h0⟩
  | append_singleton es e ih =>
    intro hT
    obtain ⟨hT1, hT2⟩ := TraceOK_append hT
    obtain ⟨w, hrun, hW, hP⟩ := ih hT1
    obtain ⟨⟨i, hi, hA⟩, hhr⟩ := hT2 e (List.mem_singleton_self e)
    obtain ⟨w1, p, st, shard, -, -, -, hstep, hW1, -⟩ := step_spec hR hV hW hi e.record hhr e.now
    refine ⟨w1, ?_, hW1, hs es e w w1 i hW hP hi hA hhr hstep hW1⟩
    rw [mainLoop_append R locate opts [e] es w0 w hrun]
    have hstep2 : step R opts w (Atoi (locate e.record.Key)) e.record e.now = .done w1 := by
      rw [hA]
      exact hstep
    rw [mainLoop_cons_done _ hstep2]
    rfl

/-- Two returns of the same call end in the same state. -/
theorem step_done_unique {R : RandSource} {opts : Options} {w w1 w2 : World} {id : Int}
    {rec : Record} {now : Int} (h1 : step R opts w id rec now = .done w1)
    (h2 : step R opts w id rec now = .done w2) : w1 = w2 := by
  rw [h1] at h2
  cases h2
  rfl

/-- The placements keep track of the records processed. -/
theorem hist_snoc {R : RandSource} (hR : R.Valid) {locate : String → String}
    {opts : Options} (hV : opts.Valid) {es : List Event} {e : Event} {w w1 : World} {i : Nat}
    (hW : WorldInv opts w) (hH : Hist R locate opts es w)
    (hi : (i : Int) < opts.NumProxies) (hA : Atoi (locate e.record.Key) = (i : Int))
    (hhr : (e.record.TimestampHr : Int) < opts.NumHours)
    (hstep : step R opts w (i : Int) e.record e.now = .done w1) :
    Hist R locate opts (es ++ [e]) w1 := by
  obtain ⟨w2, shard, hstep2, -, hpl, -, hplaced, hcase⟩ :=
    step_lambda hR hV hW hi e.record hhr e.now
  have hw := step_done_unique hstep2 hstep
  subst hw
  obtain ⟨H1, H2⟩ := hH
  constructor
  · intro e2 he2
    rcases List.mem_append.1 he2 with h | h
    · obtain ⟨idxs, hidx⟩ := H1 e2 h
      exact ⟨idxs, (hplaced _ _ _).2 (Or.inl hidx)⟩
    · rw [List.mem_singleton] at h
      subst h
      refine ⟨shard, ?_⟩
      rw [hA]
      exact hpl
  · intro i2 k idxs hpk
    rcases (hplaced i2 k idxs).1 hpk with h | ⟨rfl, rfl, rfl⟩
    · obtain ⟨e2, he2, h1, h2, h3⟩ := H2 i2 k idxs h
      exact ⟨e2, List.mem_append_left _ he2, h1, h2, h3⟩
    · rcases hcase with ⟨hold, -⟩ | ⟨-, hrand, -⟩
      · obtain ⟨e2, he2, h1, h2, h3⟩ := H2 _ _ _ hold
        exact ⟨e2, List.mem_append_left _ he2, h1, h2, h3⟩
      · exact ⟨e, List.mem_append_right _ (List.mem_singleton_self e), rfl, hA, hrand⟩

theorem hist_init {R : RandSource} {locate : String → String} {opts : Options} {gen : Nat}
    {w : World} (h : initWorld opts gen = some w) : Hist R locate opts [] w := by
  unfold Hist
  exact ⟨fun e he => (by cases he),
    fun i k idxs hp => absurd hp (initWorld_not_placed h i k idxs)⟩

/-- Whether a record counts as an access of a worker does not change once its key
is placed. -/
theorem accessedBy_stable {locate : String → String} {opts : Options} {w w1 : World}
    (hpers : ∀ i k idxs, PlacedIn w i k idxs → PlacedIn w1 i k idxs) {e : Event}
    (hpl : ∃ idxs, PlacedIn w (Atoi (locate e.record.Key)).toNat e.record.Key idxs) (g : Nat) :
    accessedBy locate opts w1 g e = accessedBy locate opts w g e := by
  unfold accessedBy
  by_cases h : Atoi (locate e.record.Key) = ((g / opts.NumLambdasPerProxy.toNat : Nat) : Int)
  · obtain ⟨idxs, hp⟩ := hpl
    rw [h, Int.toNat_ofNat] at hp
    rw [shardSet_of_placedIn hp, shardSet_of_placedIn (hpers _ _ _ hp)]
  · simp only [decide_eq_false h, Bool.false_and]

theorem countP_snoc {α : Type} (p : α → Bool) (l : List α) (a : α) :
    (l ++ [a]).countP p = l.countP p + (if p a = true then 1 else 0) := by
  rw [List.countP_append, List.countP_cons, List.countP_nil, Nat.zero_add]

/-- The cells of the timeline after the record loop, from the initial state:
cell `[g][j]` counts the records of bucket `j` that were accesses of worker `g`. -/
theorem mainLoop_cells {R : RandSource} (hR : R.Valid) {locate : String → String}
    {opts : Options} (hV : opts.Valid) {gen : Nat} {w0 : World}
    (hinit : initWorld opts gen = some w0) (trace : List Event)
    (hT : TraceOK locate opts trace) :
    ∃ wf, mainLoop R locate opts w0 trace = .done wf ∧ WorldInv opts wf ∧
      Hist R locate opts trace wf ∧
      (trace.length < 9223372036854775808 → ∀ g j : Nat, cell wf.reuseTimeline g j =
        ((trace.countP (accessedAt locate opts wf g j) : Nat) : Int)) := by
  obtain ⟨wf, hrun, hWf, hH, hc⟩ := run_induction hR hV
    (fun es w => Hist R locate opts es w ∧
      (es.length < 9223372036854775808 → ∀ g j : Nat, cell w.reuseTimeline g j =
        ((es.countP (accessedAt locate opts w g j) : Nat) : Int)))
    (initWorld_inv hV hinit)
    ⟨hist_init hinit, fun _ g j => by rw [initWorld_cell hinit g j]; rfl⟩
    (by
      intro es e w w1 i hW hP hi hA hhr hstep hW1
      obtain ⟨hH, hc⟩ := hP
      refine ⟨hist_snoc hR hV hW hH hi hA hhr hstep, ?_⟩
      intro hlen g j
      rw [List.length_append, List.length_singleton] at hlen
      obtain ⟨w2, shard, hstep2, hpl, hshape, hcell, -⟩ := step_cells hR hV hW hi e.record hhr e.now
      have hw := step_done_unique hstep2 hstep
      subst hw
      obtain ⟨w3, shard3, hstep3, -, -, -, hplaced, -⟩ :=
        step_lambda hR hV hW hi e.record hhr e.now
      have hw := step_done_unique hstep3 hstep
      subst hw
      have hpers : ∀ i k idxs, PlacedIn w i k idxs → PlacedIn w3 i k idxs :=
        fun i k idxs h => (hplaced i k idxs).2 (Or.inl h)
      have hold : es.countP (accessedAt locate opts w3 g j) =
          es.countP (accessedAt locate opts w g j) := by
        apply List.countP_congr
        intro e2 he2
        unfold accessedAt
        rw [accessedBy_stable hpers (hH.1 e2 he2) g]
      have hnew : (accessedAt locate opts w3 g j e = true) ↔
          (g / opts.NumLambdasPerProxy.toNat = i ∧
            g % opts.NumLambdasPerProxy.toNat ∈ shard ∧ j = e.record.TimestampHr) := by
        unfold accessedAt
        rw [Bool.and_eq_true, accessedBy_iff hA hpl, decide_eq_true_eq]
        constructor
        · rintro ⟨⟨h1, h2⟩, h3⟩
          exact ⟨h1, h2, h3.symm⟩
        · rintro ⟨h1, h2, h3⟩
          exact ⟨⟨h1, h2⟩, h3.symm⟩
      have hcount := hc (by omega) g j
      have hle := List.countP_le_length (accessedAt locate opts w g j) (l := es)
      rw [hcell g j, countP_snoc, hold]
      by_cases ha : g / opts.NumLambdasPerProxy.toNat = i ∧
          g % opts.NumLambdasPerProxy.toNat ∈ shard ∧ j = e.record.TimestampHr
      · rw [if_pos ha, if_pos (hnew.2 ha), hcount]
        rw [wrapInt_of_range (by omega) (by omega)]
        push_cast
        rfl
      · rw [if_neg ha, if_neg (fun h => ha (hnew.1 h)), hcount]
        simp)
    trace hT
  exact ⟨wf, hrun, hWf, hH, hc⟩

/-- Under a key-determined placement every stored shard set is the one of its
key. -/
theorem placed_eq_place {R : RandSource} {locate : String → String} {opts : Options}
    {place : String → List Nat} {trace : List Event} {wf : World}
    (hH : Hist R locate opts trace wf) (hK : KeyPlacement R opts place trace)
    {i : Nat} {k : String} {idxs : List Nat} (h : PlacedIn wf i k idxs) : idxs = place k := by
  obtain ⟨e, he, hk, -, gen, hr⟩ := hH.2 i k idxs h
  have := hK e he gen
  rw [hr, hk] at this
  exact Option.some.inj this

/-- Under a key-determined placement, whether a record of the trace is an access
of a worker can be read off the record. -/
theorem accessedAt_of_place {R : RandSource} {locate : String → String} {opts : Options}
    {place : String → List Nat} {trace : List Event} {wf : World}
    (hH : Hist R locate opts trace wf) (hK : KeyPlacement R opts place trace)
    (g j : Nat) {e : Event} (he : e ∈ trace) :
    accessedAt locate opts wf g j e =
      (decide (Atoi (locate e.record.Key) = ((g / opts.NumLambdasPerProxy.toNat : Nat) : Int)) &&
        decide (g % opts.NumLambdasPerProxy.toNat ∈ place e.record.Key) &&
        decide (e.record.TimestampHr = j)) := by
  unfold accessedAt accessedBy
  by_cases h : Atoi (locate e.record.Key) = ((g / opts.NumLambdasPerProxy.toNat : Nat) : Int)
  · obtain ⟨idxs, hp⟩ := hH.1 e he
    rw [h, Int.toNat_ofNat] at hp
    rw [shardSet_of_placedIn hp, placed_eq_place hH hK hp]
  · simp only [decide_eq_false h, Bool.false_and]

/-- Two timelines of the same dimensions with equal cells are equal. -/
theorem timeline_ext {tl tl2 : List (List Int)} {n : Nat} (hlen : tl.length = tl2.length)
    (hr1 : ∀ row ∈ tl, row.length = n) (hr2 : ∀ row ∈ tl2, row.length = n)
    (hc : ∀ g j : Nat, cell tl g j = cell tl2 g j) : tl = tl2 := by
  apply List.ext_getElem hlen
  intro g h1 h2
  have e1 : tl[g]? = some tl[g] := List.getElem?_eq_getElem h1
  have e2 : tl2[g]? = some tl2[g] := List.getElem?_eq_getElem h2
  have l1 := hr1 _ (List.getElem_mem h1)
  have l2 := hr2 _ (List.getElem_mem h2)
  apply List.ext_getElem (by rw [l1, l2])
  intro j h3 h4
  have := hc g j
  rw [cell_eq_of_getElem? e1, cell_eq_of_getElem? e2, List.getElem?_eq_getElem h3,
    List.getElem?_eq_getElem h4] at this
  exact this

theorem TraceOK_perm {locate : String → String} {opts : Options} {trace trace2 : List Event}
    (hp : trace.Perm trace2) (h : TraceOK locate opts trace) : TraceOK locate opts trace2 :=
  fun e he => h e (hp.mem_iff.2 he)

theorem KeyPlacement_perm {R : RandSource} {opts : Options} {place : String → List Nat}
    {trace trace2 : List Event} (hp : trace.Perm trace2) (h : KeyPlacement R opts place trace) :
    KeyPlacement R opts place trace2 :=
  fun e he => h e (hp.mem_iff.2 he)

/-- An Object exists on a worker exactly when the worker belongs to the shard set
stored for the key. -/
theorem object_iff_placed {opts : Options} {w : World} (hW : WorldInv opts w) (i j : Nat)
    (k : String) :
    (∃ obj, objectAt w i j k = some obj) ↔ ∃ idxs, PlacedIn w i k idxs ∧ j ∈ idxs := by
  constructor
  · rintro ⟨obj, ho⟩
    cases hp : w.proxies[i]? with
    | none =>
      unfold objectAt at ho
      rw [hp] at ho
      cases ho
    | some p =>
      rw [objectAt_eq hp] at ho
      cases hl : p.LambdaPool[j]? with
      | none => rw [hl] at ho; cases ho
      | some lam =>
        rw [hl] at ho
        simp only [Option.some_bind] at ho
        obtain ⟨idxs, h1, h2⟩ := (hW.2.1 i p hp).2.2.2.2 j lam k obj hl ho
        exact ⟨idxs, ⟨p, hp, h1⟩, h2⟩
  · rintro ⟨idxs, ⟨p, hp, hk⟩, hj⟩
    obtain ⟨lam, obj, hl, ho, -⟩ := (hW.2.1 i p hp).2.2.2.1 k idxs hk j hj
    refine ⟨obj, ?_⟩
    rw [objectAt_eq hp, hl]
    exact ho

theorem routedKey_perm {locate : String → String} {trace trace2 : List Event}
    (hp : trace.Perm trace2) (i : Nat) (k : String) :
    trace.countP (routedKey locate i k) = trace2.countP (routedKey locate i k) :=
  hp.countP_eq _

/-! ### Keys and entries of a Go map -/

theorem lookup_of_mem_keys {α : Type} {k : String} :
    ∀ {m : List (String × α)}, k ∈ m.map (fun kv => kv.1) → ∃ v, mapLookup k m = some v := by
  intro m
  induction m with
  | nil => intro h; cases h
  | cons a m ih =>
    intro h
    obtain ⟨k1, v1⟩ := a
    by_cases e : k1 = k
    · exact ⟨v1, by simp [mapLookup, e]⟩
    · simp only [List.map_cons, List.mem_cons] at h
      rcases h with h | h
      · exact absurd h.symm e
      · obtain ⟨v, hv⟩ := ih h
        exact ⟨v, by simp [mapLookup, e, hv]⟩

theorem mem_keys_of_lookup {α : Type} {k : String} {v : α} :
    ∀ {m : List (String × α)}, mapLookup k m = some v → k ∈ m.map (fun kv => kv.1) := by
  intro m
  induction m with
  | nil => intro h; cases h
  | cons a m ih =>
    intro h
    obtain ⟨k1, v1⟩ := a
    by_cases e : k1 = k
    · simp [e]
    · simp only [mapLookup, e, if_false] at h
      simp only [List.map_cons, List.mem_cons]
      exact Or.inr (ih h)

theorem keys_mapInsert_of_some {α : Type} {k : String} (v : α) {v0 : α} :
    ∀ {m : List (String × α)}, mapLookup k m = some v0 →
      (mapInsert k v m).map (fun kv => kv.1) = m.map (fun kv => kv.1) := by
  intro m
  induction m with
  | nil => intro h; cases h
  | cons a m ih =>
    intro h
    obtain ⟨k1, v1⟩ := a
    by_cases e : k1 = k
    · simp [mapInsert, e]
    · simp only [mapLookup, e, if_false] at h
      simp only [mapInsert, e, if_false, List.map_cons, ih h]

theorem keys_mapInsert_of_none {α : Type} {k : String} (v : α) :
    ∀ {m : List (String × α)}, mapLookup k m = none →
      (mapInsert k v m).map (fun kv => kv.1) = m.map (fun kv => kv.1) ++ [k] := by
  intro m
  induction m with
  | nil => intro _; rfl
  | cons a m ih =>
    intro h
    obtain ⟨k1, v1⟩ := a
    by_cases e : k1 = k
    · simp [mapLookup, e] at h
    · simp only [mapLookup, e, if_false] at h
      simp only [mapInsert, e, if_false, List.map_cons, ih h, List.cons_append]

theorem mem_mapInsert {α : Type} {k : String} {v : α} {x : String × α} :
    ∀ {m : List (String × α)}, x ∈ mapInsert k v m → x = (k, v) ∨ x ∈ m := by
  intro m
  induction m with
  | nil =>
    intro h
    simp only [mapInsert, List.mem_singleton] at h
    exact Or.inl h
  | cons a m ih =>
    intro h
    obtain ⟨k1, v1⟩ := a
    by_cases e : k1 = k
    · simp only [mapInsert, e, if_true, List.mem_cons] at h
      rcases h with h | h
      · exact Or.inl h
      · exact Or.inr (List.mem_cons_of_mem _ h)
    · simp only [mapInsert, e, if_false, List.mem_cons] at h
      rcases h with h | h
      · exact Or.inr (by rw [h]; exact List.mem_cons_self _ _)
      · rcases ih h with h2 | h2
        · exact Or.inl h2
        · exact Or.inr (List.mem_cons_of_mem _ h2)

/-! ### First occurrences -/

theorem firsts_subset : ∀ {es : List Event} {e : Event}, e ∈ firsts es → e ∈ es := by
  intro es
  induction es with
  | nil => intro e h; cases h
  | cons a es ih =>
    intro e h
    simp only [firsts, List.mem_cons, List.mem_filter] at h
    rcases h with h | ⟨h, -⟩
    · rw [h]
      exact List.mem_cons_self _ _
    · exact List.mem_cons_of_mem _ (ih h)

theorem firsts_sublist : ∀ (es : List Event), List.Sublist (firsts es) es := by
  intro es
  induction es with
  | nil => exact List.Sublist.slnil
  | cons a es ih =>
    simp only [firsts]
    exact List.Sublist.cons₂ a ((List.filter_sublist _).trans ih)

theorem firsts_snoc (e : Event) : ∀ (es : List Event),
    firsts (es ++ [e]) =
      firsts es ++ (if e.record.Key ∈ es.map (fun x => x.record.Key) then [] else [e]) := by
  intro es
  induction es with
  | nil => simp [firsts]
  | cons a es ih =>
    have hl : firsts (a :: (es ++ [e])) =
        a :: (firsts (es ++ [e])).filter (fun e2 => decide (e2.record.Key ≠ a.record.Key)) := rfl
    have hr : firsts (a :: es) =
        a :: (firsts es).filter (fun e2 => decide (e2.record.Key ≠ a.record.Key)) := rfl
    rw [List.cons_append, hl, hr, ih, List.filter_append, List.cons_append]
    congr 2
    by_cases h1 : e.record.Key = a.record.Key
    · by_cases h2 : e.record.Key ∈ es.map (fun x => x.record.Key)
      · simp [h1, h2]
      · simp [h1, h2]
    · by_cases h2 : e.record.Key ∈ es.map (fun x => x.record.Key)
      · simp [h1, h2]
      · simp [h1, h2]

/-- An event belongs to `firsts` exactly when it is the first event of the trace
with its key. -/
theorem mem_firsts_iff : ∀ (es : List Event) (e : Event),
    e ∈ firsts es ↔ es.find? (fun x => decide (x.record.Key = e.record.Key)) = some e := by
  intro es
  induction es with
  | nil => intro e; simp [firsts]
  | cons a es ih =>
    intro e
    simp only [firsts, List.mem_cons, List.mem_filter, List.find?_cons, decide_eq_true_eq]
    by_cases h : a.record.Key = e.record.Key
    · simp only [h, decide_True]
      constructor
      · rintro (h1 | ⟨-, h2⟩)
        · rw [h1]
        · exact absurd rfl h2
      · intro h1
        exact Or.inl (Option.some.inj h1).symm
    · simp only [h, decide_False]
      rw [← ih e]
      constructor
      · rintro (h1 | ⟨h1, -⟩)
        · rw [h1] at h
          exact absurd rfl h
        · exact h1
      · intro h1
        exact Or.inr ⟨h1, fun hh => h hh.symm⟩

theorem firsts_keys_nodup : ∀ (es : List Event),
    ((firsts es).map (fun x => x.record.Key)).Nodup := by
  intro es
  induction es with
  | nil => exact List.nodup_nil
  | cons a es ih =>
    simp only [firsts, List.map_cons, List.nodup_cons, List.mem_map, List.mem_filter,
      decide_eq_true_eq]
    constructor
    · rintro ⟨x, ⟨-, h1⟩, h2⟩
      exact h1 h2
    · exact (ih.sublist ((List.filter_sublist _).map _))

/-! ### Wrap-around arithmetic -/

theorem wrapInt_wrap_add (a b : Int) : wrapInt (wrapInt a + b) = wrapInt (a + b) := by
  unfold wrapInt
  omega

theorem tdiv_of_small {s : Nat} (h : s < 9223372036854775808) :
    Int.tdiv (wrapInt (s : Int)) 1048576 = ((s / 1048576 : Nat) : Int) := by
  rw [wrapInt_of_range (by omega) (by omega)]
  rw [Int.tdiv_eq_ediv (by omega) (by omega)]
  rfl

theorem countedFor_stable {locate : String → String} {opts : Options} {w w1 : World}
    (hpers : ∀ i k idxs, PlacedIn w i k idxs → PlacedIn w1 i k idxs) {e : Event}
    (hpl : ∃ idxs, PlacedIn w (Atoi (locate e.record.Key)).toNat e.record.Key idxs) (g : Nat) :
    countedFor locate opts w1 g e = countedFor locate opts w g e := by
  unfold countedFor
  rw [accessedBy_stable hpers hpl g]

/-- A key that is not placed where its records are routed has not occurred. -/
theorem key_fresh {R : RandSource} {locate : String → String} {opts : Options}
    {es : List Event} {w : World} (hH : Hist R locate opts es w) {e : Event} {i : Nat}
    (hA : Atoi (locate e.record.Key) = (i : Int))
    (hnp : ∀ idxs, ¬ PlacedIn w i e.record.Key idxs) :
    e.record.Key ∉ es.map (fun x => x.record.Key) := by
  intro hmem
  obtain ⟨e2, he2, hk⟩ := List.mem_map.1 hmem
  obtain ⟨idxs, hp⟩ := hH.1 e2 he2
  rw [hk, hA, Int.toNat_ofNat] at hp
  exact hnp idxs hp

/-- A key that is placed has occurred. -/
theorem key_seen {R : RandSource} {locate : String → String} {opts : Options}
    {es : List Event} {w : World} (hH : Hist R locate opts es w) {k : String} {i : Nat}
    {idxs : List Nat} (hp : PlacedIn w i k idxs) :
    k ∈ es.map (fun x => x.record.Key) := by
  obtain ⟨e2, he2, hk, -⟩ := hH.2 i k idxs hp
  exact List.mem_map.2 ⟨e2, he2, hk⟩

/-- The entries of `memArr` after the record loop, from the initial state: entry
`g` is the sum (as a Go `int`) of `int(Sz) / 1048576` over the first occurrences of
a key that fall inside the observation window and whose shard set contains the
local index of `g`. -/
theorem mainLoop_memArr {R : RandSource} (hR : R.Valid) {locate : String → String}
    {opts : Options} (hV : opts.Valid) {gen : Nat} {w0 : World}
    (hinit : initWorld opts gen = some w0) (trace : List Event)
    (hT : TraceOK locate opts trace) :
    ∃ wf, mainLoop R locate opts w0 trace = .done wf ∧ WorldInv opts wf ∧
      Hist R locate opts trace wf ∧
      ∀ (g : Nat) (c : Int), wf.memArr[g]? = some c →
        c = wrapInt (((firsts trace).filter (countedFor locate opts wf g)).map
          (fun e => Int.tdiv (wrapInt (e.record.Sz : Int)) 1048576)).sum := by
  obtain ⟨wf, hrun, hWf, hH, hc⟩ := run_induction hR hV
    (fun es w => Hist R locate opts es w ∧
      ∀ (g : Nat) (c : Int), w.memArr[g]? = some c →
        c = wrapInt (((firsts es).filter (countedFor locate opts w g)).map
          (fun e => Int.tdiv (wrapInt (e.record.Sz : Int)) 1048576)).sum)
    (initWorld_inv hV hinit)
    ⟨hist_init hinit, fun g c h => by
      have := (initWorld_clean hinit).2.2 c (List.mem_iff_getElem?.2 ⟨g, h⟩)
      rw [this]
      simp only [firsts, List.filter_nil, List.map_nil, List.sum_nil]
      unfold wrapInt
      omega⟩
    (by
      intro es e w w1 i hW hP hi hA hhr hstep hW1
      obtain ⟨hH, hm⟩ := hP
      refine ⟨hist_snoc hR hV hW hH hi hA hhr hstep, ?_⟩
      intro g c hc
      obtain ⟨w2, shard, hstep2, hpl, hshape, -, hmem⟩ :=
        step_cells hR hV hW hi e.record hhr e.now
      have hw := step_done_unique hstep2 hstep
      subst hw
      obtain ⟨w3, shard3, hstep3, -, -, -, hplaced, -⟩ :=
        step_lambda hR hV hW hi e.record hhr e.now
      have hw := step_done_unique hstep3 hstep
      subst hw
      have hpers : ∀ i k idxs, PlacedIn w i k idxs → PlacedIn w3 i k idxs :=
        fun i k idxs h => (hplaced i k idxs).2 (Or.inl h)
      have hold : (firsts es).filter (countedFor locate opts w3 g) =
          (firsts es).filter (countedFor locate opts w g) := by
        apply List.filter_congr
        intro e2 he2
        exact countedFor_stable hpers (hH.1 e2 (firsts_subset he2)) g
      rcases hmem with ⟨hpw, hmeq⟩ | ⟨hnp, hmf⟩
      · rw [firsts_snoc, if_pos (key_seen hH hpw), List.append_nil, hold]
        rw [hmeq] at hc
        exact hm g c hc
      · rw [firsts_snoc, if_neg (key_fresh hH hA hnp), List.filter_append, hold,
          List.map_append, List.sum_append]
        have hnew : (countedFor locate opts w3 g e = true) ↔
            (g / opts.NumLambdasPerProxy.toNat = i ∧
              g % opts.NumLambdasPerProxy.toNat ∈ shard ∧ e.record.TimestampHr ≤ 99) := by
          unfold countedFor
          rw [Bool.and_eq_true, accessedBy_iff hA hpl, decide_eq_true_eq]
          constructor
          · rintro ⟨⟨h1, h2⟩, h3⟩
            exact ⟨h1, h2, h3⟩
          · rintro ⟨h1, h2, h3⟩
            exact ⟨⟨h1, h2⟩, h3⟩
        have hg := hmf g
        by_cases ha : g / opts.NumLambdasPerProxy.toNat = i ∧
            g % opts.NumLambdasPerProxy.toNat ∈ shard ∧ e.record.TimestampHr ≤ 99
        · rw [if_pos ha, hc] at hg
          obtain ⟨c0, hc0, hf⟩ := Option.map_eq_some'.1 hg.symm
          have h0 := hm g c0 hc0
          have hfil : [e].filter (countedFor locate opts w3 g) = [e] := by
            rw [List.filter_cons_of_pos (hnew.2 ha), List.filter_nil]
          rw [hfil, ← hf, h0, List.map_singleton, List.sum_singleton]
          exact wrapInt_wrap_add _ _
        · rw [if_neg ha, hc] at hg
          have h0 := hm g c hg.symm
          have hfil : [e].filter (countedFor locate opts w3 g) = [] := by
            have : countedFor locate opts w3 g e = false := by
              cases hcf : countedFor locate opts w3 g e with
              | false => rfl
              | true => exact absurd (hnew.1 hcf) ha
            rw [List.filter_cons_of_neg (by rw [this]; exact Bool.false_ne_true), List.filter_nil]
          rw [hfil, h0]
          simp only [List.map_nil, List.sum_nil, add_zero])
    trace hT
  exact ⟨wf, hrun, hWf, hH, hc⟩

/-- For sizes that fit a Go `int`, the amounts added to `memArr` are the sizes in
whole MiB. -/
theorem sum_amt_small : ∀ (l : List Event), (∀ e ∈ l, e.record.Sz < 9223372036854775808) →
    (l.map (fun e => Int.tdiv (wrapInt (e.record.Sz : Int)) 1048576)).sum =
      (((l.map (fun e => e.record.Sz / 1048576)).sum : Nat) : Int) := by
  intro l
  induction l with
  | nil => intro _; rfl
  | cons a l ih =>
    intro h
    rw [List.map_cons, List.sum_cons, List.map_cons, List.sum_cons,
      ih (fun e he => h e (List.mem_cons_of_mem _ he)),
      tdiv_of_small (h a (List.mem_cons_self _ _))]
    push_cast
    rfl

theorem sum_sublist_le {l1 l2 : List Event} (h : List.Sublist l1 l2) (f : Event → Nat) :
    (l1.map f).sum ≤ (l2.map f).sum := by
  induction h with
  | slnil => exact le_refl _
  | cons a _ ih =>
    rw [List.map_cons, List.sum_cons]
    omega
  | cons₂ a _ ih =>
    rw [List.map_cons, List.sum_cons, List.map_cons, List.sum_cons]
    omega

theorem lambdaAt_eq_some {w : World} {i j : Nat} {lam : Lambda} (h : lambdaAt w i j = some lam) :
    ∃ p, w.proxies[i]? = some p ∧ p.LambdaPool[j]? = some lam := by
  unfold lambdaAt at h
  cases hp : w.proxies[i]? with
  | none => rw [hp] at h; cases h
  | some p =>
    rw [hp] at h
    exact ⟨p, rfl, h⟩

theorem objectAt_of_lambdaAt {w : World} {i j : Nat} {lam : Lambda}
    (h : lambdaAt w i j = some lam) (k : String) : objectAt w i j k = mapLookup k lam.Kvs := by
  obtain ⟨p, hp, hl⟩ := lambdaAt_eq_some h
  rw [objectAt_eq hp, hl]
  rfl

/-! ### The placing record -/

theorem placerSz_snoc_of_mem {locate : String → String} {es : List Event} {i : Nat}
    {k : String} (e : Event) (h : ∃ e2 ∈ es, routedKey locate i k e2 = true) :
    placerSz locate (es ++ [e]) i k = placerSz locate es i k := by
  unfold placerSz
  rw [List.find?_append]
  cases hf : es.find? (routedKey locate i k) with
  | none =>
    obtain ⟨e2, he2, hr⟩ := h
    exact absurd hr (List.find?_eq_none.1 hf e2 he2)
  | some x => rfl

theorem placerSz_snoc_of_not {locate : String → String} {es : List Event} {i : Nat}
    {k : String} {e : Event} (h : ∀ e2 ∈ es, ¬ routedKey locate i k e2 = true)
    (he : routedKey locate i k e = true) :
    placerSz locate (es ++ [e]) i k = e.record.Sz := by
  unfold placerSz
  rw [List.find?_append, List.find?_eq_none.2 h, List.find?_cons_of_pos _ he]
  rfl

theorem placerSz_of_mem {locate : String → String} {es : List Event} {i : Nat}
    {k : String} (h : ∃ e2 ∈ es, routedKey locate i k e2 = true) :
    ∃ e0 ∈ es, e0.record.Key = k ∧ es.find? (routedKey locate i k) = some e0 ∧
      placerSz locate es i k = e0.record.Sz := by
  cases hf : es.find? (routedKey locate i k) with
  | none =>
    obtain ⟨e2, he2, hr⟩ := h
    exact absurd hr (List.find?_eq_none.1 hf e2 he2)
  | some x =>
    have hx : routedKey locate i k x = true := List.find?_some hf
    unfold routedKey at hx
    rw [Bool.and_eq_true, decide_eq_true_eq, decide_eq_true_eq] at hx
    refine ⟨x, List.mem_of_find?_eq_some hf, hx.2, rfl, ?_⟩
    unfold placerSz
    rw [hf]

theorem routedKey_of {locate : String → String} {i : Nat} {e : Event}
    (hA : Atoi (locate e.record.Key) = (i : Int)) : routedKey locate i e.record.Key e = true := by
  unfold routedKey
  rw [Bool.and_eq_true, decide_eq_true_eq, decide_eq_true_eq]
  exact ⟨hA, rfl⟩

/-- The keys of a worker's `Kvs` are keys of records routed to its proxy. -/
theorem keys_routed {R : RandSource} {locate : String → String} {opts : Options}
    {es : List Event} {w : World} (hW : WorldInv opts w) (hH : Hist R locate opts es w)
    {i j : Nat} {lam : Lambda} (hl : lambdaAt w i j = some lam) {k : String}
    (hk : k ∈ kvsKeys lam) : ∃ e2 ∈ es, routedKey locate i k e2 = true := by
  obtain ⟨obj, ho⟩ := lookup_of_mem_keys hk
  have hobj : objectAt w i j k = some obj := by rw [objectAt_of_lambdaAt hl]; exact ho
  obtain ⟨idxs, hp, -⟩ := (object_iff_placed hW i j k).1 ⟨obj, hobj⟩
  obtain ⟨e2, he2, hk2, hA2, -⟩ := hH.2 i k idxs hp
  refine ⟨e2, he2, ?_⟩
  rw [← hk2] at hA2 ⊢
  exact routedKey_of hA2

/-- No record of a key that is not placed has been routed to the proxy. -/
theorem not_routed_of_fresh {R : RandSource} {locate : String → String} {opts : Options}
    {es : List Event} {w : World} (hH : Hist R locate opts es w) {i : Nat} {k : String}
    (hnp : ∀ idxs, ¬ PlacedIn w i k idxs) :
    ∀ e2 ∈ es, ¬ routedKey locate i k e2 = true := by
  intro e2 he2 hr
  unfold routedKey at hr
  rw [Bool.and_eq_true, decide_eq_true_eq, decide_eq_true_eq] at hr
  obtain ⟨idxs, hp⟩ := hH.1 e2 he2
  rw [hr.1, Int.toNat_ofNat, hr.2] at hp
  exact hnp idxs hp

/-- What either update does to the entries and the keys of a worker. -/
theorem hitUpd_kvs {rec : Record} {opts : Options} {lam lam1 : Lambda}
    (h : hitUpd rec opts lam = some lam1) :
    kvsKeys lam1 = kvsKeys lam ∧ lam1.MemUsed = lam.MemUsed ∧
    ∀ kv ∈ lam1.Kvs, (kv.1 = rec.Key ∧ kv.2.Sz = rec.Sz / toUint64 opts.NumDataShards) ∨
      kv ∈ lam.Kvs := by
  obtain ⟨obj, ho, -, rfl⟩ := hitUpd_eq_some h
  refine ⟨keys_mapInsert_of_some _ ho, rfl, ?_⟩
  intro kv hkv
  rcases mem_mapInsert hkv with h1 | h1
  · left
    rw [h1]
    exact ⟨rfl, rfl⟩
  · exact Or.inr h1

theorem missUpd_kvs {rec : Record} {opts : Options} {lam lam1 : Lambda}
    (h : missUpd rec opts lam = some lam1) (hn : mapLookup rec.Key lam.Kvs = none) :
    kvsKeys lam1 = kvsKeys lam ++ [rec.Key] ∧
    lam1.MemUsed = u64 (lam.MemUsed + rec.Sz / toUint64 opts.NumDataShards) ∧
    ∀ kv ∈ lam1.Kvs, (kv.1 = rec.Key ∧ kv.2.Sz = rec.Sz / toUint64 opts.NumDataShards) ∨
      kv ∈ lam.Kvs := by
  obtain ⟨-, rfl⟩ := missUpd_eq_some h
  refine ⟨keys_mapInsert_of_none _ hn, rfl, ?_⟩
  intro kv hkv
  rcases mem_mapInsert hkv with h1 | h1
  · left
    rw [h1]
    exact ⟨rfl, rfl⟩
  · exact Or.inr h1

/-- One call from `main` under the invariants, seen from one worker: it is
untouched, or it was refreshed by a hit (same keys, same `MemUsed`), or it received
a new key by a miss (one more key, `MemUsed` increased by the share of the
record). -/
theorem step_worker {R : RandSource} (hR : R.Valid) {opts : Options} (hV : opts.Valid)
    {w w1 : World} (hW : WorldInv opts w) {i : Nat} (hi : (i : Int) < opts.NumProxies)
    (rec : Record) (hhr : (rec.TimestampHr : Int) < opts.NumHours) (now : Int)
    (hstep : step R opts w (i : Int) rec now = .done w1) {i2 j : Nat} {lam1 : Lambda}
    (hl1 : lambdaAt w1 i2 j = some lam1) :
    lambdaAt w i2 j = some lam1 ∨
    (i2 = i ∧ ∃ lam, lambdaAt w i j = some lam ∧ kvsKeys lam1 = kvsKeys lam ∧
      lam1.MemUsed = lam.MemUsed ∧
      ∀ kv ∈ lam1.Kvs, (kv.1 = rec.Key ∧ kv.2.Sz = rec.Sz / toUint64 opts.NumDataShards) ∨
        kv ∈ lam.Kvs) ∨
    (i2 = i ∧ (∀ idxs, ¬ PlacedIn w i rec.Key idxs) ∧
      ∃ lam, lambdaAt w i j = some lam ∧ rec.Key ∉ kvsKeys lam ∧
      kvsKeys lam1 = kvsKeys lam ++ [rec.Key] ∧
      lam1.MemUsed = u64 (lam.MemUsed + rec.Sz / toUint64 opts.NumDataShards) ∧
      ∀ kv ∈ lam1.Kvs, (kv.1 = rec.Key ∧ kv.2.Sz = rec.Sz / toUint64 opts.NumDataShards) ∨
        kv ∈ lam.Kvs) := by
  obtain ⟨w2, shard, hstep2, -, hpl, hshape, hplaced, hcase⟩ :=
    step_lambda hR hV hW hi rec hhr now
  have hw := step_done_unique hstep2 hstep
  subst hw
  rcases hcase with ⟨hpw, hf⟩ | ⟨hnp, -, hf⟩
  · rw [hf i2 j] at hl1
    by_cases hc : i2 = i ∧ j ∈ shard
    · rw [if_pos hc] at hl1
      obtain ⟨lam, hl, hu⟩ := Option.bind_eq_some.1 hl1
      obtain ⟨h1, h2, h3⟩ := hitUpd_kvs hu
      exact Or.inr (Or.inl ⟨hc.1, lam, hl, h1, h2, h3⟩)
    · rw [if_neg hc] at hl1
      exact Or.inl hl1
  · rw [hf i2 j] at hl1
    by_cases hc : i2 = i ∧ j ∈ shard
    · rw [if_pos hc] at hl1
      obtain ⟨lam, hl, hu⟩ := Option.bind_eq_some.1 hl1
      have hn : mapLookup rec.Key lam.Kvs = none := by
        cases hlk : mapLookup rec.Key lam.Kvs with
        | none => rfl
        | some obj =>
          have hobj : objectAt w i j rec.Key = some obj := by
            rw [objectAt_of_lambdaAt hl]
            exact hlk
          obtain ⟨idxs, hp, -⟩ := (object_iff_placed hW i j rec.Key).1 ⟨obj, hobj⟩
          exact absurd hp (hnp idxs)
      obtain ⟨h1, h2, h3⟩ := missUpd_kvs hu hn
      have hnk : rec.Key ∉ kvsKeys lam := by
        intro hk
        obtain ⟨v, hv⟩ := lookup_of_mem_keys hk
        rw [hn] at hv
        cases hv
      exact Or.inr (Or.inr ⟨hc.1, hnp, lam, hl, hnk, h1, h2, h3⟩)
    · rw [if_neg hc] at hl1
      exact Or.inl hl1

theorem initWorld_lambdaAt {opts : Options} {gen : Nat} {w : World}
    (h : initWorld opts gen = some w) {i j : Nat} {lam : Lambda}
    (hl : lambdaAt w i j = some lam) : lam.Kvs = [] ∧ lam.MemUsed = 0 := by
  obtain ⟨p, hp, hlam⟩ := lambdaAt_eq_some hl
  exact (initWorld_clean h).1 p (List.mem_iff_getElem?.2 ⟨i, hp⟩) |>.2 lam
    (List.mem_iff_getElem?.2 ⟨j, hlam⟩)

/-- The workers after the record loop, from the initial state: the keys of a
worker are pairwise distinct, its `MemUsed` is the sum (as a `uint64`) over its keys
of the share of the record that placed the key, and when all records of a key have
the same size every Object carries the share of that size. -/
theorem mainLoop_memUsed {R : RandSource} (hR : R.Valid) {locate : String → String}
    {opts : Options} (hV : opts.Valid) {gen : Nat} {w0 : World}
    (hinit : initWorld opts gen = some w0) (trace : List Event)
    (hT : TraceOK locate opts trace) :
    ∃ wf, mainLoop R locate opts w0 trace = .done wf ∧ WorldInv opts wf ∧
      Hist R locate opts trace wf ∧
      (∀ i j lam, lambdaAt wf i j = some lam → (kvsKeys lam).Nodup ∧
        lam.MemUsed = u64 (((kvsKeys lam).map
          (fun k => placerSz locate trace i k / toUint64 opts.NumDataShards)).sum)) ∧
      (∀ sz : String → Nat, (∀ e ∈ trace, e.record.Sz = sz e.record.Key) →
        ∀ i j lam, lambdaAt wf i j = some lam → ∀ kv ∈ lam.Kvs,
          kv.2.Sz = sz kv.1 / toUint64 opts.NumDataShards) := by
  obtain ⟨wf, hrun, hWf, hH, hM, hS⟩ := run_induction hR hV
    (fun es w => Hist R locate opts es w ∧
      (∀ i j lam, lambdaAt w i j = some lam → (kvsKeys lam).Nodup ∧
        lam.MemUsed = u64 (((kvsKeys lam).map
          (fun k => placerSz locate es i k / toUint64 opts.NumDataShards)).sum)) ∧
      (∀ sz : String → Nat, (∀ e ∈ es, e.record.Sz = sz e.record.Key) →
        ∀ i j lam, lambdaAt w i j = some lam → ∀ kv ∈ lam.Kvs,
          kv.2.Sz = sz kv.1 / toUint64 opts.NumDataShards))
    (initWorld_inv hV hinit)
    ⟨hist_init hinit,
     fun i j lam hl => by
      obtain ⟨h1, h2⟩ := initWorld_lambdaAt hinit hl
      unfold kvsKeys
      rw [h1, h2]
      exact ⟨List.nodup_nil, rfl⟩,
     fun sz _ i j lam hl kv hkv => by
      rw [(initWorld_lambdaAt hinit hl).1] at hkv
      cases hkv⟩
    (by
      intro es e w w1 i hW hP hi hA hhr hstep hW1
      obtain ⟨hH, hM, hS⟩ := hP
      have hstable : ∀ i2 j lam, lambdaAt w i2 j = some lam →
          (kvsKeys lam).map
            (fun k => placerSz locate (es ++ [e]) i2 k / toUint64 opts.NumDataShards) =
          (kvsKeys lam).map
            (fun k => placerSz locate es i2 k / toUint64 opts.NumDataShards) := by
        intro i2 j lam hl
        apply List.map_congr_left
        intro k hk
        rw [placerSz_snoc_of_mem e (keys_routed hW hH hl hk)]
      refine ⟨hist_snoc hR hV hW hH hi hA hhr hstep, ?_, ?_⟩
      · intro i2 j lam1 hl1
        rcases step_worker hR hV hW hi e.record hhr e.now hstep hl1 with
          h | ⟨rfl, lam, hl, hk, hm, -⟩ | ⟨rfl, hnp, lam, hl, hnk, hk, hm, -⟩
        · obtain ⟨h1, h2⟩ := hM i2 j lam1 h
          exact ⟨h1, by rw [hstable i2 j lam1 h]; exact h2⟩
        · obtain ⟨h1, h2⟩ := hM i2 j lam hl
          exact ⟨by rw [hk]; exact h1, by rw [hk, hm, hstable i2 j lam hl]; exact h2⟩
        · obtain ⟨h1, h2⟩ := hM i2 j lam hl
          constructor
          · rw [hk]
            exact List.Nodup.append h1 (List.nodup_singleton _)
              (fun a ha hb => hnk (by rw [List.mem_singleton] at hb; rw [← hb]; exact ha))
          · rw [hk, hm, h2, List.map_append, List.sum_append, hstable i2 j lam hl,
              List.map_singleton, List.sum_singleton,
              placerSz_snoc_of_not (not_routed_of_fresh hH hnp) (routedKey_of hA)]
            exact u64_add_u64 _ _
      · intro sz hsz i2 j lam1 hl1 kv hkv
        have hsz1 : ∀ e2 ∈ es, e2.record.Sz = sz e2.record.Key :=
          fun e2 he2 => hsz e2 (List.mem_append_left _ he2)
        have hsze : e.record.Sz = sz e.record.Key :=
          hsz e (List.mem_append_right _ (List.mem_singleton_self e))
        rcases step_worker hR hV hW hi e.record hhr e.now hstep hl1 with
          h | ⟨rfl, lam, hl, -, -, hent⟩ | ⟨rfl, -, lam, hl, -, -, -, hent⟩
        · exact hS sz hsz1 i2 j lam1 h kv hkv
        · rcases hent kv hkv with ⟨h1, h2⟩ | h1
          · rw [h2, h1, hsze]
          · exact hS sz hsz1 i2 j lam hl kv h1
        · rcases hent kv hkv with ⟨h1, h2⟩ | h1
          · rw [h2, h1, hsze]
          · exact hS sz hsz1 i2 j lam hl kv h1)
    trace hT
  exact ⟨wf, hrun, hWf, hH, hM, hS⟩

/-- With one size per key, the sum of the shares of the placing records is the sum
of `Object.Sz`. -/
theorem szSum_eq_placers {R : RandSource} {locate : String → String} {opts : Options}
    {trace : List Event} {wf : World} (hW : WorldInv opts wf)
    (hH : Hist R locate opts trace wf) {sz : String → Nat}
    (hsz : ∀ e ∈ trace, e.record.Sz = sz e.record.Key) {i j : Nat} {lam : Lambda}
    (hl : lambdaAt wf i j = some lam)
    (hS : ∀ kv ∈ lam.Kvs, kv.2.Sz = sz kv.1 / toUint64 opts.NumDataShards) :
    ((kvsKeys lam).map
      (fun k => placerSz locate trace i k / toUint64 opts.NumDataShards)).sum = szSum lam := by
  have h1 : (kvsKeys lam).map
      (fun k => placerSz locate trace i k / toUint64 opts.NumDataShards) =
      (kvsKeys lam).map (fun k => sz k / toUint64 opts.NumDataShards) := by
    apply List.map_congr_left
    intro k hk
    obtain ⟨e0, he0, hk0, -, hp⟩ := placerSz_of_mem (keys_routed hW hH hl hk)
    rw [hp, hsz e0 he0, hk0]
  have h2 : lam.Kvs.map (fun kv => kv.2.Sz) =
      lam.Kvs.map (fun kv => sz kv.1 / toUint64 opts.NumDataShards) :=
    List.map_congr_left (fun kv hkv => hS kv hkv)
  rw [h1]
  unfold szSum kvsKeys
  rw [h2, List.map_map]
  rfl

theorem exLongOpts_valid : exLongOpts.Valid := by
  unfold Options.Valid
  decide

theorem exEarlyLate_ok : TraceOK exLocate exLongOpts [exEarly, exLate] := by
  intro e he
  simp only [List.mem_cons, List.mem_singleton, List.not_mem_nil, or_false] at he
  rcases he with h | h <;> subst h <;> exact ⟨⟨0, by decide, by decide⟩, by decide⟩

theorem exLateEarly_ok : TraceOK exLocate exLongOpts [exLate, exEarly] := by
  intro e he
  simp only [List.mem_cons, List.mem_singleton, List.not_mem_nil, or_false] at he
  rcases he with h | h <;> subst h <;> exact ⟨⟨0, by decide, by decide⟩, by decide⟩

/-- C2 (hit conservation). For every proxy state and every record whose key is
already in the proxy's `Map`, `perform` (whether it completes or panics) leaves
the `Map` unchanged, in particular the index sequence stored for the key, leaves
every entry of `memArr` unchanged, and leaves the `MemUsed` of every worker
unchanged. -/
theorem hit_conservation (R : RandSource) (now : Int) (gen : Nat) (p : Proxy) (rec : Record)
    (tl : List (List Int)) (mem : List Int) (opts : Options) (val : List Nat)
    (h : mapLookup rec.Key p.Map = some val) :
    (perform R now gen p rec tl mem opts).1.state.p.Map = p.Map ∧
    mapLookup rec.Key (perform R now gen p rec tl mem opts).1.state.p.Map = some val ∧
    (perform R now gen p rec tl mem opts).1.state.memArr = mem ∧
    (perform R now gen p rec tl mem opts).1.state.p.LambdaPool.map Lambda.MemUsed =
      p.LambdaPool.map Lambda.MemUsed := by
  rw [perform_hit R now gen p rec tl mem opts h]
  have h1 := accessLoop_Id_Map (hitUpd rec opts) none rec.TimestampHr opts val
    { p := p, reuseTimeline := tl, memArr := mem }
  have h2 := accessLoop_memArr_none (hitUpd rec opts) rec.TimestampHr opts val
    { p := p, reuseTimeline := tl, memArr := mem }
  have h3 := accessLoop_MemUsed (hitUpd rec opts) none rec.TimestampHr opts
    (hitUpd_MemUsed rec opts) val { p := p, reuseTimeline := tl, memArr := mem }
  refine ⟨h1.2, ?_, h2, h3⟩
  rw [h1.2]
  exact h

/-- Witness of C2: record B of the worked example hits the placement made by
record A. -/
theorem hit_conservation_witness :
    mapLookup exRecB.Key exStoreA.p.Map = some [0, 1, 2] ∧
    ((perform idRand 7 1 exStoreA.p exRecB exStoreA.reuseTimeline exStoreA.memArr
        exOpts).1.state.p.Map = exStoreA.p.Map ∧
     mapLookup exRecB.Key (perform idRand 7 1 exStoreA.p exRecB exStoreA.reuseTimeline
        exStoreA.memArr exOpts).1.state.p.Map = some [0, 1, 2] ∧
     (perform idRand 7 1 exStoreA.p exRecB exStoreA.reuseTimeline exStoreA.memArr
        exOpts).1.state.memArr = exStoreA.memArr ∧
     (perform idRand 7 1 exStoreA.p exRecB exStoreA.reuseTimeline exStoreA.memArr
        exOpts).1.state.p.LambdaPool.map Lambda.MemUsed =
      exStoreA.p.LambdaPool.map Lambda.MemUsed) :=
  ⟨by decide, hit_conservation idRand 7 1 exStoreA.p exRecB exStoreA.reuseTimeline
    exStoreA.memArr exOpts [0, 1, 2] (by decide)⟩

/-- C5 (memory observation window). For every state and every record with
`TimestampHr >= 100`, `perform` (hit or miss, completing or not) leaves `memArr`
unchanged; `memArr` can change only on the miss path and only for a record with
`TimestampHr < 100`. -/
theorem memory_window (R : RandSource) (now : Int) (gen : Nat) (p : Proxy) (rec : Record)
    (tl : List (List Int)) (mem : List Int) (opts : Options) :
    (100 ≤ rec.TimestampHr → (perform R now gen p rec tl mem opts).1.state.memArr = mem) ∧
    ((perform R now gen p rec tl mem opts).1.state.memArr ≠ mem →
      mapLookup rec.Key p.Map = none ∧ rec.TimestampHr < 100) := by
  have key : (mapLookup rec.Key p.Map ≠ none ∨ 100 ≤ rec.TimestampHr) →
      (perform R now gen p rec tl mem opts).1.state.memArr = mem := by
    intro hc
    rcases perform_cases R now gen p rec tl mem opts with
      ⟨val, hv, he⟩ | ⟨hn, he⟩ | ⟨index, g, hn, hr, he⟩
    · rw [he]
      exact accessLoop_memArr_none (hitUpd rec opts) rec.TimestampHr opts val _
    · rw [he]
      rfl
    · rcases hc with hc | hc
      · exact absurd hn hc
      · rw [he]
        have hd : missDelta rec = none := by
          unfold missDelta
          have : ¬ rec.TimestampHr ≤ 99 := by omega
          simp [this]
        rw [hd]
        exact accessLoop_memArr_none (missUpd rec opts) rec.TimestampHr opts index _
  refine ⟨fun h => key (Or.inr h), ?_⟩
  intro hne
  by_contra hcon
  apply hne
  apply key
  by_cases h1 : mapLookup rec.Key p.Map = none
  · right
    by_contra h2
    exact hcon ⟨h1, by omega⟩
  · exact Or.inl h1

/-- Witness of C5: a first access in bucket 100 leaves `memArr` as it was, while
the same access pattern in bucket 0 changes it. -/
theorem memory_window_witness :
    (perform idRand 0 0 exProxy0 exRecLate (List.replicate 4 (List.replicate 101 0)) exMem0
      exOpts).1.state.memArr = exMem0 ∧
    (perform idRand 0 0 exProxy0 exRecBig exTimeline0 exMem0 exOpts).1.state.memArr ≠ exMem0 ∧
    mapLookup exRecBig.Key exProxy0.Map = none ∧ exRecBig.TimestampHr < 100 :=
  ⟨(memory_window idRand 0 0 exProxy0 exRecLate (List.replicate 4 (List.replicate 101 0))
      exMem0 exOpts).1 (by decide),
   by decide,
   (memory_window idRand 0 0 exProxy0 exRecBig exTimeline0 exMem0 exOpts).2 (by decide)⟩

/-- C1 (placement cardinality). Let `random` return the first
`dataShards + parityShards` entries of a permutation of `[0, NumLambdasPerProxy)`
and let `0 <= dataShards + parityShards <= NumLambdasPerProxy` (a Go `int`). Then
for every proxy state and every record whose key is not in the proxy's `Map`,
after `perform` the entry `Map[rec.Key]` has exactly `dataShards + parityShards`
worker indices, pairwise distinct, each in `[0, NumLambdasPerProxy)`; hence in
every state reachable from the initial one every key in every proxy's `Map` has
this shape. -/
theorem placement_cardinality (R : RandSource) (opts : Options) (hR : R.Valid)
    (h0 : 0 ≤ opts.NumDataShards + opts.NumParityShards)
    (h1 : opts.NumDataShards + opts.NumParityShards ≤ opts.NumLambdasPerProxy)
    (h2 : opts.NumLambdasPerProxy < 9223372036854775808) :
    (∀ (now : Int) (gen : Nat) (p : Proxy) (rec : Record) (tl : List (List Int))
        (mem : List Int), mapLookup rec.Key p.Map = none →
      ∃ idxs, mapLookup rec.Key (perform R now gen p rec tl mem opts).1.state.p.Map = some idxs ∧
        (idxs.length : Int) = opts.NumDataShards + opts.NumParityShards ∧ idxs.Nodup ∧
        ∀ i ∈ idxs, (i : Int) < opts.NumLambdasPerProxy) ∧
    (∀ w, Reachable R opts w → ∀ p ∈ w.proxies, ∀ k idxs, mapLookup k p.Map = some idxs →
      (idxs.length : Int) = opts.NumDataShards + opts.NumParityShards ∧ idxs.Nodup ∧
        ∀ i ∈ idxs, (i : Int) < opts.NumLambdasPerProxy) := by
  have h3 : opts.NumDataShards + opts.NumParityShards < 9223372036854775808 := by omega
  constructor
  · intro now gen p rec tl mem hn
    have hw : wrapInt (opts.NumDataShards + opts.NumParityShards) =
        opts.NumDataShards + opts.NumParityShards := wrapInt_of_range (by omega) h3
    obtain ⟨index, g, hr⟩ := random_of_valid hR now gen
      (show 0 ≤ wrapInt (opts.NumDataShards + opts.NumParityShards) by rw [hw]; exact h0)
      (show wrapInt (opts.NumDataShards + opts.NumParityShards) ≤ opts.NumLambdasPerProxy by
        rw [hw]; exact h1)
    have hperf := perform_miss R now gen p rec tl mem opts hn hr
    have hm := (accessLoop_Id_Map (missUpd rec opts) (missDelta rec) rec.TimestampHr opts
      index { p := { Id := p.Id, LambdaPool := p.LambdaPool
                     Map := mapInsert rec.Key index p.Map }
              reuseTimeline := tl, memArr := mem }).2
    have hmap : (perform R now gen p rec tl mem opts).1.state.p.Map =
        mapInsert rec.Key index p.Map := by
      rw [hperf]
      exact hm
    refine ⟨index, ?_, random_placementShape hR h0 h3 hr⟩
    rw [hmap]
    exact mapLookup_mapInsert_self _ _ _
  · intro w hw p hp k idxs hk
    exact reachable_shape hR h0 h3 hw p hp k idxs hk

/-- Witness of C1: the worked example, at its first record and in the state
reached after it. -/
theorem placement_cardinality_witness :
    idRand.Valid ∧ 0 ≤ exOpts.NumDataShards + exOpts.NumParityShards ∧
    exOpts.NumDataShards + exOpts.NumParityShards ≤ exOpts.NumLambdasPerProxy ∧
    exOpts.NumLambdasPerProxy < 9223372036854775808 ∧
    (∃ idxs, mapLookup exRecA.Key
        (perform idRand 0 0 exProxy0 exRecA exTimeline0 exMem0 exOpts).1.state.p.Map =
          some idxs ∧
      (idxs.length : Int) = exOpts.NumDataShards + exOpts.NumParityShards ∧ idxs.Nodup ∧
      ∀ i ∈ idxs, (i : Int) < exOpts.NumLambdasPerProxy) ∧
    (((([0, 1, 2] : List Nat).length : Int) = exOpts.NumDataShards + exOpts.NumParityShards) ∧
      ([0, 1, 2] : List Nat).Nodup ∧
      ∀ i ∈ ([0, 1, 2] : List Nat), (i : Int) < exOpts.NumLambdasPerProxy) :=
  ⟨idRand_valid, by decide, by decide, by decide,
   (placement_cardinality idRand exOpts idRand_valid (by decide) (by decide) (by decide)).1
      0 0 exProxy0 exRecA exTimeline0 exMem0 (by decide),
   (placement_cardinality idRand exOpts idRand_valid (by decide) (by decide) (by decide)).2
      exWorldA
      (Reachable.call exWorld0 exWorldA 0 exRecA 0 (Reachable.init 0 exWorld0 (by decide))
        (by decide))
      exStoreA.p (by decide) "k1" [0, 1, 2] (by decide)⟩

/-- C8 (placement-index consistency). In every state reachable from the initial
one by calls of `perform` that return, for every proxy, every key `k` in the
proxy's `Map` and every index `i` in `Map[k]`, the worker `LambdaPool[i]` exists
and its `Kvs` has an Object under `k` whose `Key` field is `k`; so the hit path
finds the Object it dereferences. No assumption on the options is needed. -/
theorem placement_index_consistency (R : RandSource) (opts : Options) (w : World)
    (hw : Reachable R opts w) :
    ∀ p ∈ w.proxies, ∀ k idxs, mapLookup k p.Map = some idxs → ∀ i ∈ idxs,
      ∃ lam obj, p.LambdaPool[i]? = some lam ∧ mapLookup k lam.Kvs = some obj ∧ obj.Key = k :=
  fun p hp k idxs hk i hi => reachable_hasObj hw p hp k idxs hk i hi

/-- Witness of C8: the state of the worked example after record A, worker 2. -/
theorem placement_index_consistency_witness :
    Reachable idRand exOpts exWorldA ∧
    ∃ lam obj, exStoreA.p.LambdaPool[2]? = some lam ∧ mapLookup "k1" lam.Kvs = some obj ∧
      obj.Key = "k1" :=
  ⟨exWorldA_reachable,
   placement_index_consistency idRand exOpts exWorldA exWorldA_reachable exStoreA.p (by decide)
    "k1" [0, 1, 2] (by decide) 2 (by decide)⟩

/-- Counterexample to C6 as stated. A first access of 4 MiB with two data shards
adds 2097152 (bytes, no MiB conversion) to `MemUsed` of worker 0 and 4 (the whole
record in MiB, not divided by the data shards) to `memArr[0]`: the two amounts
differ, and neither is `Size / dataShards` in MiB, which is 2. -/
theorem miss_memory_amount_counterexample :
    mapLookup exRecBig.Key exProxy0.Map = none ∧
    (perform idRand 0 0 exProxy0 exRecBig exTimeline0 exMem0 exOpts).1 = .done exStoreBig ∧
    exRecBig.Sz / toUint64 exOpts.NumDataShards / 1048576 = 2 ∧
    exStoreBig.p.LambdaPool.map Lambda.MemUsed = [2097152, 2097152, 2097152, 0] ∧
    exStoreBig.memArr = [4, 4, 4, 0] ∧
    ¬ ((exStoreBig.p.LambdaPool[0]?).map Lambda.MemUsed =
          some (0 + exRecBig.Sz / toUint64 exOpts.NumDataShards / 1048576) ∧
       exStoreBig.memArr[0]? =
          some (0 + ((exRecBig.Sz / toUint64 exOpts.NumDataShards / 1048576 : Nat) : Int))) := by
  decide

/-- C6 as amended (miss-path memory amounts). On a miss-path `perform` that
returns, with `rand.Perm` returning a permutation and the proxy's global indices
fitting a Go `int`, for each selected worker index `idx`: `rec.Sz / dataShards`
(integer division, in bytes) is added to that worker's `MemUsed` (as a `uint64`);
when `TimestampHr <= 99`, `int(rec.Sz) / 1048576` (the whole record size in MiB,
not divided by the data shards) is added to
`memArr[proxyIdx*NumLambdasPerProxy + idx]` (as an `int`); and when
`TimestampHr > 99`, `memArr` is unchanged. -/
theorem miss_memory_amount (R : RandSource) (hR : R.Valid) (now : Int) (gen : Nat) (p : Proxy)
    (rec : Record) (tl : List (List Int)) (mem : List Int) (opts : Options) (st : Store)
    (hn : mapLookup rec.Key p.Map = none)
    (h : (perform R now gen p rec tl mem opts).1 = .done st)
    (h0 : 0 ≤ Atoi p.Id * opts.NumLambdasPerProxy)
    (h1 : Atoi p.Id * opts.NumLambdasPerProxy + opts.NumLambdasPerProxy <
      9223372036854775808) :
    ∃ index, mapLookup rec.Key st.p.Map = some index ∧
      (∀ idx ∈ index,
        (∃ lam lam1, p.LambdaPool[idx]? = some lam ∧ st.p.LambdaPool[idx]? = some lam1 ∧
          lam1.MemUsed = u64 (lam.MemUsed + rec.Sz / toUint64 opts.NumDataShards)) ∧
        (rec.TimestampHr ≤ 99 → ∃ c,
          mem[(Atoi p.Id * opts.NumLambdasPerProxy + (idx : Int)).toNat]? = some c ∧
          st.memArr[(Atoi p.Id * opts.NumLambdasPerProxy + (idx : Int)).toNat]? =
            some (wrapInt (c + Int.tdiv (wrapInt (rec.Sz : Int)) 1048576)))) ∧
      (99 < rec.TimestampHr → st.memArr = mem) := by
  obtain ⟨index, g, -, hmap, -, -, heff⟩ :=
    perform_miss_effect hR hn h h0 (fun idx hidx => lambdaIdx_eq_base h0 h1 hidx)
  obtain ⟨-, -, hpool, -, -, hnone, hsome⟩ := heff
  refine ⟨index, by rw [hmap]; exact mapLookup_mapInsert_self _ _ _, ?_, ?_⟩
  · intro idx hidx
    constructor
    · obtain ⟨lam, lam1, hl, hu, hl1⟩ := hpool idx hidx
      obtain ⟨-, hlam1⟩ := missUpd_eq_some hu
      exact ⟨lam, lam1, hl, hl1, by rw [hlam1]⟩
    · intro hhr
      have hd : missDelta rec = some (Int.tdiv (wrapInt (rec.Sz : Int)) 1048576) := by
        unfold missDelta
        simp [hhr]
      exact hsome _ hd idx hidx
  · intro hhr
    have hd : missDelta rec = none := by
      unfold missDelta
      have : ¬ rec.TimestampHr ≤ 99 := by omega
      simp [this]
    exact hnone hd

/-- Witness of amended C6: the first access of 4 MiB of the worked example. -/
theorem miss_memory_amount_witness :
    idRand.Valid ∧ mapLookup exRecBig.Key exProxy0.Map = none ∧
    (perform idRand 0 0 exProxy0 exRecBig exTimeline0 exMem0 exOpts).1 = .done exStoreBig ∧
    0 ≤ Atoi exProxy0.Id * exOpts.NumLambdasPerProxy ∧
    Atoi exProxy0.Id * exOpts.NumLambdasPerProxy + exOpts.NumLambdasPerProxy <
      9223372036854775808 ∧
    ∃ index, mapLookup exRecBig.Key exStoreBig.p.Map = some index ∧
      (∀ idx ∈ index,
        (∃ lam lam1, exProxy0.LambdaPool[idx]? = some lam ∧
          exStoreBig.p.LambdaPool[idx]? = some lam1 ∧
          lam1.MemUsed = u64 (lam.MemUsed + exRecBig.Sz / toUint64 exOpts.NumDataShards)) ∧
        (exRecBig.TimestampHr ≤ 99 → ∃ c,
          exMem0[(Atoi exProxy0.Id * exOpts.NumLambdasPerProxy + (idx : Int)).toNat]? = some c ∧
          exStoreBig.memArr[(Atoi exProxy0.Id * exOpts.NumLambdasPerProxy +
              (idx : Int)).toNat]? =
            some (wrapInt (c + Int.tdiv (wrapInt (exRecBig.Sz : Int)) 1048576)))) ∧
      (99 < exRecBig.TimestampHr → exStoreBig.memArr = exMem0) :=
  ⟨idRand_valid, by decide, by decide, by decide, by decide,
   miss_memory_amount idRand idRand_valid 0 0 exProxy0 exRecBig exTimeline0 exMem0 exOpts
    exStoreBig (by decide) (by decide) (by decide) (by decide)⟩

/-- Counterexample to C10 as stated. With three shards for a pool of two workers
and an empty trace, the run does not fail: the record loop ends at once and the
simulation completes. -/
theorem shard_count_exceeding_pool_counterexample :
    exBadOpts.NumLambdasPerProxy < exBadOpts.NumDataShards + exBadOpts.NumParityShards ∧
    (simulate idRand exLocate exBadOpts 0 []).map Outcome.isDone = some true := by
  decide

/-- C10 as amended (shard count exceeding pool size). Let the shard counts be Go
`int`s with `dataShards + parityShards > NumLambdasPerProxy`, let there be at
least one proxy, and let the set-up of `main` succeed. Then a run on a trace with at least one record fails with a
panic while its first record is performed, and at the point of failure the
proxies and the two accumulators are exactly as initialised: every `Map` and
every `Kvs` is empty, every `MemUsed` is 0, `reuseTimeline` and `memArr` are all
zero. On the empty trace the run completes without error. -/
theorem shard_count_exceeding_pool (R : RandSource) (hR : R.Valid) (locate : String → String)
    (opts : Options) (gen : Nat) (w0 : World) (hinit : initWorld opts gen = some w0)
    (hprox : 1 ≤ opts.NumProxies)
    (hd : opts.NumDataShards < 9223372036854775808)
    (hp : opts.NumParityShards < 9223372036854775808)
    (hbig : opts.NumLambdasPerProxy < opts.NumDataShards + opts.NumParityShards) :
    simulate R locate opts gen [] = some (.done w0) ∧
    ∀ (e : Event) (es : List Event),
      ∃ wc, simulate R locate opts gen (e :: es) = some (.crash wc) ∧
        wc.proxies = w0.proxies ∧ wc.reuseTimeline = w0.reuseTimeline ∧
        wc.memArr = w0.memArr ∧
        (∀ p ∈ wc.proxies, p.Map = [] ∧ ∀ lam ∈ p.LambdaPool, lam.Kvs = [] ∧ lam.MemUsed = 0) ∧
        (∀ row ∈ wc.reuseTimeline, ∀ c ∈ row, c = 0) ∧ (∀ c ∈ wc.memArr, c = 0) := by
  obtain ⟨hclean1, hclean2, hclean3⟩ := initWorld_clean hinit
  constructor
  · simp [simulate, hinit, mainLoop]
  · intro e es
    have hrand : (random R e.now w0.gen opts.NumLambdasPerProxy
        (wrapInt (opts.NumDataShards + opts.NumParityShards))).1 = none := by
      apply random_none hR
      by_cases hn : opts.NumLambdasPerProxy < 0
      · exact Or.inl hn
      · right
        unfold wrapInt
        omega
    have hempty : ∀ p ∈ w0.proxies, mapLookup e.record.Key p.Map = none := by
      intro p hp
      rw [(hclean1 p hp).1]
      rfl
    obtain ⟨wc, hstep, h1, h2, h3⟩ :=
      @step_crash_of_random_none R opts w0 (Atoi (locate e.record.Key)) e.record e.now hempty hrand
    refine ⟨wc, ?_, h1, h2, h3, ?_, ?_, ?_⟩
    · simp only [simulate, hinit]
      rw [mainLoop_cons_crash es hstep]
    · rw [h1]; exact hclean1
    · rw [h2]; exact hclean2
    · rw [h3]; exact hclean3

/-- Witness of amended C10: three shards for a pool of two workers, one record. -/
theorem shard_count_exceeding_pool_witness :
    idRand.Valid ∧
    initWorld exBadOpts 0 = some exBadWorld0 ∧
    1 ≤ exBadOpts.NumProxies ∧
    exBadOpts.NumDataShards < 9223372036854775808 ∧
    exBadOpts.NumParityShards < 9223372036854775808 ∧
    exBadOpts.NumLambdasPerProxy < exBadOpts.NumDataShards + exBadOpts.NumParityShards ∧
    ∃ wc, simulate idRand exLocate exBadOpts 0 [{ record := exRecA, now := 0 }] =
        some (.crash wc) ∧
      wc.proxies = exBadWorld0.proxies ∧
      wc.reuseTimeline = exBadWorld0.reuseTimeline ∧ wc.memArr = exBadWorld0.memArr ∧
      (∀ p ∈ wc.proxies, p.Map = [] ∧ ∀ lam ∈ p.LambdaPool, lam.Kvs = [] ∧ lam.MemUsed = 0) ∧
      (∀ row ∈ wc.reuseTimeline, ∀ c ∈ row, c = 0) ∧ (∀ c ∈ wc.memArr, c = 0) :=
  ⟨idRand_valid, by decide, by decide, by decide, by decide, by decide,
   (shard_count_exceeding_pool idRand idRand_valid exLocate exBadOpts 0 exBadWorld0 (by decide)
      (by decide) (by decide) (by decide) (by decide)).2 { record := exRecA, now := 0 } []⟩

/-- C9 (no cross-proxy mutation). Let proxy number `i` carry the id `Itoa i`, as
`initProxies` builds it, let its `Map` satisfy the placement-cardinality
invariant, let `rand.Perm` return a permutation, and let the global indices of
the proxy fit a Go `int`. Then a call `perform(proxies[i], rec, ...)`, whatever
its outcome, (1) changes no other proxy, (2) changes `reuseTimeline` rows and
`memArr` entries only at global indices `i*NumLambdasPerProxy + idx` with `idx`
in the key's shard set, (3) all of which lie in
`[i*NumLambdasPerProxy, (i+1)*NumLambdasPerProxy)`, and (4) that range is
disjoint from the range of every other proxy. -/
theorem no_cross_proxy_mutation (R : RandSource) (hR : R.Valid) (opts : Options) (w : World)
    (i : Nat) (p : Proxy) (rec : Record) (now : Int)
    (hp : w.proxies[i]? = some p) (hId : p.Id = Itoa (i : Int))
    (hshape : ∀ k idxs, mapLookup k p.Map = some idxs → PlacementShape opts idxs)
    (hn0 : 0 ≤ opts.NumLambdasPerProxy)
    (hfit : ((i : Int) + 1) * opts.NumLambdasPerProxy < 9223372036854775808) :
    (∀ j, j ≠ i → (step R opts w (i : Int) rec now).state.proxies[j]? = w.proxies[j]?) ∧
    (∀ g : Nat,
      ((step R opts w (i : Int) rec now).state.reuseTimeline[g]? ≠ w.reuseTimeline[g]? ∨
       (step R opts w (i : Int) rec now).state.memArr[g]? ≠ w.memArr[g]?) →
      ∃ idx ∈ shardSet (step R opts w (i : Int) rec now).state i rec.Key,
        (g : Int) = (i : Int) * opts.NumLambdasPerProxy + (idx : Int)) ∧
    (∀ idx ∈ shardSet (step R opts w (i : Int) rec now).state i rec.Key,
      (i : Int) * opts.NumLambdasPerProxy ≤ (i : Int) * opts.NumLambdasPerProxy + (idx : Int) ∧
      (i : Int) * opts.NumLambdasPerProxy + (idx : Int) <
        ((i : Int) + 1) * opts.NumLambdasPerProxy) ∧
    (∀ j : Nat, j ≠ i → ∀ a b : Int, 0 ≤ a → a < opts.NumLambdasPerProxy → 0 ≤ b →
      b < opts.NumLambdasPerProxy →
      (i : Int) * opts.NumLambdasPerProxy + a ≠ (j : Int) * opts.NumLambdasPerProxy + b) := by
  have hlt : i < w.proxies.length := (List.getElem?_eq_some.1 hp).1
  rcases step_state R opts w (i : Int) rec now with ⟨hnone, -⟩ | ⟨p0, -, hp0, hstate, -⟩
  · exfalso
    rw [indexInt_natCast, hp] at hnone
    cases hnone
  · simp only [Int.toNat_ofNat] at hp0 hstate
    rw [hp] at hp0
    cases hp0
    have hshard : shardSet (step R opts w (i : Int) rec now).state i rec.Key =
        (mapLookup rec.Key
          (perform R now w.gen p rec w.reuseTimeline w.memArr opts).1.state.p.Map).getD [] := by
      unfold shardSet
      rw [hstate]
      simp only [List.getElem?_set_self hlt]
    have hrange := perform_shard_range hR now w.gen p rec w.reuseTimeline w.memArr opts
      (fun k idxs hk => (hshape k idxs hk).2.2)
    refine ⟨?_, ?_, ?_, ?_⟩
    · intro j hj
      rw [hstate]
      simp only [List.getElem?_set_ne (Ne.symm hj)]
    · intro g hg
      by_contra hcon
      have hfree : ∀ idx ∈ (mapLookup rec.Key
          (perform R now w.gen p rec w.reuseTimeline w.memArr opts).1.state.p.Map).getD [],
          lambdaIdx p opts idx ≠ (g : Int) := by
        intro idx hidx e
        apply hcon
        refine ⟨idx, by rw [hshard]; exact hidx, ?_⟩
        rw [← e]
        exact lambdaIdx_of_Itoa hId hn0 hfit (hrange idx hidx)
      have hfr := perform_frame R now w.gen p rec w.reuseTimeline w.memArr opts g hfree
      rw [hstate] at hg
      simp only at hg
      rcases hg with h | h
      · exact h hfr.1
      · exact h hfr.2
    · intro idx hidx
      rw [hshard] at hidx
      have h1 := hrange idx hidx
      have h2 : ((i : Int) + 1) * opts.NumLambdasPerProxy =
          (i : Int) * opts.NumLambdasPerProxy + opts.NumLambdasPerProxy := by ring
      omega
    · intro j hj a b ha0 ha hb0 hb
      exact ranges_disjoint hj ha0 ha hb0 hb

/-- Witness of C9: record B of the worked example, performed on the state after
record A. -/
theorem no_cross_proxy_mutation_witness :
    idRand.Valid ∧ exWorldA.proxies[0]? = some exStoreA.p ∧ exStoreA.p.Id = Itoa ((0 : Nat) : Int) ∧
    (∀ k idxs, mapLookup k exStoreA.p.Map = some idxs → PlacementShape exOpts idxs) ∧
    0 ≤ exOpts.NumLambdasPerProxy ∧
    (((0 : Nat) : Int) + 1) * exOpts.NumLambdasPerProxy < 9223372036854775808 ∧
    ∀ g : Nat,
      ((step idRand exOpts exWorldA ((0 : Nat) : Int) exRecB 1).state.reuseTimeline[g]? ≠
          exWorldA.reuseTimeline[g]? ∨
       (step idRand exOpts exWorldA ((0 : Nat) : Int) exRecB 1).state.memArr[g]? ≠
          exWorldA.memArr[g]?) →
      ∃ idx ∈ shardSet (step idRand exOpts exWorldA ((0 : Nat) : Int) exRecB 1).state 0
          exRecB.Key,
        (g : Int) = ((0 : Nat) : Int) * exOpts.NumLambdasPerProxy + (idx : Int) :=
  ⟨idRand_valid, by decide, by decide,
   (placement_shape_exStoreA), by decide, by decide,
   (no_cross_proxy_mutation idRand idRand_valid exOpts exWorldA 0 exStoreA.p exRecB 1
      (by decide) (by decide) placement_shape_exStoreA (by decide) (by decide)).2.1⟩

/-- C3 (frequency accounting). With `rand.Perm` returning a permutation:
(a) a miss-path `perform` that returns has created the key's Object on every
selected worker with `Freq = 0`;
(b) a hit-path `perform` that returns, on a duplicate-free shard set, has
increased the `Freq` of the key's Object on every stored shard worker by exactly
1 (as a `uint64`) and has changed no other Object;
(c) consequently, for every valid configuration and every trace (shorter than
2^64) whose records are routed to existing proxies and fall inside the timeline,
the run completes and the `Freq` of every Object for key `k` equals the number of
records with key `k` routed to that proxy minus one. -/
theorem frequency_accounting (R : RandSource) (hR : R.Valid) (opts : Options) :
    (∀ (now : Int) (gen : Nat) (p : Proxy) (rec : Record) (tl : List (List Int))
        (mem : List Int) (st : Store), mapLookup rec.Key p.Map = none →
      (perform R now gen p rec tl mem opts).1 = .done st →
      ∃ shard, mapLookup rec.Key st.p.Map = some shard ∧ ∀ j ∈ shard, ∃ lam obj,
        st.p.LambdaPool[j]? = some lam ∧ mapLookup rec.Key lam.Kvs = some obj ∧
        obj.Freq = 0) ∧
    (∀ (now : Int) (gen : Nat) (p : Proxy) (rec : Record) (tl : List (List Int))
        (mem : List Int) (st : Store) (shard : List Nat),
      mapLookup rec.Key p.Map = some shard → shard.Nodup →
      (perform R now gen p rec tl mem opts).1 = .done st →
      (∀ j ∈ shard, ∃ lam obj lam1 obj1, p.LambdaPool[j]? = some lam ∧
        mapLookup rec.Key lam.Kvs = some obj ∧ st.p.LambdaPool[j]? = some lam1 ∧
        mapLookup rec.Key lam1.Kvs = some obj1 ∧ obj1.Freq = u64 (obj.Freq + 1) ∧
        (obj.Freq + 1 < 18446744073709551616 → obj1.Freq = obj.Freq + 1)) ∧
      (∀ (j : Nat) (k : String), (j ∉ shard ∨ k ≠ rec.Key) →
        (st.p.LambdaPool[j]?).bind (fun lam => mapLookup k lam.Kvs) =
          (p.LambdaPool[j]?).bind (fun lam => mapLookup k lam.Kvs))) ∧
    (∀ (locate : String → String) (gen : Nat) (trace : List Event), opts.Valid →
      TraceOK locate opts trace → trace.length < 18446744073709551616 →
      ∃ wf, simulate R locate opts gen trace = some (.done wf) ∧
        ∀ (i j : Nat) (k : String) (obj : Object), objectAt wf i j k = some obj →
          obj.Freq + 1 = trace.countP (routedKey locate i k)) := by
  refine ⟨?_, ?_, ?_⟩
  · intro now gen p rec tl mem st hn h
    obtain ⟨shard, hs, hobj⟩ := perform_miss_objects hR hn h
    refine ⟨shard, hs, ?_⟩
    intro j hj
    obtain ⟨lam, obj, hl, ho, he⟩ := hobj j hj
    exact ⟨lam, obj, hl, ho, by rw [he]⟩
  · intro now gen p rec tl mem st shard hv hnd h
    obtain ⟨h1, h2⟩ := perform_hit_objects hv hnd h
    refine ⟨?_, h2⟩
    intro j hj
    obtain ⟨lam, obj, lam1, obj1, a1, a2, a3, a4, a5⟩ := h1 j hj
    refine ⟨lam, obj, lam1, obj1, a1, a2, a3, a4, a5, ?_⟩
    intro hlt
    rw [a5]
    exact u64_of_lt hlt
  · intro locate gen trace hV hT hlen
    obtain ⟨w0, hinit⟩ := initWorld_of_valid hV gen
    obtain ⟨wf, hloop, -, -, hfreq⟩ :=
      mainLoop_freq hR hV trace w0 (initWorld_inv hV hinit) hT
    refine ⟨wf, by rw [simulate_of_init hinit, hloop], ?_⟩
    intro i j k obj ho
    obtain ⟨hc, hf⟩ := (hfreq i j k obj ho).2 (initWorld_objectAt hinit i j k)
    rw [hf]
    have := List.countP_le_length (routedKey locate i k) (l := trace)
    unfold u64
    omega

/-- Witness of C3: the two records of the worked example. -/
theorem frequency_accounting_witness :
    idRand.Valid ∧ exOpts.Valid ∧
    TraceOK exLocate exOpts
      [{ record := exRecA, now := 0 }, { record := exRecB, now := 1 }] ∧
    ∃ wf, simulate idRand exLocate exOpts 0
        [{ record := exRecA, now := 0 }, { record := exRecB, now := 1 }] = some (.done wf) ∧
      ∀ (i j : Nat) (k : String) (obj : Object), objectAt wf i j k = some obj →
        obj.Freq + 1 =
          ([{ record := exRecA, now := 0 }, { record := exRecB, now := 1 }] : List Event).countP
            (routedKey exLocate i k) :=
  ⟨idRand_valid, exOpts_valid, exTrace_ok,
   (frequency_accounting idRand idRand_valid exOpts).2.2 exLocate 0
    [{ record := exRecA, now := 0 }, { record := exRecB, now := 1 }] exOpts_valid exTrace_ok
    (by decide)⟩

/-- C4 (timeline totals). Starting from the all-zero matrix of `initTimeline` and
the empty proxies of `initProxies`, for every valid configuration and every trace
(shorter than 2^63) whose records are routed to existing proxies and all have
`TimestampHr < NumHours`, the run completes and, for every global worker index
`g`, the sum over all buckets of the final `reuseTimeline[g]` equals the number
of records routed to the proxy of `g` whose key's stored shard set contains the
local index of `g`. -/
theorem timeline_totals (R : RandSource) (hR : R.Valid) (locate : String → String)
    (opts : Options) (hV : opts.Valid) (gen : Nat) (trace : List Event)
    (hT : TraceOK locate opts trace) (hlen : trace.length < 9223372036854775808) :
    ∃ wf, simulate R locate opts gen trace = some (.done wf) ∧
      ∀ g : Nat, rowSum wf.reuseTimeline g =
        ((trace.countP (accessedBy locate opts wf g) : Nat) : Int) := by
  obtain ⟨w0, hinit⟩ := initWorld_of_valid hV gen
  obtain ⟨hnn, hzero⟩ := initWorld_rowSum hinit
  obtain ⟨wf, hloop, -, -, -, hsum⟩ :=
    mainLoop_rowSum hR hV trace w0 (initWorld_inv hV hinit) hT hnn
      (fun g => by rw [hzero g]; omega)
  refine ⟨wf, by rw [simulate_of_init hinit, hloop], ?_⟩
  intro g
  rw [hsum g, hzero g, zero_add]

/-- Witness of C4: the two records of the worked example. -/
theorem timeline_totals_witness :
    idRand.Valid ∧ exOpts.Valid ∧
    TraceOK exLocate exOpts
      [{ record := exRecA, now := 0 }, { record := exRecB, now := 1 }] ∧
    ∃ wf, simulate idRand exLocate exOpts 0
        [{ record := exRecA, now := 0 }, { record := exRecB, now := 1 }] = some (.done wf) ∧
      ∀ g : Nat, rowSum wf.reuseTimeline g =
        ((([{ record := exRecA, now := 0 }, { record := exRecB, now := 1 }] :
            List Event).countP (accessedBy exLocate exOpts wf g) : Nat) : Int) :=
  ⟨idRand_valid, exOpts_valid, exTrace_ok,
   timeline_totals idRand idRand_valid exLocate exOpts exOpts_valid 0
    [{ record := exRecA, now := 0 }, { record := exRecB, now := 1 }] exTrace_ok (by decide)⟩

/-- C7 (two-record scenario). One proxy, four workers, two data shards, one
parity shard, two hour buckets, and any placement `rand.Perm` can return. After
record A (key "k1", size 300, hour 0) exactly the three workers of the shard set
hold an Object "k1", with `Sz = 150` and `Freq = 0`, and `reuseTimeline[w][0]` is
1 for exactly those workers; after record B (same key and size, hour 1) the same
workers' Objects have `Freq = 1`, `reuseTimeline[w][1] = 1` for them, and `memArr`
is unchanged. With size 300*1048576 instead, `memArr` after A is 300 for the
three workers and 0 for the fourth, and B leaves it unchanged. -/
theorem two_record_scenario (R : RandSource) (hR : R.Valid) (locate : String → String)
    (hloc : Atoi (locate "k1") = 0) (gen : Nat) (nowA nowB : Int) :
    (∃ (shard : List Nat) (wA wB : World), shard.length = 3 ∧ shard.Nodup ∧
      (∀ j ∈ shard, j < 4) ∧
      simulate R locate exOpts gen [{ record := scenRecA 300, now := nowA }] =
        some (.done wA) ∧
      (∀ j, objectAt wA 0 j "k1" =
        if j ∈ shard then some { Key := "k1", Sz := 150, Freq := 0 } else none) ∧
      (∀ j, j < 4 → cell wA.reuseTimeline j 0 = if j ∈ shard then 1 else 0) ∧
      simulate R locate exOpts gen
        [{ record := scenRecA 300, now := nowA }, { record := scenRecB 300, now := nowB }] =
          some (.done wB) ∧
      (∀ j ∈ shard, objectAt wB 0 j "k1" = some { Key := "k1", Sz := 150, Freq := 1 }) ∧
      (∀ j ∈ shard, cell wB.reuseTimeline j 1 = 1) ∧
      wB.memArr = wA.memArr) ∧
    (∃ (shard : List Nat) (wA wB : World), shard.length = 3 ∧ shard.Nodup ∧
      (∀ j ∈ shard, j < 4) ∧
      simulate R locate exOpts gen [{ record := scenRecA 314572800, now := nowA }] =
        some (.done wA) ∧
      (∀ j, j < 4 → wA.memArr[j]? = some (if j ∈ shard then 300 else 0)) ∧
      simulate R locate exOpts gen
        [{ record := scenRecA 314572800, now := nowA },
         { record := scenRecB 314572800, now := nowB }] = some (.done wB) ∧
      wB.memArr = wA.memArr) := by
  constructor
  · obtain ⟨shard, wA, wB, h1, h2, h3, h4, h5, h6, -, h8, h9, h10, h11⟩ :=
      scenario_general hR hloc gen nowA nowB 300
    exact ⟨shard, wA, wB, h1, h2, h3, h4, h5, h6, h8, h9, h10, h11⟩
  · obtain ⟨shard, wA, wB, h1, h2, h3, h4, -, -, h7, h8, -, -, h11⟩ :=
      scenario_general hR hloc gen nowA nowB 314572800
    have hv : wrapInt (0 + Int.tdiv (wrapInt ((314572800 : Nat) : Int)) 1048576) = 300 := by
      decide
    rw [hv] at h7
    exact ⟨shard, wA, wB, h1, h2, h3, h4, h7, h8, h11⟩

/-- Witness of C7: the identity permutation and the ring of a single proxy. -/
theorem two_record_scenario_witness :
    idRand.Valid ∧ Atoi (exLocate "k1") = 0 ∧
    (∃ (shard : List Nat) (wA wB : World), shard.length = 3 ∧ shard.Nodup ∧
      (∀ j ∈ shard, j < 4) ∧
      simulate idRand exLocate exOpts 0 [{ record := scenRecA 300, now := 0 }] =
        some (.done wA) ∧
      (∀ j, objectAt wA 0 j "k1" =
        if j ∈ shard then some { Key := "k1", Sz := 150, Freq := 0 } else none) ∧
      (∀ j, j < 4 → cell wA.reuseTimeline j 0 = if j ∈ shard then 1 else 0) ∧
      simulate idRand exLocate exOpts 0
        [{ record := scenRecA 300, now := 0 }, { record := scenRecB 300, now := 1 }] =
          some (.done wB) ∧
      (∀ j ∈ shard, objectAt wB 0 j "k1" = some { Key := "k1", Sz := 150, Freq := 1 }) ∧
      (∀ j ∈ shard, cell wB.reuseTimeline j 1 = 1) ∧
      wB.memArr = wA.memArr) :=
  ⟨idRand_valid, by decide,
   (two_record_scenario idRand idRand_valid exLocate (by decide) 0 0 1).1⟩

/-- C13 (no eviction). For every state and record, and whatever the outcome of the
call, every key bound in the proxy's `Map` before `perform` is bound after it (to
the same shard set), and every key of every worker's `Kvs` before `perform` is a
key of that worker's `Kvs` after it. Hence, along the whole record loop, a key that
is Placed stays Placed with its shard set and an Object that exists keeps existing;
and a record whose key is Placed is served by the hit loop, without a call of
`random`. -/
theorem no_eviction (R : RandSource) (opts : Options) :
    (∀ now gen p rec tl mem k idxs, mapLookup k p.Map = some idxs →
      mapLookup k (perform R now gen p rec tl mem opts).1.state.p.Map = some idxs) ∧
    (∀ now gen p rec tl mem (j : Nat) lam k obj, p.LambdaPool[j]? = some lam →
      mapLookup k lam.Kvs = some obj →
      ∃ lam1 obj1, (perform R now gen p rec tl mem opts).1.state.p.LambdaPool[j]? = some lam1 ∧
        mapLookup k lam1.Kvs = some obj1) ∧
    (∀ locate w trace i k idxs, PlacedIn w i k idxs →
      PlacedIn (mainLoop R locate opts w trace).state i k idxs) ∧
    (∀ locate w trace i j k obj, objectAt w i j k = some obj →
      ∃ obj1, objectAt (mainLoop R locate opts w trace).state i j k = some obj1) ∧
    (∀ now gen p rec tl mem idxs, mapLookup rec.Key p.Map = some idxs →
      perform R now gen p rec tl mem opts =
        (forEach (hitStep rec opts) idxs { p := p, reuseTimeline := tl, memArr := mem }, gen)) := by
  refine ⟨?_, ?_, ?_, ?_, ?_⟩
  · intro now gen p rec tl mem k idxs h
    exact perform_keeps_map R now gen p rec tl mem opts h
  · intro now gen p rec tl mem j lam k obj hl hk
    exact perform_keeps_kvs R now gen p rec tl mem opts j k hl hk
  · intro locate w trace i k idxs h
    exact mainLoop_state_inv R locate opts (fun w => PlacedIn w i k idxs)
      (fun w id rec now hw => step_keeps_placed R opts w id rec now hw) trace w h
  · intro locate w trace i j k obj h
    exact mainLoop_state_inv R locate opts (fun w => ∃ obj1, objectAt w i j k = some obj1)
      (fun w id rec now hw => by
        obtain ⟨o, ho⟩ := hw
        exact step_keeps_objects R opts w id rec now ho) trace w ⟨obj, h⟩
  · intro now gen p rec tl mem idxs h
    unfold perform
    rw [h]

/-- Witness of C13: in the worked example the placement of "k1" made by record A
survives record B, as does the Object on worker 2. -/
theorem no_eviction_witness :
    mapLookup "k1" exStoreA.p.Map = some [0, 1, 2] ∧
    mapLookup "k1"
      (perform idRand 1 1 exStoreA.p exRecB exStoreA.reuseTimeline exStoreA.memArr
        exOpts).1.state.p.Map = some [0, 1, 2] :=
  ⟨by decide,
   (no_eviction idRand exOpts).1 1 1 exStoreA.p exRecB exStoreA.reuseTimeline exStoreA.memArr
    "k1" [0, 1, 2] (by decide)⟩

/-- Counterexample to C15: a second call of `random` made with the generator in
the state the first call left behind returns different shard sets at two different
clock readings, so its result depends on the clock reading at the time of the
call. -/
theorem seeding_discipline_counterexample :
    (random exRand 1 (random exRand 0 0 4 3).2 4 3).1 = some [1, 2, 3] ∧
    (random exRand 2 (random exRand 0 0 4 3).2 4 3).1 = some [2, 3, 0] ∧
    (random exRand 1 (random exRand 0 0 4 3).2 4 3).1 ≠
      (random exRand 2 (random exRand 0 0 4 3).2 4 3).1 := by
  decide

/-- C15, amended (seeding of the shard placer). `random` reseeds the generator from
the clock on every call: for every generator, clock reading and arguments, the
returned slice and the generator state left behind are the same whatever state the
previous call left, and they are those of a permutation drawn right after seeding
with the clock reading of the call. -/
theorem seeding_discipline (R : RandSource) (now : Int) (numLambdas numChunks : Int) :
    (∀ gen gen2 : Nat,
      random R now gen numLambdas numChunks = random R now gen2 numLambdas numChunks) ∧
    (∀ gen : Nat, 0 ≤ numLambdas → 0 ≤ numChunks →
      numChunks ≤ ((R.perm (R.seed now) numLambdas.toNat).1.length : Int) →
      random R now gen numLambdas numChunks =
        (some ((R.perm (R.seed now) numLambdas.toNat).1.take numChunks.toNat),
          (R.perm (R.seed now) numLambdas.toNat).2)) := by
  refine ⟨fun _ _ => rfl, ?_⟩
  intro gen h0 h1 h2
  unfold random
  simp only [not_lt.2 h0, if_false, h1, h2, and_self, if_true]

/-- Witness of the amended C15: with the rotating generator, a call at clock
reading 1 returns `[1, 2, 3]` whether the previous call left state 0 or state 7. -/
theorem seeding_discipline_witness :
    random exRand 1 0 4 3 = random exRand 1 7 4 3 ∧
    random exRand 1 7 4 3 = (some [1, 2, 3], 2) :=
  ⟨(seeding_discipline exRand 1 4 3).1 0 7,
   (seeding_discipline exRand 1 4 3).2 7 (by decide) (by decide) (by decide)⟩

/-- Counterexample to C14: for a timeline of two workers and three buckets the
text written by `printAccessHistory` separates the numbers by a comma followed by
two spaces (the format string of line 121 is `"%d,  "`), which is not the text with
a comma followed by one space. -/
theorem reuse_output_format_counterexample :
    printAccessHistory [[1, 0, 2], [0, 3, 0]] 3 = some "1,  0,  2\n0,  3,  0\n" ∧
    specReport ", " 3 [[1, 0, 2], [0, 3, 0]] = "1, 0, 2\n0, 3, 0\n" ∧
    printAccessHistory [[1, 0, 2], [0, 3, 0]] 3 ≠
      some (specReport ", " 3 [[1, 0, 2], [0, 3, 0]]) := by
  decide

/-- C14, amended (reuse-timeline output format). For every timeline whose rows have
at least `numHours ≥ 1` cells, `printAccessHistory` does not panic and the text it
writes consists of one line per worker in global-worker-index order, with no
header, each line being the row's first `numHours` cells in bucket order, written
as decimal integers, separated by a comma followed by two spaces and terminated by
a newline. -/
theorem reuse_output_format (tl : List (List Int)) (numHours : Int) (h1 : 1 ≤ numHours)
    (h2 : numHours < 9223372036854775808)
    (h3 : ∀ row ∈ tl, numHours ≤ (row.length : Int)) :
    printAccessHistory tl numHours = some (specReport ",  " numHours.toNat tl) :=
  printRows_spec h1 h2 tl h3

/-- Witness of the amended C14: the timeline of the worked example after records A
and B, two buckets per row. -/
theorem reuse_output_format_witness :
    (∀ row ∈ exWorldB.reuseTimeline, (2 : Int) ≤ (row.length : Int)) ∧
    printAccessHistory exWorldB.reuseTimeline 2 = some "1,  1\n1,  1\n1,  1\n0,  0\n" :=
  ⟨by decide,
   reuse_output_format exWorldB.reuseTimeline 2 (by decide) (by decide) (by decide)⟩

/-- C12 (size refresh and drift). (a) After every `perform` that returns, hit or
miss, the Object of the record's key on each worker of the key's shard set has
`Sz = rec.Sz / uint64(NumDataShards)`, which is `rec.Sz / NumDataShards` as an
integer division when there is at least one data shard. (b) On the hit path,
whatever the outcome, no worker's `MemUsed` changes and `memArr` does not change.
(c) So there is a trace with two sizes for one key (key "k1" with size 300, then
with size 500, two data shards) after which a worker's `MemUsed` is 150 while the
sum of `Object.Sz` over its `Kvs` is 250. -/
theorem size_refresh_and_drift :
    (∀ (R : RandSource) (opts : Options) (now : Int) (gen : Nat) (p : Proxy) (rec : Record)
        (tl : List (List Int)) (mem : List Int) (st : Store),
      (perform R now gen p rec tl mem opts).1 = .done st →
      ∃ shard, mapLookup rec.Key st.p.Map = some shard ∧
        (∀ idxs, mapLookup rec.Key p.Map = some idxs → idxs = shard) ∧
        ∀ j ∈ shard, ∃ lam obj, st.p.LambdaPool[j]? = some lam ∧
          mapLookup rec.Key lam.Kvs = some obj ∧
          obj.Sz = rec.Sz / toUint64 opts.NumDataShards ∧
          (1 ≤ opts.NumDataShards → opts.NumDataShards < 9223372036854775808 →
            obj.Sz = rec.Sz / opts.NumDataShards.toNat)) ∧
    (∀ (R : RandSource) (opts : Options) (now : Int) (gen : Nat) (p : Proxy) (rec : Record)
        (tl : List (List Int)) (mem : List Int) (val : List Nat),
      mapLookup rec.Key p.Map = some val →
      (perform R now gen p rec tl mem opts).1.state.p.LambdaPool.map Lambda.MemUsed =
        p.LambdaPool.map Lambda.MemUsed ∧
      (perform R now gen p rec tl mem opts).1.state.memArr = mem) ∧
    (∃ wf lam, simulate idRand exLocate exOpts 0 exDriftTrace = some (.done wf) ∧
      lambdaAt wf 0 0 = some lam ∧ lam.MemUsed = 150 ∧ szSum lam = 250 ∧
      lam.MemUsed ≠ szSum lam) := by
  refine ⟨?_, ?_, ?_⟩
  · intro R opts now gen p rec tl mem st h
    obtain ⟨shard, h1, h2, h3⟩ := perform_size h
    refine ⟨shard, h1, h2, ?_⟩
    intro j hj
    obtain ⟨lam, obj, a1, a2, a3⟩ := h3 j hj
    refine ⟨lam, obj, a1, a2, a3, ?_⟩
    intro hd1 hd2
    rw [a3]
    congr 1
    unfold toUint64
    rw [Int.emod_eq_of_lt (by omega) (by omega)]
  · intro R opts now gen p rec tl mem val hv
    exact perform_hit_memory R now gen p rec tl mem opts hv
  · exact ⟨(mainLoop idRand exLocate exOpts exWorld0 exDriftTrace).state,
      { Kvs := [("k1", { Key := "k1", Sz := 250, Freq := 1 })], MemUsed := 150 },
      by decide, by decide, by decide, by decide, by decide⟩

/-- Witness of C12: the second record of the size-drift example is a hit on the
state left by record A; afterwards the Object on worker 0 has size 500 / 2. -/
theorem size_refresh_and_drift_witness :
    (perform idRand 1 1 exStoreA.p exRecA500 exStoreA.reuseTimeline exStoreA.memArr exOpts).1 =
      .done (perform idRand 1 1 exStoreA.p exRecA500 exStoreA.reuseTimeline exStoreA.memArr
        exOpts).1.state ∧
    ∃ shard, mapLookup exRecA500.Key
        (perform idRand 1 1 exStoreA.p exRecA500 exStoreA.reuseTimeline exStoreA.memArr
          exOpts).1.state.p.Map = some shard ∧
      (∀ idxs, mapLookup exRecA500.Key exStoreA.p.Map = some idxs → idxs = shard) ∧
      ∀ j ∈ shard, ∃ lam obj,
        (perform idRand 1 1 exStoreA.p exRecA500 exStoreA.reuseTimeline exStoreA.memArr
          exOpts).1.state.p.LambdaPool[j]? = some lam ∧
        mapLookup exRecA500.Key lam.Kvs = some obj ∧
        obj.Sz = exRecA500.Sz / toUint64 exOpts.NumDataShards ∧
        (1 ≤ exOpts.NumDataShards → exOpts.NumDataShards < 9223372036854775808 →
          obj.Sz = exRecA500.Sz / exOpts.NumDataShards.toNat) :=
  ⟨by decide,
   size_refresh_and_drift.1 idRand exOpts 1 1 exStoreA.p exRecA500 exStoreA.reuseTimeline
    exStoreA.memArr _ (by decide)⟩

/-- C16 (per-step timeline effect). With `rand.Perm` returning a permutation, a
valid configuration, a state satisfying the run invariants whose counters are
below the largest Go `int`, a proxy number `i < NumProxies` and a record with
`TimestampHr < NumHours`: the call of `perform` returns, on the hit path and on the
miss path alike; no cell of `reuseTimeline` decreases; cell `[g][j]` grows by
exactly 1 when `g = i*NumLambdasPerProxy + idx` for an index `idx` of the key's
shard set and `j = TimestampHr`, and is unchanged otherwise; the shard set has
`dataShards + parityShards` distinct indices, and exactly that many rows have a
changed cell. -/
theorem timeline_step_effect (R : RandSource) (hR : R.Valid) (opts : Options)
    (hV : opts.Valid) (w : World) (hW : WorldInv opts w) (i : Nat)
    (hi : (i : Int) < opts.NumProxies) (rec : Record)
    (hhr : (rec.TimestampHr : Int) < opts.NumHours) (now : Int)
    (hcap : ∀ g j, -9223372036854775808 ≤ cell w.reuseTimeline g j ∧
      cell w.reuseTimeline g j < 9223372036854775807) :
    ∃ w1 shard, step R opts w (i : Int) rec now = .done w1 ∧
      PlacedIn w1 i rec.Key shard ∧ PlacementShape opts shard ∧
      (∀ i2 idxs, PlacedIn w i2 rec.Key idxs → i2 = i → idxs = shard) ∧
      (∀ g j : Nat, cell w.reuseTimeline g j ≤ cell w1.reuseTimeline g j) ∧
      (∀ g j : Nat, cell w1.reuseTimeline g j =
        if g / opts.NumLambdasPerProxy.toNat = i ∧
            g % opts.NumLambdasPerProxy.toNat ∈ shard ∧ j = rec.TimestampHr
        then cell w.reuseTimeline g j + 1 else cell w.reuseTimeline g j) ∧
      (∀ idx ∈ shard,
        cell w1.reuseTimeline (i * opts.NumLambdasPerProxy.toNat + idx) rec.TimestampHr =
          cell w.reuseTimeline (i * opts.NumLambdasPerProxy.toNat + idx) rec.TimestampHr + 1) ∧
      (((List.range w.reuseTimeline.length).countP
          (fun g => decide (cell w1.reuseTimeline g rec.TimestampHr ≠
            cell w.reuseTimeline g rec.TimestampHr)) : Nat) : Int) =
        opts.NumDataShards + opts.NumParityShards := by
  obtain ⟨w1, shard, hstep, hpl, hshape, hcell, hmem⟩ := step_cells hR hV hW hi rec hhr now
  have hform : ∀ g j : Nat, cell w1.reuseTimeline g j =
      if g / opts.NumLambdasPerProxy.toNat = i ∧
          g % opts.NumLambdasPerProxy.toNat ∈ shard ∧ j = rec.TimestampHr
      then cell w.reuseTimeline g j + 1 else cell w.reuseTimeline g j := by
    intro g j
    rw [hcell g j]
    split
    · exact wrapInt_of_range (by have := hcap g j; omega) (by have := hcap g j; omega)
    · rfl
  have hN0 : 0 ≤ opts.NumLambdasPerProxy := hV.2.1
  refine ⟨w1, shard, hstep, hpl, hshape, ?_, ?_, hform, ?_, ?_⟩
  · intro i2 idxs h e
    subst e
    rcases hmem with ⟨hp, -⟩ | ⟨hn, -⟩
    · exact PlacedIn_unique h hp
    · exact absurd h (hn idxs)
  · intro g j
    rw [hform g j]
    split <;> omega
  · intro idx hidx
    have hlt : idx < opts.NumLambdasPerProxy.toNat := by
      have := hshape.2.2 idx hidx
      omega
    obtain ⟨h1, h2⟩ := addr_div_mod i hlt
    rw [hform, if_pos ⟨h1, by rw [h2]; exact hidx, rfl⟩]
  · have hcongr : (List.range w.reuseTimeline.length).countP
          (fun g => decide (cell w1.reuseTimeline g rec.TimestampHr ≠
            cell w.reuseTimeline g rec.TimestampHr)) =
        (List.range w.reuseTimeline.length).countP
          (fun g => decide (g / opts.NumLambdasPerProxy.toNat = i ∧
            g % opts.NumLambdasPerProxy.toNat ∈ shard)) := by
      apply List.countP_congr
      intro g _
      simp only [decide_eq_true_eq]
      rw [hform g rec.TimestampHr]
      constructor
      · intro h
        by_contra hc
        rw [if_neg (fun hh => hc ⟨hh.1, hh.2.1⟩)] at h
        exact h rfl
      · rintro ⟨h1, h2⟩
        rw [if_pos ⟨h1, h2, rfl⟩]
        omega
    have hle : (i + 1) * opts.NumLambdasPerProxy.toNat ≤ w.reuseTimeline.length := by
      have h1 : ((i + 1 : Nat) : Int) * opts.NumLambdasPerProxy ≤
          opts.NumProxies * opts.NumLambdasPerProxy :=
        mul_le_mul_of_nonneg_right (by push_cast; omega) hN0
      have h2 : ((opts.NumLambdasPerProxy.toNat : Nat) : Int) = opts.NumLambdasPerProxy :=
        Int.toNat_of_nonneg hN0
      have h3 := hW.2.2.1
      rw [← h2] at h1 h3
      have h4 : (((i + 1) * opts.NumLambdasPerProxy.toNat : Nat) : Int) ≤
          (w.reuseTimeline.length : Int) := by
        rw [h3]
        push_cast
        push_cast at h1
        exact h1
      exact_mod_cast h4
    rw [hcongr, addressed_count hshape.2.1
      (fun idx hidx => by have := hshape.2.2 idx hidx; omega) hle]
    exact hshape.1

/-- Witness of C16: record A of the worked example on the initial state. -/
theorem timeline_step_effect_witness :
    idRand.Valid ∧ exOpts.Valid ∧ WorldInv exOpts exWorld0 ∧
    ∃ w1 shard, step idRand exOpts exWorld0 ((0 : Nat) : Int) exRecA 0 = .done w1 ∧
      PlacedIn w1 0 exRecA.Key shard ∧ PlacementShape exOpts shard ∧
      (∀ i2 idxs, PlacedIn exWorld0 i2 exRecA.Key idxs → i2 = 0 → idxs = shard) ∧
      (∀ g j : Nat, cell exWorld0.reuseTimeline g j ≤ cell w1.reuseTimeline g j) ∧
      (∀ g j : Nat, cell w1.reuseTimeline g j =
        if g / exOpts.NumLambdasPerProxy.toNat = 0 ∧
            g % exOpts.NumLambdasPerProxy.toNat ∈ shard ∧ j = exRecA.TimestampHr
        then cell exWorld0.reuseTimeline g j + 1 else cell exWorld0.reuseTimeline g j) ∧
      (∀ idx ∈ shard,
        cell w1.reuseTimeline (0 * exOpts.NumLambdasPerProxy.toNat + idx) exRecA.TimestampHr =
          cell exWorld0.reuseTimeline (0 * exOpts.NumLambdasPerProxy.toNat + idx)
            exRecA.TimestampHr + 1) ∧
      (((List.range exWorld0.reuseTimeline.length).countP
          (fun g => decide (cell w1.reuseTimeline g exRecA.TimestampHr ≠
            cell exWorld0.reuseTimeline g exRecA.TimestampHr)) : Nat) : Int) =
        exOpts.NumDataShards + exOpts.NumParityShards :=
  ⟨idRand_valid, exOpts_valid, exWorld0_inv,
   timeline_step_effect idRand idRand_valid exOpts exOpts_valid exWorld0 exWorld0_inv 0
    (by decide) exRecA (by decide) 0 exWorld0_cap⟩

/-- Counterexample to C19: with one data shard and minus one parity shard
(`dataShards >= 1` and `0 <= dataShards + parityShards <= NumLambdasPerProxy`
hold), the proxy as `initProxies` builds it, accumulators of the right sizes and a
record of bucket 100 with `NumHours = 2`, `perform` returns: the shard set is
empty, so the timeline is never indexed. -/
theorem perform_totality_counterexample :
    1 ≤ exNoShardOpts.NumDataShards ∧
    0 ≤ exNoShardOpts.NumDataShards + exNoShardOpts.NumParityShards ∧
    exNoShardOpts.NumDataShards + exNoShardOpts.NumParityShards ≤
      exNoShardOpts.NumLambdasPerProxy ∧
    initProxies exNoShardOpts.NumProxies exNoShardOpts.NumLambdasPerProxy = some [exProxy0] ∧
    initTimeline (exNoShardOpts.NumProxies * exNoShardOpts.NumLambdasPerProxy)
      exNoShardOpts.NumHours = some exTimeline0 ∧
    exNoShardOpts.NumHours ≤ (exRecLate.TimestampHr : Int) ∧
    (perform idRand 0 0 exProxy0 exRecLate exTimeline0 exMem0 exNoShardOpts).1.isDone = true := by
  decide

/-- C19, amended (totality of `perform` under its preconditions). With `rand.Perm`
returning a permutation, a valid configuration (in particular `dataShards >= 1`
and `0 <= dataShards + parityShards <= NumLambdasPerProxy`), a proxy with the id
of position `i < NumProxies` that satisfies the placement invariants, and
accumulators with `NumProxies*NumLambdasPerProxy` rows (entries) of `NumHours`
cells: a record with `TimestampHr < NumHours` makes `perform` return (no division
by zero, no index out of range, no missing Object), and the invariants hold again;
a record with `TimestampHr >= NumHours` makes `perform` panic provided
`dataShards + parityShards >= 1`. -/
theorem perform_totality (R : RandSource) (hR : R.Valid) (opts : Options) (hV : opts.Valid)
    (p : Proxy) (i : Nat) (hId : p.Id = Itoa (i : Int)) (hi : (i : Int) < opts.NumProxies)
    (hP : ProxyInv opts p) (tl : List (List Int)) (mem : List Int)
    (htl : (tl.length : Int) = opts.NumProxies * opts.NumLambdasPerProxy)
    (hrows : ∀ row ∈ tl, (row.length : Int) = opts.NumHours)
    (hmem : (mem.length : Int) = opts.NumProxies * opts.NumLambdasPerProxy)
    (rec : Record) (now : Int) (gen : Nat) :
    ((rec.TimestampHr : Int) < opts.NumHours →
      ∃ st g, perform R now gen p rec tl mem opts = (.done st, g) ∧ ProxyInv opts st.p ∧
        (st.reuseTimeline.length : Int) = opts.NumProxies * opts.NumLambdasPerProxy ∧
        (∀ row ∈ st.reuseTimeline, (row.length : Int) = opts.NumHours) ∧
        (st.memArr.length : Int) = opts.NumProxies * opts.NumLambdasPerProxy) ∧
    (opts.NumHours ≤ (rec.TimestampHr : Int) →
      1 ≤ opts.NumDataShards + opts.NumParityShards →
      (perform R now gen p rec tl mem opts).1.isDone = false) := by
  constructor
  · intro hhr
    obtain ⟨st, g, shard, hperf, -, hPst, -⟩ :=
      perform_spec hR hV hId hi hP htl hrows hmem rec hhr now gen
    have hsizes := perform_sizes R now gen p rec tl mem opts
    rw [hperf] at hsizes
    simp only [Outcome.state] at hsizes
    refine ⟨st, g, hperf, hPst, ?_, ?_, ?_⟩
    · rw [length_of_map_length hsizes.1]
      exact htl
    · intro row hrow
      exact rows_of_map_length hsizes.1 hrows row hrow
    · rw [hsizes.2.1]
      exact hmem
  · intro hhr hne
    refine perform_late_fails R now gen p rec tl mem opts ?_ ?_ ?_
    · intro row hrow
      have := hrows row hrow
      omega
    · intro idxs hk hnil
      have := (hP.2.1 rec.Key idxs hk).1
      rw [hnil] at this
      simp only [List.length_nil] at this
      omega
    · rw [Options.Valid.wrap_shards hV]
      exact hne

/-- Witness of the amended C19: the proxy of the worked example in its initial
state and record A. -/
theorem perform_totality_witness :
    idRand.Valid ∧ exOpts.Valid ∧ ProxyInv exOpts exProxy0 ∧
    ((exRecA.TimestampHr : Int) < exOpts.NumHours →
      ∃ st g, perform idRand 0 0 exProxy0 exRecA exTimeline0 exMem0 exOpts = (.done st, g) ∧
        ProxyInv exOpts st.p ∧
        (st.reuseTimeline.length : Int) = exOpts.NumProxies * exOpts.NumLambdasPerProxy ∧
        (∀ row ∈ st.reuseTimeline, (row.length : Int) = exOpts.NumHours) ∧
        (st.memArr.length : Int) = exOpts.NumProxies * exOpts.NumLambdasPerProxy) ∧
    (exOpts.NumHours ≤ (exRecA.TimestampHr : Int) →
      1 ≤ exOpts.NumDataShards + exOpts.NumParityShards →
      (perform idRand 0 0 exProxy0 exRecA exTimeline0 exMem0 exOpts).1.isDone = false) :=
  ⟨idRand_valid, exOpts_valid, (exWorld0_inv.2.1 0 exProxy0 (by decide)).2,
   perform_totality idRand idRand_valid exOpts exOpts_valid exProxy0 0 (by decide) (by decide)
    (exWorld0_inv.2.1 0 exProxy0 (by decide)).2 exTimeline0 exMem0 (by decide) (by decide)
    (by decide) exRecA 0 0⟩

/-- C17 (order sensitivity). There are a trace and a reordering of it, with the same
records, the same routing and the same placement per key, whose runs both complete
and end with different accumulators: key "k1" is accessed once in bucket 0 and once
in bucket 100 with 4 MiB; when the bucket-0 record comes first, `memArr` ends as
`[4, 4, 4, 0]`, when the bucket-100 record comes first, `memArr` stays
`[0, 0, 0, 0]`. The placements and the reuse timelines of the two runs are
equal. -/
theorem order_sensitivity :
    ∃ (trace trace2 : List Event) (wf wf2 : World), trace.Perm trace2 ∧
      simulate idRand exLocate exLongOpts 0 trace = some (.done wf) ∧
      simulate idRand exLocate exLongOpts 0 trace2 = some (.done wf2) ∧
      wf.proxies.map Proxy.Map = wf2.proxies.map Proxy.Map ∧
      wf.reuseTimeline = wf2.reuseTimeline ∧
      wf.memArr = [4, 4, 4, 0] ∧ wf2.memArr = [0, 0, 0, 0] ∧
      (wf.reuseTimeline, wf.memArr) ≠ (wf2.reuseTimeline, wf2.memArr) := by
  refine ⟨[exEarly, exLate], [exLate, exEarly],
    (mainLoop idRand exLocate exLongOpts ((initWorld exLongOpts 0).getD exWorld0)
      [exEarly, exLate]).state,
    (mainLoop idRand exLocate exLongOpts ((initWorld exLongOpts 0).getD exWorld0)
      [exLate, exEarly]).state,
    List.Perm.swap _ _ _, ?_, ?_, ?_, ?_, ?_, ?_, ?_⟩
  · decide
  · decide
  · decide
  · decide
  · decide
  · decide
  · decide

/-- C18 (reuse timeline order-independent under key-determined placement). Let
routing be a function of the key (it is: the ring is fixed) and let the placement
be a function `place` of the key, that is, `random` returns `place k` whenever it
is called for a record of key `k`. Then for every valid configuration, every trace
(shorter than 2^63) whose records are routed to existing proxies and have
`TimestampHr < NumHours`, and every permutation of that trace, both runs complete
and the final `reuseTimeline` matrices are equal, cell by cell. The stored shard
sets, the set of Objects and their `Freq` are equal as well, which leaves `memArr`,
`MemUsed` and `Object.Sz` as the only order-dependent data. -/
theorem reuse_timeline_order_independent (R : RandSource) (hR : R.Valid)
    (locate : String → String) (opts : Options) (hV : opts.Valid) (place : String → List Nat)
    (gen gen2 : Nat) (trace trace2 : List Event) (hperm : trace.Perm trace2)
    (hT : TraceOK locate opts trace) (hK : KeyPlacement R opts place trace)
    (hlen : trace.length < 9223372036854775808) :
    ∃ wf wf2, simulate R locate opts gen trace = some (.done wf) ∧
      simulate R locate opts gen2 trace2 = some (.done wf2) ∧
      wf.reuseTimeline = wf2.reuseTimeline ∧
      (∀ g j : Nat, cell wf.reuseTimeline g j = cell wf2.reuseTimeline g j) ∧
      (∀ i k idxs, PlacedIn wf i k idxs ↔ PlacedIn wf2 i k idxs) ∧
      (∀ i j k, (∃ obj, objectAt wf i j k = some obj) ↔ ∃ obj2, objectAt wf2 i j k = some obj2) ∧
      (∀ i j k obj obj2, objectAt wf i j k = some obj → objectAt wf2 i j k = some obj2 →
        obj.Freq = obj2.Freq) := by
  obtain ⟨w0, hinit⟩ := initWorld_of_valid hV gen
  obtain ⟨w02, hinit2⟩ := initWorld_of_valid hV gen2
  have hT2 := TraceOK_perm hperm hT
  have hK2 := KeyPlacement_perm hperm hK
  obtain ⟨wf, hrun, hWf, hH, hc⟩ := mainLoop_cells hR hV hinit trace hT
  obtain ⟨wf2, hrun2, hWf2, hH2, hc2⟩ := mainLoop_cells hR hV hinit2 trace2 hT2
  have hcells : ∀ g j : Nat, cell wf.reuseTimeline g j = cell wf2.reuseTimeline g j := by
    intro g j
    rw [hc hlen g j, hc2 (by rw [← hperm.length_eq]; exact hlen) g j]
    congr 1
    have e1 : trace.countP (accessedAt locate opts wf g j) =
        trace.countP (fun e =>
          decide (Atoi (locate e.record.Key) =
            ((g / opts.NumLambdasPerProxy.toNat : Nat) : Int)) &&
          decide (g % opts.NumLambdasPerProxy.toNat ∈ place e.record.Key) &&
          decide (e.record.TimestampHr = j)) :=
      List.countP_congr (fun e he => by rw [accessedAt_of_place hH hK g j he])
    have e2 : trace2.countP (accessedAt locate opts wf2 g j) =
        trace2.countP (fun e =>
          decide (Atoi (locate e.record.Key) =
            ((g / opts.NumLambdasPerProxy.toNat : Nat) : Int)) &&
          decide (g % opts.NumLambdasPerProxy.toNat ∈ place e.record.Key) &&
          decide (e.record.TimestampHr = j)) :=
      List.countP_congr (fun e he => by rw [accessedAt_of_place hH2 hK2 g j he])
    rw [e1, e2]
    exact hperm.countP_eq _
  have hplaced : ∀ (wa wb : World) (ta tb : List Event), ta.Perm tb →
      Hist R locate opts ta wa → Hist R locate opts tb wb → KeyPlacement R opts place ta →
      KeyPlacement R opts place tb →
      ∀ i k idxs, PlacedIn wa i k idxs → PlacedIn wb i k idxs := by
    intro wa wb ta tb hp hHa hHb hKa hKb i k idxs h
    obtain ⟨e, he, hk, hA, -⟩ := hHa.2 i k idxs h
    obtain ⟨idxs2, h2⟩ := hHb.1 e (hp.mem_iff.1 he)
    rw [hk, hA, Int.toNat_ofNat] at h2
    rw [placed_eq_place hHa hKa h, ← placed_eq_place hHb hKb h2]
    exact h2
  have hpl : ∀ i k idxs, PlacedIn wf i k idxs ↔ PlacedIn wf2 i k idxs := fun i k idxs =>
    ⟨hplaced wf wf2 trace trace2 hperm hH hH2 hK hK2 i k idxs,
     hplaced wf2 wf trace2 trace hperm.symm hH2 hH hK2 hK i k idxs⟩
  have hn0 : 0 ≤ opts.NumHours := hV.2.2.2.2.1
  refine ⟨wf, wf2, by rw [simulate_of_init hinit, hrun], by rw [simulate_of_init hinit2, hrun2],
    ?_, hcells, hpl, ?_, ?_⟩
  · refine @timeline_ext wf.reuseTimeline wf2.reuseTimeline opts.NumHours.toNat ?_ ?_ ?_ hcells
    · have h1 := hWf.2.2.1
      have h2 := hWf2.2.2.1
      omega
    · intro row hrow
      have := hWf.2.2.2.1 row hrow
      omega
    · intro row hrow
      have := hWf2.2.2.2.1 row hrow
      omega
  · intro i j k
    rw [object_iff_placed hWf, object_iff_placed hWf2]
    constructor
    · rintro ⟨idxs, h1, h2⟩
      exact ⟨idxs, (hpl i k idxs).1 h1, h2⟩
    · rintro ⟨idxs, h1, h2⟩
      exact ⟨idxs, (hpl i k idxs).2 h1, h2⟩
  · intro i j k obj obj2 ho ho2
    obtain ⟨wa, hruna, -, -, hfa⟩ := mainLoop_freq hR hV trace w0 (initWorld_inv hV hinit) hT
    obtain ⟨wb, hrunb, -, -, hfb⟩ := mainLoop_freq hR hV trace2 w02 (initWorld_inv hV hinit2) hT2
    rw [hrun] at hruna
    rw [hrun2] at hrunb
    cases hruna
    cases hrunb
    obtain ⟨-, h1⟩ := (hfa i j k obj ho).2 (initWorld_objectAt hinit i j k)
    obtain ⟨-, h2⟩ := (hfb i j k obj2 ho2).2 (initWorld_objectAt hinit2 i j k)
    rw [h1, h2, routedKey_perm hperm i k]

/-- Witness of C18: the two records of the worked example in both orders, with
the identity permutation as placement. -/
theorem reuse_timeline_order_independent_witness :
    idRand.Valid ∧ exOpts.Valid ∧
    List.Perm [({ record := exRecA, now := 0 } : Event), { record := exRecB, now := 1 }]
      [{ record := exRecB, now := 1 }, { record := exRecA, now := 0 }] ∧
    TraceOK exLocate exOpts [{ record := exRecA, now := 0 }, { record := exRecB, now := 1 }] ∧
    KeyPlacement idRand exOpts (fun _ => [0, 1, 2])
      [{ record := exRecA, now := 0 }, { record := exRecB, now := 1 }] ∧
    ∃ wf wf2,
      simulate idRand exLocate exOpts 0
        [{ record := exRecA, now := 0 }, { record := exRecB, now := 1 }] = some (.done wf) ∧
      simulate idRand exLocate exOpts 0
        [{ record := exRecB, now := 1 }, { record := exRecA, now := 0 }] = some (.done wf2) ∧
      wf.reuseTimeline = wf2.reuseTimeline ∧
      (∀ g j : Nat, cell wf.reuseTimeline g j = cell wf2.reuseTimeline g j) ∧
      (∀ i k idxs, PlacedIn wf i k idxs ↔ PlacedIn wf2 i k idxs) ∧
      (∀ i j k, (∃ obj, objectAt wf i j k = some obj) ↔ ∃ obj2, objectAt wf2 i j k = some obj2) ∧
      (∀ i j k obj obj2, objectAt wf i j k = some obj → objectAt wf2 i j k = some obj2 →
        obj.Freq = obj2.Freq) :=
  ⟨idRand_valid, exOpts_valid, List.Perm.swap _ _ _, exTrace_ok, fun _ _ _ => rfl,
   reuse_timeline_order_independent idRand idRand_valid exLocate exOpts exOpts_valid
    (fun _ => [0, 1, 2]) 0 0 _ _ (List.Perm.swap _ _ _) exTrace_ok (fun _ _ _ => rfl)
    (by decide)⟩

/-- C20 (memory is attributed by first access only). With `rand.Perm` returning a
permutation, for every valid configuration and every trace whose records are
routed to existing proxies and have `TimestampHr < NumHours`, the run completes
and, for every global worker `g`, `memArr[g]` is the sum (as a Go `int`) of
`int(Sz) / 1048576` over the records that are the first occurrence of their key
(`firsts`, characterised in the third and fourth parts), have `TimestampHr <= 99`
and whose stored shard set contains the local index of `g` in the proxy the key is
routed to. When the sizes fit a Go `int` and their MiB total stays below 2^63 this
is the plain sum of `floor(Sz / 1048576)`. So a key whose first record has
`TimestampHr >= 100` contributes to no entry of `memArr`, whatever its later
records. -/
theorem memory_first_access (R : RandSource) (hR : R.Valid) (locate : String → String)
    (opts : Options) (hV : opts.Valid) (gen : Nat) (trace : List Event)
    (hT : TraceOK locate opts trace) :
    ∃ wf, simulate R locate opts gen trace = some (.done wf) ∧
      (wf.memArr.length : Int) = opts.NumProxies * opts.NumLambdasPerProxy ∧
      (∀ e, e ∈ firsts trace ↔
        trace.find? (fun x => decide (x.record.Key = e.record.Key)) = some e) ∧
      ((firsts trace).map (fun x => x.record.Key)).Nodup ∧
      (∀ (g : Nat) (c : Int), wf.memArr[g]? = some c →
        c = wrapInt (((firsts trace).filter (countedFor locate opts wf g)).map
          (fun e => Int.tdiv (wrapInt (e.record.Sz : Int)) 1048576)).sum) ∧
      ((∀ e ∈ trace, e.record.Sz < 9223372036854775808) →
        (trace.map (fun e => e.record.Sz / 1048576)).sum < 9223372036854775808 →
        ∀ (g : Nat) (c : Int), wf.memArr[g]? = some c →
          c = (((((firsts trace).filter (countedFor locate opts wf g)).map
            (fun e => e.record.Sz / 1048576)).sum : Nat) : Int)) ∧
      (∀ (k : String) (e0 : Event),
        trace.find? (fun x => decide (x.record.Key = k)) = some e0 →
        100 ≤ e0.record.TimestampHr →
        ∀ (g : Nat), ∀ e ∈ (firsts trace).filter (countedFor locate opts wf g),
          e.record.Key ≠ k) := by
  obtain ⟨w0, hinit⟩ := initWorld_of_valid hV gen
  obtain ⟨wf, hrun, hWf, hH, hm⟩ := mainLoop_memArr hR hV hinit trace hT
  refine ⟨wf, by rw [simulate_of_init hinit, hrun], hWf.2.2.2.2, mem_firsts_iff trace,
    firsts_keys_nodup trace, hm, ?_, ?_⟩
  · intro hsz htot g c hc
    rw [hm g c hc]
    have hsub : List.Sublist ((firsts trace).filter (countedFor locate opts wf g)) trace :=
      (List.filter_sublist _).trans (firsts_sublist trace)
    rw [sum_amt_small _ (fun e he => hsz e (hsub.subset he))]
    have hle := sum_sublist_le hsub (fun e => e.record.Sz / 1048576)
    exact wrapInt_of_range (by omega) (by omega)
  · intro k e0 hfind hlate g e he hk
    obtain ⟨hf, hcnt⟩ := List.mem_filter.1 he
    have h1 := (mem_firsts_iff trace e).1 hf
    rw [hk, hfind] at h1
    have he0 : e0 = e := Option.some.inj h1
    subst he0
    unfold countedFor at hcnt
    rw [Bool.and_eq_true, decide_eq_true_eq] at hcnt
    omega

/-- Witness of C20: on a timeline of 101 buckets, key "k1" is accessed with 4 MiB
in bucket 0 and in bucket 100. When the bucket-0 record comes first, the run ends
with `memArr = [4, 4, 4, 0]`: entry 0 is the 4 MiB of that first record alone. When
the bucket-100 record comes first, the run ends with `memArr = [0, 0, 0, 0]`: no
record of "k1" is counted for any entry, although its second record lies inside the
window. -/
theorem memory_first_access_witness :
    idRand.Valid ∧ exLongOpts.Valid ∧
    TraceOK exLocate exLongOpts [exEarly, exLate] ∧
    TraceOK exLocate exLongOpts [exLate, exEarly] ∧
    firsts [exEarly, exLate] = [exEarly] ∧ firsts [exLate, exEarly] = [exLate] ∧
    exEarly.record.Key = "k1" ∧ exEarly.record.TimestampHr ≤ 99 ∧
    (∃ wf, simulate idRand exLocate exLongOpts 0 [exEarly, exLate] = some (.done wf) ∧
      wf.memArr = [4, 4, 4, 0] ∧
      (firsts [exEarly, exLate]).filter (countedFor exLocate exLongOpts wf 0) = [exEarly] ∧
      (∀ (g : Nat) (c : Int), wf.memArr[g]? = some c →
        c = (((((firsts [exEarly, exLate]).filter (countedFor exLocate exLongOpts wf g)).map
          (fun e => e.record.Sz / 1048576)).sum : Nat) : Int))) ∧
    (∃ wf, simulate idRand exLocate exLongOpts 0 [exLate, exEarly] = some (.done wf) ∧
      wf.memArr = [0, 0, 0, 0] ∧
      (∀ (g : Nat) (c : Int), wf.memArr[g]? = some c →
        c = (((((firsts [exLate, exEarly]).filter (countedFor exLocate exLongOpts wf g)).map
          (fun e => e.record.Sz / 1048576)).sum : Nat) : Int)) ∧
      (∀ (g : Nat), ∀ e ∈ (firsts [exLate, exEarly]).filter
          (countedFor exLocate exLongOpts wf g), e.record.Key ≠ "k1")) := by
  refine ⟨idRand_valid, exLongOpts_valid, exEarlyLate_ok, exLateEarly_ok, by decide, by decide,
    by decide, by decide, ?_, ?_⟩
  · obtain ⟨wf, hsim, -, -, -, -, hplain, -⟩ :=
      memory_first_access idRand idRand_valid exLocate exLongOpts exLongOpts_valid 0
        [exEarly, exLate] exEarlyLate_ok
    have h1 : (simulate idRand exLocate exLongOpts 0 [exEarly, exLate]).map
        (fun o => o.state.memArr) = some [4, 4, 4, 0] := by
      decide
    have h2 : (simulate idRand exLocate exLongOpts 0 [exEarly, exLate]).map
        (fun o => (firsts [exEarly, exLate]).filter
          (countedFor exLocate exLongOpts o.state 0)) = some [exEarly] := by
      decide
    rw [hsim] at h1 h2
    exact ⟨wf, hsim, Option.some.inj h1, Option.some.inj h2,
      hplain (by decide) (by decide)⟩
  · obtain ⟨wf, hsim, -, -, -, -, hplain, hlate⟩ :=
      memory_first_access idRand idRand_valid exLocate exLongOpts exLongOpts_valid 0
        [exLate, exEarly] exLateEarly_ok
    have h1 : (simulate idRand exLocate exLongOpts 0 [exLate, exEarly]).map
        (fun o => o.state.memArr) = some [0, 0, 0, 0] := by
      decide
    rw [hsim] at h1
    exact ⟨wf, hsim, Option.some.inj h1, hplain (by decide) (by decide),
      hlate "k1" exLate (by decide) (by decide)⟩

/-- C11 (worker memory total). With `rand.Perm` returning a permutation, for every
valid configuration and every trace whose records are routed to existing proxies
and have `TimestampHr < NumHours`, the run from the state built by `initProxies`
completes and, for every worker: the keys of its `Kvs` are pairwise distinct, each
of them has a placing record (the first record of the trace with that key routed
to the worker's proxy), and `MemUsed` equals the sum over these keys of
`Size of the placing record / dataShards`, computed as a `uint64` (so it is the
plain sum whenever that is below 2^64). In particular, when all records of a key
carry the same size, after every step (for every prefix of the trace) each worker's
`MemUsed` equals the sum of `Object.Sz` over its `Kvs`. -/
theorem worker_memory_total (R : RandSource) (hR : R.Valid) (locate : String → String)
    (opts : Options) (hV : opts.Valid) (gen : Nat) (trace : List Event)
    (hT : TraceOK locate opts trace) :
    ∃ wf, simulate R locate opts gen trace = some (.done wf) ∧
      (∀ i j lam, lambdaAt wf i j = some lam →
        (kvsKeys lam).Nodup ∧
        (∀ k ∈ kvsKeys lam, ∃ e0 ∈ trace, e0.record.Key = k ∧
          trace.find? (routedKey locate i k) = some e0 ∧
          placerSz locate trace i k = e0.record.Sz) ∧
        lam.MemUsed = u64 (((kvsKeys lam).map
          (fun k => placerSz locate trace i k / toUint64 opts.NumDataShards)).sum) ∧
        (((kvsKeys lam).map
          (fun k => placerSz locate trace i k / toUint64 opts.NumDataShards)).sum <
            18446744073709551616 →
          lam.MemUsed = ((kvsKeys lam).map
            (fun k => placerSz locate trace i k / toUint64 opts.NumDataShards)).sum)) ∧
      (∀ sz : String → Nat, (∀ e ∈ trace, e.record.Sz = sz e.record.Key) →
        ∀ pre : List Event, pre <+: trace →
          ∃ w, simulate R locate opts gen pre = some (.done w) ∧
            ∀ i j lam, lambdaAt w i j = some lam →
              lam.MemUsed = u64 (szSum lam) ∧
              (szSum lam < 18446744073709551616 → lam.MemUsed = szSum lam)) := by
  obtain ⟨w0, hinit⟩ := initWorld_of_valid hV gen
  obtain ⟨wf, hrun, hWf, hH, hM, -⟩ := mainLoop_memUsed hR hV hinit trace hT
  refine ⟨wf, by rw [simulate_of_init hinit, hrun], ?_, ?_⟩
  · intro i j lam hl
    obtain ⟨h1, h2⟩ := hM i j lam hl
    refine ⟨h1, fun k hk => placerSz_of_mem (keys_routed hWf hH hl hk), h2, ?_⟩
    intro hlt
    rw [h2]
    exact u64_of_lt hlt
  · intro sz hsz pre hpre
    obtain ⟨post, hpost⟩ := hpre
    have hTp : TraceOK locate opts pre := by
      rw [← hpost] at hT
      exact (TraceOK_append hT).1
    have hszp : ∀ e ∈ pre, e.record.Sz = sz e.record.Key := by
      intro e he
      exact hsz e (by rw [← hpost]; exact List.mem_append_left _ he)
    obtain ⟨w, hrunp, hWp, hHp, hMp, hSp⟩ := mainLoop_memUsed hR hV hinit pre hTp
    refine ⟨w, by rw [simulate_of_init hinit, hrunp], ?_⟩
    intro i j lam hl
    have he := szSum_eq_placers hWp hHp hszp hl (hSp sz hszp i j lam hl)
    have hm := (hMp i j lam hl).2
    rw [he] at hm
    refine ⟨hm, fun hlt => ?_⟩
    rw [hm]
    exact u64_of_lt hlt

/-- Witness of C11: the two records of the worked example. -/
theorem worker_memory_total_witness :
    idRand.Valid ∧ exOpts.Valid ∧
    TraceOK exLocate exOpts [{ record := exRecA, now := 0 }, { record := exRecB, now := 1 }] ∧
    ∃ wf, simulate idRand exLocate exOpts 0
        [{ record := exRecA, now := 0 }, { record := exRecB, now := 1 }] = some (.done wf) ∧
      (∀ i j lam, lambdaAt wf i j = some lam →
        (kvsKeys lam).Nodup ∧
        (∀ k ∈ kvsKeys lam, ∃ e0 ∈ ([{ record := exRecA, now := 0 },
            { record := exRecB, now := 1 }] : List Event), e0.record.Key = k ∧
          ([{ record := exRecA, now := 0 }, { record := exRecB, now := 1 }] : List Event).find?
            (routedKey exLocate i k) = some e0 ∧
          placerSz exLocate [{ record := exRecA, now := 0 }, { record := exRecB, now := 1 }]
            i k = e0.record.Sz) ∧
        lam.MemUsed = u64 (((kvsKeys lam).map
          (fun k => placerSz exLocate [{ record := exRecA, now := 0 },
            { record := exRecB, now := 1 }] i k / toUint64 exOpts.NumDataShards)).sum) ∧
        (((kvsKeys lam).map
          (fun k => placerSz exLocate [{ record := exRecA, now := 0 },
            { record := exRecB, now := 1 }] i k / toUint64 exOpts.NumDataShards)).sum <
            18446744073709551616 →
          lam.MemUsed = ((kvsKeys lam).map
            (fun k => placerSz exLocate [{ record := exRecA, now := 0 },
              { record := exRecB, now := 1 }] i k / toUint64 exOpts.NumDataShards)).sum)) ∧
      (∀ sz : String → Nat,
        (∀ e ∈ ([{ record := exRecA, now := 0 }, { record := exRecB, now := 1 }] : List Event),
          e.record.Sz = sz e.record.Key) →
        ∀ pre : List Event,
          pre <+: [{ record := exRecA, now := 0 }, { record := exRecB, now := 1 }] →
          ∃ w, simulate idRand exLocate exOpts 0 pre = some (.done w) ∧
            ∀ i j lam, lambdaAt w i j = some lam →
              lam.MemUsed = u64 (szSum lam) ∧
              (szSum lam < 18446744073709551616 → lam.MemUsed = szSum lam)) :=
  ⟨idRand_valid, exOpts_valid, exTrace_ok,
   worker_memory_total idRand idRand_valid exLocate exOpts exOpts_valid 0
    [{ record := exRecA, now := 0 }, { record := exRecB, now := 1 }] exTrace_ok⟩

end Redbench
